import Mathlib

/-!
Verification development for the diagram-editor repository (src/main.rs).

The program is a block-diagram editor built on the egui_snarl node-graph
widget.  Its core is the "Convert To Subsystem" command in
`show_graph_menu`, together with the navigation commands
("Enter Subsystem" / "Go Up One Level") and the port-dropping viewer
callbacks (`drop_inputs` / `drop_outputs`).

The embedding below translates the relevant Rust code into Lean:

* `Input`, `Output`, `Node`, `Subsystem` mirror the structs of main.rs.
* `Snarl` models the `egui_snarl::Snarl<Node>` container.  That container
  lives in an external crate, so its primitives (`insert_node`,
  `remove_node`, `connect`, `drop_inputs`, pin queries) are modelled from
  the specification's description of the Graph primitives (spec section
  4.1): fresh sequential ids, wires as directed (out-pin, in-pin) pairs,
  at-most-one-wire-per-input enforced by `connect` replacing the previous
  wire on the target input pin.
* `Rc<RefCell<Subsystem>>` sharing is modelled by a `Heap` of subsystems
  addressed by numeric references; a `Node.subsystem` field stores such a
  reference, and the `DiagramViewer` stores references for `current` and
  the `previous` stack.
* Every Rust expression that can panic (indexing a missing node or port,
  `.expect(..)`) is modelled in the `Option` monad: a `none` result of
  `convertToSubsystem` models an aborted (panicking) operation.
-/

/- Node identifiers (ids assigned by a `Snarl`), heap references standing
for `Rc<RefCell<Subsystem>>`, and selections (lists of node ids) are all
plain `Nat` / `List Nat`. -/

/-- `egui_snarl::InPinId`: an input pin, addressed by node id and input index. -/
structure InPinId where
  node : Nat
  input : Nat
deriving DecidableEq, Repr

/-- `egui_snarl::OutPinId`: an output pin, addressed by node id and output index. -/
structure OutPinId where
  node : Nat
  output : Nat
deriving DecidableEq, Repr

/-- A wire, as yielded by `Snarl::wires()`: a directed `(out-pin, in-pin)` pair. -/
abbrev Wire := OutPinId × InPinId

/-- `InputKind` from main.rs. -/
inductive InputKind where
  | Normal
  | External
  | Internal
deriving DecidableEq, Repr

/-- `OutputKind` from main.rs. -/
inductive OutputKind where
  | Normal
  | External
  | Internal
deriving DecidableEq, Repr

/-- `Input` from main.rs: a named input port with a boundary kind. -/
structure Input where
  name : String
  kind : InputKind
deriving DecidableEq, Repr

/-- `Output` from main.rs: a named output port with a boundary kind. -/
structure Output where
  name : String
  kind : OutputKind
deriving DecidableEq, Repr

/-- A node position (`egui::Pos2`).  Positions only determine layout, never
behaviour; the f32 coordinates are modelled as integers. -/
structure Pos where
  x : Int
  y : Int
deriving DecidableEq, Repr

/-- `Node` from main.rs: name, ordered input ports, ordered output ports and
an optional shared reference to a nested subsystem. -/
structure Node where
  name : String
  inputs : List Input
  outputs : List Output
  subsystem : Option Nat
deriving DecidableEq, Repr

/-- Modelled from the spec: the `egui_snarl::Snarl<Node>` container (an
external crate), per spec section 4.1 — nodes stored with their position
under stable ids that are never reused, plus the wire list.  `nextId` is the
source of fresh ids; every live id is below it. -/
structure Snarl where
  nodes : List (Nat × Pos × Node)
  wires : List Wire
  nextId : Nat
deriving DecidableEq, Repr

/-- `Subsystem` from main.rs: owns exactly one graph. -/
structure Subsystem where
  snarl : Snarl
deriving DecidableEq, Repr

/-- `Subsystem::new` / `Subsystem::default`. -/
def Subsystem.new : Subsystem := ⟨⟨[], [], 0⟩⟩

/-- The heap of shared subsystems, modelling `Rc<RefCell<Subsystem>>`
allocation: each allocation yields a fresh reference. -/
structure Heap where
  subs : List (Nat × Subsystem)
  nextRef : Nat
deriving DecidableEq, Repr

/-- Dereference a shared subsystem. -/
def Heap.lookup (h : Heap) (r : Nat) : Option Subsystem :=
  (h.subs.find? (fun e => e.1 == r)).map (·.2)

/-- Allocate a fresh shared subsystem (`Rc::new(RefCell::new(sub))`). -/
def Heap.alloc (h : Heap) (sub : Subsystem) : Heap × Nat :=
  (⟨h.subs ++ [(h.nextRef, sub)], h.nextRef + 1⟩, h.nextRef)

/-- Modelled from the spec: `Snarl::insert_node` assigns a fresh id, stores
the node with its position and returns the id (spec section 4.1). -/
def Snarl.insertNode (s : Snarl) (pos : Pos) (node : Node) : Snarl × Nat :=
  (⟨s.nodes ++ [(s.nextId, pos, node)], s.wires, s.nextId + 1⟩, s.nextId)

/-- Look up a node entry (`Snarl::get_node_info`, restricted to position and
node data). -/
def Snarl.getNodeEntry (s : Snarl) (id : Nat) : Option (Pos × Node) :=
  (s.nodes.find? (fun e => e.1 == id)).map (·.2)

/-- Look up the node data stored under an id. -/
def Snarl.getNode (s : Snarl) (id : Nat) : Option Node :=
  (s.getNodeEntry id).map (·.2)

/-- Modelled from the spec: `Snarl::remove_node` detaches the node,
dropping every wire with an endpoint on it (spec section 4.1). -/
def Snarl.removeNode (s : Snarl) (id : Nat) : Snarl :=
  ⟨s.nodes.filter (fun e => e.1 != id),
   s.wires.filter (fun w => w.1.node != id && w.2.node != id),
   s.nextId⟩

/-- Modelled from the spec: `Snarl::connect` — if the input pin already
carries a wire, the old wire is replaced by the new one (the
at-most-one-input invariant is enforced at connect time), and connecting
identical endpoints twice is idempotent (spec section 4.1). -/
def Snarl.connect (s : Snarl) (po : OutPinId) (pi : InPinId) : Snarl :=
  ⟨s.nodes, (s.wires.filter (fun w => w.2 != pi)) ++ [(po, pi)], s.nextId⟩

/-- Replace the node data stored under an id, keeping its position. -/
def Snarl.setNode (s : Snarl) (id : Nat) (node : Node) : Snarl :=
  ⟨s.nodes.map (fun e => if e.1 == id then (e.1, e.2.1, node) else e),
   s.wires, s.nextId⟩

/-- `in_pin(pin).remotes`: the output pins wired into the given input pin. -/
def Snarl.inPinRemotes (s : Snarl) (pin : InPinId) : List OutPinId :=
  (s.wires.filter (fun w => w.2 == pin)).map (·.1)

/-- `out_pin(pin).remotes`: the input pins wired from the given output pin. -/
def Snarl.outPinRemotes (s : Snarl) (pin : OutPinId) : List InPinId :=
  (s.wires.filter (fun w => w.1 == pin)).map (·.2)

/-- Modelled from the spec: `Snarl::drop_inputs` removes all wires touching
the given input pin and returns the remaining wire count on that port
(spec section 4.1), which is zero once they are removed. -/
def Snarl.dropInputs (s : Snarl) (pin : InPinId) : Snarl × Nat :=
  let s' : Snarl := ⟨s.nodes, s.wires.filter (fun w => w.2 != pin), s.nextId⟩
  (s', (s'.wires.filter (fun w => w.2 == pin)).length)

/-- Modelled from the spec: `Snarl::drop_outputs`, symmetrically. -/
def Snarl.dropOutputs (s : Snarl) (pin : OutPinId) : Snarl × Nat :=
  let s' : Snarl := ⟨s.nodes, s.wires.filter (fun w => w.1 != pin), s.nextId⟩
  (s', (s'.wires.filter (fun w => w.1 == pin)).length)

/-- The viewer's `drop_inputs` callback (main.rs lines 153-160): drop all
wires of the pin and, when the port is left with zero wires, remove the
port from the owning node's input list immediately, in place.  (The Rust
`Vec::remove` panics on an out-of-range index; `List.eraseIdx` is a no-op
there, which no claim exercises.) -/
def DiagramViewer.dropInputsImpl (s : Snarl) (pin : InPinId) : Snarl :=
  let (s1, remaining) := s.dropInputs pin
  if remaining = 0 then
    match s1.getNodeEntry pin.node with
    | some (_, node) =>
        s1.setNode pin.node { node with inputs := node.inputs.eraseIdx pin.input }
    | none => s1
  else s1

/-- The viewer's `drop_outputs` callback (main.rs lines 162-169). -/
def DiagramViewer.dropOutputsImpl (s : Snarl) (pin : OutPinId) : Snarl :=
  let (s1, remaining) := s.dropOutputs pin
  if remaining = 0 then
    match s1.getNodeEntry pin.node with
    | some (_, node) =>
        s1.setNode pin.node { node with outputs := node.outputs.eraseIdx pin.output }
    | none => s1
  else s1

/-- The navigation state of `DiagramViewer`: the subsystem currently being
edited and the stack of previously entered subsystems, both as shared
references. -/
structure DiagramViewer where
  toplevel : Nat
  current : Nat
  previous : List Nat
deriving DecidableEq, Repr

/-- "Enter Subsystem" (main.rs lines 200-207), given the clicked node's
data: push `current` onto `previous`; if the node has a subsystem, make
that shared reference current, otherwise allocate a fresh empty subsystem
and make it current.  The node itself is not modified. -/
def enterSubsystem (h : Heap) (v : DiagramViewer) (node : Node) :
    Heap × DiagramViewer :=
  match node.subsystem with
  | some r => (h, { v with previous := v.previous ++ [v.current], current := r })
  | none =>
      let (h', r) := h.alloc Subsystem.new
      (h', { v with previous := v.previous ++ [v.current], current := r })

/-- "Enter Subsystem" addressed by node id: the node is looked up in the
currently edited subsystem's graph (the menu is only shown for an existing
node; a missing node leaves the state unchanged). -/
def enterSubsystemById (h : Heap) (v : DiagramViewer) (nid : Nat) :
    Heap × DiagramViewer :=
  match (h.lookup v.current).bind (fun sub => sub.snarl.getNode nid) with
  | some node => enterSubsystem h v node
  | none => (h, v)

/-- "Go Up One Level" (main.rs lines 584-589): pop the last entry of
`previous` into `current`; a no-op at top level. -/
def goUpOneLevel (v : DiagramViewer) : DiagramViewer :=
  match v.previous.getLast? with
  | some r => { v with previous := v.previous.dropLast, current := r }
  | none => v

/-!
## The "Convert To Subsystem" algorithm (main.rs lines 231-579)

The phases below follow the Rust code in order.  Each phase is a separate
definition so the theorems can speak about intermediate states; the phases
are recomputed from `(s, sel)` where the Rust keeps local variables.
-/

/-- Lines 248-253: all wires with at least one endpoint in the selection. -/
def relevantWires (s : Snarl) (sel : List Nat) : List Wire :=
  s.wires.filter (fun w => sel.contains w.2.node || sel.contains w.1.node)

/-- Lines 255-260: wires with both endpoints in the selection. -/
def internalWires (s : Snarl) (sel : List Nat) : List Wire :=
  (relevantWires s sel).filter
    (fun w => sel.contains w.2.node && sel.contains w.1.node)

/-- Lines 261-266: wires entering the selection from outside. -/
def externalInputs (s : Snarl) (sel : List Nat) : List Wire :=
  (relevantWires s sel).filter
    (fun w => sel.contains w.2.node && !sel.contains w.1.node)

/-- Lines 267-272: wires leaving the selection to the outside. -/
def externalOutputs (s : Snarl) (sel : List Nat) : List Wire :=
  (relevantWires s sel).filter
    (fun w => !sel.contains w.2.node && sel.contains w.1.node)

/-- `snarl[pin.node].inputs[pin.input].name`, with the Rust panics on a
missing node or out-of-range index modelled as `none`. -/
def Snarl.inputNameAt (s : Snarl) (pin : InPinId) : Option String :=
  (s.getNode pin.node).bind (fun n => (n.inputs.get? pin.input).map (·.name))

/-- `snarl[pin.node].outputs[pin.output].name`, likewise. -/
def Snarl.outputNameAt (s : Snarl) (pin : OutPinId) : Option String :=
  (s.getNode pin.node).bind (fun n => (n.outputs.get? pin.output).map (·.name))

/-- Names of the consuming input ports of a list of wires (lines 275-278). -/
def inputNamesOf (s : Snarl) : List Wire → Option (List String)
  | [] => some []
  | w :: rest => do
      let nm ← s.inputNameAt w.2
      let rest' ← inputNamesOf s rest
      pure (nm :: rest')

/-- Names of the producing output ports of a list of wires (lines 301-304). -/
def outputNamesOf (s : Snarl) : List Wire → Option (List String)
  | [] => some []
  | w :: rest => do
      let nm ← s.outputNameAt w.1
      let rest' ← outputNamesOf s rest
      pure (nm :: rest')

/-- `external_input_names` (lines 275-278). -/
def externalInputNames (s : Snarl) (sel : List Nat) : Option (List String) :=
  inputNamesOf s (externalInputs s sel)

/-- `external_output_names` (lines 301-304). -/
def externalOutputNames (s : Snarl) (sel : List Nat) : Option (List String) :=
  outputNamesOf s (externalOutputs s sel)

/-- The boundary source node synthesized for the `n`-th external-input wire
(lines 282-296): no inputs, a single `External` output carrying the
consuming port's name. -/
def srcNode (n : Nat) (name : String) : Node :=
  ⟨"Ext" ++ toString (n + 1), [], [⟨name, OutputKind.External⟩], none⟩

/-- The boundary sink node synthesized for the `n`-th external-output wire
(lines 306-322): a single `External` input carrying the producing port's
name, no outputs. -/
def sinkNode (n : Nat) (name : String) : Node :=
  ⟨"Ext" ++ toString (n + 1), [⟨name, InputKind.External⟩], [], none⟩

/-- Lines 280-298: insert one boundary source node per external-input wire
into the subsystem, returning their ids in order. -/
def insertSources : Snarl → Nat → List String → Snarl × List Nat
  | sub, _, [] => (sub, [])
  | sub, n, name :: rest =>
      let (sub1, id) := sub.insertNode ⟨0, (n : Int) * 50⟩ (srcNode n name)
      let (sub2, ids) := insertSources sub1 (n + 1) rest
      (sub2, id :: ids)

/-- Lines 306-324: insert one boundary sink node per external-output wire. -/
def insertSinks : Snarl → Nat → List String → Snarl × List Nat
  | sub, _, [] => (sub, [])
  | sub, n, name :: rest =>
      let (sub1, id) := sub.insertNode ⟨100, (n : Int) * 50⟩ (sinkNode n name)
      let (sub2, ids) := insertSinks sub1 (n + 1) rest
      (sub2, id :: ids)

/-- The old-id-to-new-id node mapping, an association list standing for the
Rust `HashMap<Nat, Nat>` (only ever queried by key). -/
abbrev NodeMap := List (Nat × Nat)

/-- `node_map.get(k)`. -/
def mapLookup (m : NodeMap) (k : Nat) : Option Nat :=
  (m.find? (fun e => e.1 == k)).map (·.2)

/-- Lines 326-336: rehome the selection — remove each selected node from
the outer graph (skipping ids that are absent) and re-insert it into the
subsystem, recording the id mapping. -/
def rehome : Snarl → Snarl → List Nat → Snarl × Snarl × NodeMap
  | s, sub, [] => (s, sub, [])
  | s, sub, nid :: rest =>
      match s.getNodeEntry nid with
      | none => rehome s sub rest
      | some (pos, node) =>
          let (sub1, newId) := sub.insertNode pos node
          let (s1, sub2, m) := rehome (s.removeNode nid) sub1 rest
          (s1, sub2, (nid, newId) :: m)

/-- Lines 338-355: re-create the internal connections, translating both
endpoints through the mapping; a wire with an unmapped endpoint is skipped
silently (`filter_map` with `?`). -/
def connectInternal (m : NodeMap) : Snarl → List Wire → Snarl
  | sub, [] => sub
  | sub, w :: rest =>
      match mapLookup m w.1.node, mapLookup m w.2.node with
      | some a, some b =>
          connectInternal m (sub.connect ⟨a, w.1.output⟩ ⟨b, w.2.input⟩) rest
      | _, _ => connectInternal m sub rest

/-- Lines 357-377: connect each boundary source's output to the mapped
input endpoint of its external-input wire.  The `.expect("Old input pin
node is mapped to new node")` panic is modelled by `none`. -/
def connectExtInputs (m : NodeMap) : Snarl → List (Wire × Nat) → Option Snarl
  | sub, [] => some sub
  | sub, (w, srcId) :: rest => do
      let b ← mapLookup m w.2.node
      connectExtInputs m (sub.connect ⟨srcId, 0⟩ ⟨b, w.2.input⟩) rest

/-- Lines 379-399: connect each mapped output endpoint of an
external-output wire to its boundary sink's input; `.expect(..)` is `none`. -/
def connectExtOutputs (m : NodeMap) : Snarl → List (Wire × Nat) → Option Snarl
  | sub, [] => some sub
  | sub, (w, sinkId) :: rest => do
      let a ← mapLookup m w.1.node
      connectExtOutputs m (sub.connect ⟨a, w.1.output⟩ ⟨sinkId, 0⟩) rest

/-- Lines 421-449 (collection): the unconnected input pins of one node, in
index order, each paired with the `Internal`-kind copy of its port. -/
def unconnectedInputsOf (sub : Snarl) (nid : Nat) :
    Nat → List Input → List (Nat × Nat × Input)
  | _, [] => []
  | n, inp :: rest =>
      let tail := unconnectedInputsOf sub nid (n + 1) rest
      if (sub.inPinRemotes ⟨nid, n⟩).isEmpty then
        (nid, n, ⟨inp.name, InputKind.Internal⟩) :: tail
      else tail

/-- Lines 421-449: all unconnected input pins of the subsystem, in node
insertion order. -/
def danglingInputs (sub : Snarl) : List (Nat × Nat × Input) :=
  sub.nodes.foldr (fun e acc => unconnectedInputsOf sub e.1 0 e.2.2.inputs ++ acc) []

/-- Lines 482-510 (collection), symmetrically for output pins. -/
def unconnectedOutputsOf (sub : Snarl) (nid : Nat) :
    Nat → List Output → List (Nat × Nat × Output)
  | _, [] => []
  | n, outp :: rest =>
      let tail := unconnectedOutputsOf sub nid (n + 1) rest
      if (sub.outPinRemotes ⟨nid, n⟩).isEmpty then
        (nid, n, ⟨outp.name, OutputKind.Internal⟩) :: tail
      else tail

/-- Lines 482-510: all unconnected output pins of the subsystem. -/
def danglingOutputs (sub : Snarl) : List (Nat × Nat × Output) :=
  sub.nodes.foldr (fun e acc => unconnectedOutputsOf sub e.1 0 e.2.2.outputs ++ acc) []

/-- The boundary source node synthesized for the `k`-th dangling input
(lines 454-465). -/
def extUCNode (k : Nat) (name : String) : Node :=
  ⟨"ExtUC" ++ toString (k + 1), [], [⟨name, OutputKind.External⟩], none⟩

/-- The boundary sink node synthesized for the `k`-th dangling output
(lines 515-526). -/
def extOutUCNode (k : Nat) (name : String) : Node :=
  ⟨"ExtOutUC" ++ toString (k + 1), [⟨name, InputKind.External⟩], [], none⟩

/-- Lines 450-480 (application): for each collected dangling input, insert
a boundary source node, wire it to the pin, and append the `Internal` port
to the replacement node. -/
def applyDanglingInputs :
    Snarl → Node → Nat → List (Nat × Nat × Input) → Snarl × Node
  | sub, node, _, [] => (sub, node)
  | sub, node, k, (nid, port, inp) :: rest =>
      let (sub1, extId) :=
        sub.insertNode ⟨0, -((k : Int) * 150)⟩ (extUCNode k inp.name)
      let sub2 := sub1.connect ⟨extId, 0⟩ ⟨nid, port⟩
      applyDanglingInputs sub2 { node with inputs := node.inputs ++ [inp] }
        (k + 1) rest

/-- Lines 511-541 (application), symmetrically for dangling outputs. -/
def applyDanglingOutputs :
    Snarl → Node → Nat → List (Nat × Nat × Output) → Snarl × Node
  | sub, node, _, [] => (sub, node)
  | sub, node, k, (nid, port, outp) :: rest =>
      let (sub1, extId) :=
        sub.insertNode ⟨300, -((k : Int) * 150)⟩ (extOutUCNode k outp.name)
      let sub2 := sub1.connect ⟨nid, port⟩ ⟨extId, 0⟩
      applyDanglingOutputs sub2 { node with outputs := node.outputs ++ [outp] }
        (k + 1) rest

/-- The state after building the subsystem and replacement node but before
touching the heap and the outer reconnection (end of line 541). -/
structure BuildResult where
  outer : Snarl
  sub : Snarl
  node : Node
  nmap : NodeMap
  srcIds : List Nat
  sinkIds : List Nat
deriving DecidableEq, Repr

/-- Lines 240-541: classification, boundary synthesis, rehoming, internal
and boundary rewiring, replacement-node port-list construction and the
dangling-port sweeps.  `none` models a panic aborting the operation. -/
def convertBuild (s : Snarl) (sel : List Nat) : Option BuildResult := do
  let inNames ← externalInputNames s sel
  let outNames ← externalOutputNames s sel
  let (sub1, srcIds) := insertSources Subsystem.new.snarl 0 inNames
  let (sub2, sinkIds) := insertSinks sub1 0 outNames
  let (s1, sub3, m) := rehome s sub2 sel
  let sub4 := connectInternal m sub3 (internalWires s sel)
  let sub5 ← connectExtInputs m sub4 ((externalInputs s sel).zip srcIds)
  let sub6 ← connectExtOutputs m sub5 ((externalOutputs s sel).zip sinkIds)
  let node0 : Node :=
    ⟨"Subsystem",
     inNames.map (fun nm => ⟨nm, InputKind.Internal⟩),
     outNames.map (fun nm => ⟨nm, OutputKind.Internal⟩),
     none⟩
  let (sub7, node1) := applyDanglingInputs sub6 node0 0 (danglingInputs sub6)
  let (sub8, node2) := applyDanglingOutputs sub7 node1 0 (danglingOutputs sub7)
  pure ⟨s1, sub8, node2, m, srcIds, sinkIds⟩

/-- Lines 546-561: connect each external-input wire's original outside
output endpoint to the replacement node's `n`-th input. -/
def connectReplacementInputs (newId : Nat) : Snarl → Nat → List Wire → Snarl
  | s, _, [] => s
  | s, n, w :: rest =>
      connectReplacementInputs newId (s.connect w.1 ⟨newId, n⟩) (n + 1) rest

/-- Lines 562-576: connect the replacement node's `n`-th output to each
external-output wire's original outside input endpoint. -/
def connectReplacementOutputs (newId : Nat) : Snarl → Nat → List Wire → Snarl
  | s, _, [] => s
  | s, n, w :: rest =>
      connectReplacementOutputs newId (s.connect ⟨newId, n⟩ w.2) (n + 1) rest

/-- Lines 240-576: the complete "Convert To Subsystem" action — build the
subsystem, share it on the heap, give the replacement node the shared
reference, insert it at the click position, and redo the outer
connections.  Returns the new heap, the mutated outer graph and the
replacement node's id; `none` models a panic. -/
def convertToSubsystem (h : Heap) (s : Snarl) (sel : List Nat) (pos : Pos) :
    Option (Heap × Snarl × Nat) := do
  let r ← convertBuild s sel
  let (h', sref) := h.alloc ⟨r.sub⟩
  let (s2, newId) := r.outer.insertNode pos { r.node with subsystem := some sref }
  let s3 := connectReplacementInputs newId s2 0 (externalInputs s sel)
  let s4 := connectReplacementOutputs newId s3 0 (externalOutputs s sel)
  pure (h', s4, newId)

/-- Line 234: the "Convert To Subsystem" button is enabled exactly when the
selection is non-empty. -/
def convertEnabled (sel : List Nat) : Bool :=
  !sel.isEmpty

/-- Lines 233-239: a click on the button runs the conversion only when the
button is enabled, i.e. only for a non-empty selection. -/
def convertClick (h : Heap) (s : Snarl) (sel : List Nat) (pos : Pos) :
    Option (Heap × Snarl × Nat) :=
  if convertEnabled sel then convertToSubsystem h s sel pos else none

/-!
## Well-formedness

`SnarlWF` collects the graph invariants the program maintains (spec
sections 2-3): node keys are distinct and below the fresh-id counter, every
wire endpoint addresses an existing node and a valid port index, and each
input pin carries at most one wire.  `SelWF` says the selection is a set of
ids of existing nodes.
-/

/-- Graph well-formedness. -/
def SnarlWF (s : Snarl) : Prop :=
  (s.nodes.map (fun e => e.1)).Nodup ∧
  (∀ e ∈ s.nodes, e.1 < s.nextId) ∧
  (∀ w ∈ s.wires, ∃ e ∈ s.nodes, e.1 = w.1.node ∧ w.1.output < e.2.2.outputs.length) ∧
  (∀ w ∈ s.wires, ∃ e ∈ s.nodes, e.1 = w.2.node ∧ w.2.input < e.2.2.inputs.length) ∧
  (s.wires.map (fun w => w.2)).Nodup

instance (s : Snarl) : Decidable (SnarlWF s) := by
  unfold SnarlWF; infer_instance

/-- List Nat well-formedness: distinct ids of existing nodes. -/
def SelWF (s : Snarl) (sel : List Nat) : Prop :=
  sel.Nodup ∧ ∀ nid ∈ sel, ∃ e ∈ s.nodes, e.1 = nid

instance (s : Snarl) (sel : List Nat) : Decidable (SelWF s sel) := by
  unfold SelWF; infer_instance

/-- `t` extends `s` by appended node entries (and arbitrary other fields). -/
def Snarl.NodesExtend (s t : Snarl) : Prop :=
  ∃ l, t.nodes = s.nodes ++ l

/-!
## The boundary-synthesis phase (lines 280-324)
-/

/-- The node entries appended by `insertSources`, with ids from `base`. -/
def srcEntries : Nat → Nat → List String → List (Nat × Pos × Node)
  | _, _, [] => []
  | base, n, nm :: rest =>
      (base, ⟨0, (n : Int) * 50⟩, srcNode n nm) :: srcEntries (base + 1) (n + 1) rest

/-- The node entries appended by `insertSinks`, with ids from `base`. -/
def sinkEntries : Nat → Nat → List String → List (Nat × Pos × Node)
  | _, _, [] => []
  | base, n, nm :: rest =>
      (base, ⟨100, (n : Int) * 50⟩, sinkNode n nm) :: sinkEntries (base + 1) (n + 1) rest

/-- The node entries appended to the subsystem by rehoming, with ids from
`base`; looked up in the original graph (equivalent under `SelWF`). -/
def rehomedEntries (s : Snarl) : Nat → List Nat → List (Nat × Pos × Node)
  | _, [] => []
  | base, nid :: rest =>
      match s.getNodeEntry nid with
      | none => rehomedEntries s base rest
      | some (pos, node) => (base, pos, node) :: rehomedEntries s (base + 1) rest

/-!
## The outer reconnection (lines 546-576)
-/

/-- The wires produced by `connectReplacementInputs`, in order. -/
def replInWires (newId : Nat) : Nat → List Wire → List Wire
  | _, [] => []
  | n, w :: rest => (w.1, ⟨newId, n⟩) :: replInWires newId (n + 1) rest

/-- The wires produced by `connectReplacementOutputs`, in order. -/
def replOutWires (newId : Nat) : Nat → List Wire → List Wire
  | _, [] => []
  | n, w :: rest => (⟨newId, n⟩, w.2) :: replOutWires newId (n + 1) rest

/-!
## Heap facts, replacement-node construction, and destructuring the build
-/

/-- Heap well-formedness: every allocated reference is below the counter. -/
def HeapWF (h : Heap) : Prop := ∀ e ∈ h.subs, e.1 < h.nextRef

instance (h : Heap) : Decidable (HeapWF h) := by
  unfold HeapWF; infer_instance

/-- The replacement node as first assembled (lines 402-419), before the
dangling-port sweeps append further ports. -/
def replacementBase (inNames outNames : List String) : Node :=
  ⟨"Subsystem",
   inNames.map (fun nm => ⟨nm, InputKind.Internal⟩),
   outNames.map (fun nm => ⟨nm, OutputKind.Internal⟩),
   none⟩

/-!
## Example graphs used by the concrete witnesses
-/

/-- Example graph: A(out "x") → B(in "y", out "n") → C(in "z"). -/
def exampleSnarl : Snarl :=
  ⟨[(0, ⟨0, 0⟩, ⟨"A", [], [⟨"x", OutputKind.Normal⟩], none⟩),
    (1, ⟨1, 0⟩, ⟨"B", [⟨"y", InputKind.Normal⟩], [⟨"n", OutputKind.Normal⟩], none⟩),
    (2, ⟨2, 0⟩, ⟨"C", [⟨"z", InputKind.Normal⟩], [], none⟩)],
   [(⟨0, 0⟩, ⟨1, 0⟩), (⟨1, 0⟩, ⟨2, 0⟩)], 3⟩

/-- Example graph: a single node "N" with no ports. -/
def singleNodeSnarl : Snarl :=
  ⟨[(0, ⟨0, 0⟩, ⟨"N", [], [], none⟩)], [], 1⟩

/-- A heap holding one subsystem (reference 0) whose graph is `singleNodeSnarl`. -/
def enterExampleHeap : Heap :=
  ⟨[(0, ⟨singleNodeSnarl⟩)], 1⟩

/-- An ill-formed graph: a wire from node 0 into the nonexistent node 5. -/
def danglingRefSnarl : Snarl :=
  ⟨[(0, ⟨0, 0⟩, ⟨"A", [], [⟨"x", OutputKind.Normal⟩], none⟩)], [(⟨0, 0⟩, ⟨5, 0⟩)], 1⟩

/-- The build result of extracting node B from `exampleSnarl`. -/
def exampleBuildResult : BuildResult :=
  ⟨⟨[(0, ⟨0, 0⟩, ⟨"A", [], [⟨"x", OutputKind.Normal⟩], none⟩),
     (2, ⟨2, 0⟩, ⟨"C", [⟨"z", InputKind.Normal⟩], [], none⟩)], [], 3⟩,
   ⟨[(0, ⟨0, 0⟩, ⟨"Ext1", [], [⟨"y", OutputKind.External⟩], none⟩),
     (1, ⟨100, 0⟩, ⟨"Ext1", [⟨"n", InputKind.External⟩], [], none⟩),
     (2, ⟨1, 0⟩, ⟨"B", [⟨"y", InputKind.Normal⟩], [⟨"n", OutputKind.Normal⟩], none⟩)],
    [(⟨0, 0⟩, ⟨2, 0⟩), (⟨2, 0⟩, ⟨1, 0⟩)], 3⟩,
   ⟨"Subsystem", [⟨"y", InputKind.Internal⟩], [⟨"n", OutputKind.Internal⟩], none⟩,
   [(1, 2)], [0], [1]⟩

/-- The enclosing graph after extracting B from `exampleSnarl` at (5,5). -/
def exampleConverted : Snarl :=
  ⟨[(0, ⟨0, 0⟩, ⟨"A", [], [⟨"x", OutputKind.Normal⟩], none⟩),
    (2, ⟨2, 0⟩, ⟨"C", [⟨"z", InputKind.Normal⟩], [], none⟩),
    (3, ⟨5, 5⟩,
     ⟨"Subsystem", [⟨"y", InputKind.Internal⟩], [⟨"n", OutputKind.Internal⟩],
      some 0⟩)],
   [(⟨0, 0⟩, ⟨3, 0⟩), (⟨3, 0⟩, ⟨2, 0⟩)], 4⟩

/-- The heap after that extraction: one shared subsystem, reference 0. -/
def exampleHeapAfter : Heap := ⟨[(0, ⟨exampleBuildResult.sub⟩)], 1⟩

/-!
## Wire preservation (claim C1)
-/

/-- The wires with exactly one endpoint in the selection (the set `E` of
the wire-preservation property). -/
def boundaryWires (s : Snarl) (sel : List Nat) : List Wire :=
  s.wires.filter (fun w =>
    (sel.contains w.2.node && !sel.contains w.1.node) ||
    (!sel.contains w.2.node && sel.contains w.1.node))

/-- The build result of extracting both A and B from `exampleSnarl`. -/
def exampleBuildResultAB : BuildResult :=
  ⟨⟨[(2, ⟨2, 0⟩, ⟨"C", [⟨"z", InputKind.Normal⟩], [], none⟩)], [], 3⟩,
   ⟨[(0, ⟨100, 0⟩, ⟨"Ext1", [⟨"n", InputKind.External⟩], [], none⟩),
     (1, ⟨0, 0⟩, ⟨"A", [], [⟨"x", OutputKind.Normal⟩], none⟩),
     (2, ⟨1, 0⟩, ⟨"B", [⟨"y", InputKind.Normal⟩], [⟨"n", OutputKind.Normal⟩], none⟩)],
    [(⟨1, 0⟩, ⟨2, 0⟩), (⟨2, 0⟩, ⟨0, 0⟩)], 3⟩,
   ⟨"Subsystem", [], [⟨"n", OutputKind.Internal⟩], none⟩,
   [(0, 1), (1, 2)], [], [0]⟩

/-- Example graph: one node "D" with an unconnected input "w" and an
unconnected output "v". -/
def danglingPortSnarl : Snarl :=
  ⟨[(0, ⟨0, 0⟩, ⟨"D", [⟨"w", InputKind.Normal⟩], [⟨"v", OutputKind.Normal⟩], none⟩)],
   [], 1⟩

/-- The build result of extracting "D" from `danglingPortSnarl`. -/
def danglingBuildResult : BuildResult :=
  ⟨⟨[], [], 1⟩,
   ⟨[(0, ⟨0, 0⟩, ⟨"D", [⟨"w", InputKind.Normal⟩], [⟨"v", OutputKind.Normal⟩], none⟩),
     (1, ⟨0, 0⟩, ⟨"ExtUC1", [], [⟨"w", OutputKind.External⟩], none⟩),
     (2, ⟨300, 0⟩, ⟨"ExtOutUC1", [⟨"v", InputKind.External⟩], [], none⟩)],
    [(⟨1, 0⟩, ⟨0, 0⟩), (⟨0, 0⟩, ⟨2, 0⟩)], 3⟩,
   ⟨"Subsystem", [⟨"w", InputKind.Internal⟩], [⟨"v", OutputKind.Internal⟩], none⟩,
   [(0, 0)], [], []⟩

/-- The enclosing graph after that extraction at (2,3). -/
def danglingConverted : Snarl :=
  ⟨[(1, ⟨2, 3⟩,
     ⟨"Subsystem", [⟨"w", InputKind.Internal⟩], [⟨"v", OutputKind.Internal⟩],
      some 0⟩)], [], 2⟩

/-- The heap after that extraction: the built subsystem under reference 0. -/
def danglingHeapAfter : Heap := ⟨[(0, ⟨danglingBuildResult.sub⟩)], 1⟩

/-!
## Theorems
-/

/-!
## Basic facts about the graph primitives
-/

theorem Snarl.connect_nodes (s : Snarl) (po : OutPinId) (pi : InPinId) :
    (s.connect po pi).nodes = s.nodes := rfl

theorem Snarl.connect_nextId (s : Snarl) (po : OutPinId) (pi : InPinId) :
    (s.connect po pi).nextId = s.nextId := rfl

theorem Snarl.connect_wires (s : Snarl) (po : OutPinId) (pi : InPinId) :
    (s.connect po pi).wires = (s.wires.filter (fun w => w.2 != pi)) ++ [(po, pi)] := rfl

theorem Snarl.getNode_connect (s : Snarl) (po : OutPinId) (pi : InPinId) (id : Nat) :
    (s.connect po pi).getNode id = s.getNode id := rfl

theorem Snarl.mem_connect_self (s : Snarl) (po : OutPinId) (pi : InPinId) :
    ((po, pi) : Wire) ∈ (s.connect po pi).wires := by
  simp [Snarl.connect_wires]

theorem Snarl.mem_connect_of_ne (s : Snarl) (po : OutPinId) (pi : InPinId)
    {w : Wire} (hw : w ∈ s.wires) (hne : w.2 ≠ pi) :
    w ∈ (s.connect po pi).wires := by
  simp only [Snarl.connect_wires, List.mem_append, List.mem_filter]
  exact Or.inl ⟨hw, by simpa using hne⟩

theorem Snarl.mem_of_mem_connect {s : Snarl} {po : OutPinId} {pi : InPinId}
    {w : Wire} (h : w ∈ (s.connect po pi).wires) :
    w ∈ s.wires ∨ w = (po, pi) := by
  simp only [Snarl.connect_wires, List.mem_append, List.mem_filter,
    List.mem_singleton] at h
  exact h.imp (fun x => x.1) id

theorem Snarl.NodesExtend.rfl (s : Snarl) : s.NodesExtend s :=
  ⟨[], by simp⟩

theorem Snarl.NodesExtend.trans {s t u : Snarl}
    (h1 : s.NodesExtend t) (h2 : t.NodesExtend u) : s.NodesExtend u := by
  obtain ⟨l1, h1⟩ := h1
  obtain ⟨l2, h2⟩ := h2
  exact ⟨l1 ++ l2, by simp [h2, h1]⟩

theorem Snarl.getNode_of_extend {s t : Snarl} (h : s.NodesExtend t)
    {id : Nat} {n : Node} (hn : s.getNode id = some n) : t.getNode id = some n := by
  obtain ⟨l, hl⟩ := h
  simp only [Snarl.getNode, Snarl.getNodeEntry, Option.map_eq_some'] at hn ⊢
  obtain ⟨e, ⟨e', he', rfl⟩, rfl⟩ := hn
  exact ⟨e'.2, ⟨e', by simp [hl, List.find?_append, he'], rfl⟩, rfl⟩

theorem Snarl.insertNode_extend (s : Snarl) (pos : Pos) (node : Node) :
    s.NodesExtend (s.insertNode pos node).1 :=
  ⟨[(s.nextId, pos, node)], rfl⟩

theorem Snarl.connect_extend (s : Snarl) (po : OutPinId) (pi : InPinId) :
    s.NodesExtend (s.connect po pi) :=
  ⟨[], by simp [Snarl.connect_nodes]⟩

theorem insertSources_spec : ∀ (names : List String) (sub : Snarl) (n : Nat),
    (insertSources sub n names).1.nodes = sub.nodes ++ srcEntries sub.nextId n names ∧
    (insertSources sub n names).1.wires = sub.wires ∧
    (insertSources sub n names).1.nextId = sub.nextId + names.length ∧
    (insertSources sub n names).2 = List.range' sub.nextId names.length
  | [], sub, n => by simp [insertSources, srcEntries]
  | nm :: rest, sub, n => by
      have ih := insertSources_spec rest (sub.insertNode ⟨0, (n : Int) * 50⟩ (srcNode n nm)).1 (n + 1)
      simp only [insertSources, Snarl.insertNode] at ih ⊢
      refine ⟨?_, ?_, ?_, ?_⟩
      · rw [ih.1]; simp [srcEntries]
      · rw [ih.2.1]
      · rw [ih.2.2.1]; simp only [List.length_cons]; omega
      · rw [ih.2.2.2]; simp [List.range'_succ]

theorem insertSinks_spec : ∀ (names : List String) (sub : Snarl) (n : Nat),
    (insertSinks sub n names).1.nodes = sub.nodes ++ sinkEntries sub.nextId n names ∧
    (insertSinks sub n names).1.wires = sub.wires ∧
    (insertSinks sub n names).1.nextId = sub.nextId + names.length ∧
    (insertSinks sub n names).2 = List.range' sub.nextId names.length
  | [], sub, n => by simp [insertSinks, sinkEntries]
  | nm :: rest, sub, n => by
      have ih := insertSinks_spec rest (sub.insertNode ⟨100, (n : Int) * 50⟩ (sinkNode n nm)).1 (n + 1)
      simp only [insertSinks, Snarl.insertNode] at ih ⊢
      refine ⟨?_, ?_, ?_, ?_⟩
      · rw [ih.1]; simp [sinkEntries]
      · rw [ih.2.1]
      · rw [ih.2.2.1]; simp only [List.length_cons]; omega
      · rw [ih.2.2.2]; simp [List.range'_succ]

theorem find?_srcEntries : ∀ (names : List String) (base n k : Nat) (nm : String),
    names.get? k = some nm →
    (srcEntries base n names).find? (fun e => e.1 == base + k) =
      some (base + k, ⟨0, ((n + k : Nat) : Int) * 50⟩, srcNode (n + k) nm)
  | [], _, _, k, _ => by simp
  | nm0 :: rest, base, n, 0, nm => by
      intro h
      simp at h
      subst h
      simp [srcEntries, List.find?_cons]
  | nm0 :: rest, base, n, k + 1, nm => by
      intro h
      simp only [List.get?] at h
      have hne : (base == base + (k + 1)) = false := by simp
      have h1 : base + (k + 1) = (base + 1) + k := by omega
      have h2 : n + (k + 1) = (n + 1) + k := by omega
      simp only [srcEntries, List.find?_cons, hne]
      rw [h1, h2]
      exact find?_srcEntries rest (base + 1) (n + 1) k nm h

theorem find?_sinkEntries : ∀ (names : List String) (base n k : Nat) (nm : String),
    names.get? k = some nm →
    (sinkEntries base n names).find? (fun e => e.1 == base + k) =
      some (base + k, ⟨100, ((n + k : Nat) : Int) * 50⟩, sinkNode (n + k) nm)
  | [], _, _, k, _ => by simp
  | nm0 :: rest, base, n, 0, nm => by
      intro h
      simp at h
      subst h
      simp [sinkEntries, List.find?_cons]
  | nm0 :: rest, base, n, k + 1, nm => by
      intro h
      simp only [List.get?] at h
      have hne : (base == base + (k + 1)) = false := by simp
      have h1 : base + (k + 1) = (base + 1) + k := by omega
      have h2 : n + (k + 1) = (n + 1) + k := by omega
      simp only [sinkEntries, List.find?_cons, hne]
      rw [h1, h2]
      exact find?_sinkEntries rest (base + 1) (n + 1) k nm h

theorem srcEntries_keys : ∀ (names : List String) (base n : Nat),
    (srcEntries base n names).map (fun e => e.1) = List.range' base names.length
  | [], _, _ => by simp [srcEntries]
  | nm :: rest, base, n => by
      simp [srcEntries, List.range'_succ, srcEntries_keys rest (base + 1) (n + 1)]

theorem sinkEntries_keys : ∀ (names : List String) (base n : Nat),
    (sinkEntries base n names).map (fun e => e.1) = List.range' base names.length
  | [], _, _ => by simp [sinkEntries]
  | nm :: rest, base, n => by
      simp [sinkEntries, List.range'_succ, sinkEntries_keys rest (base + 1) (n + 1)]

theorem find?_srcEntries_none (names : List String) (base n id : Nat)
    (h : ¬(base ≤ id ∧ id < base + names.length)) :
    (srcEntries base n names).find? (fun e => e.1 == id) = none := by
  rw [List.find?_eq_none]
  intro e he
  have : e.1 ∈ (srcEntries base n names).map (fun e => e.1) := List.mem_map_of_mem _ he
  rw [srcEntries_keys] at this
  rw [List.mem_range'] at this
  obtain ⟨i, hi, hei⟩ := this
  simp only [beq_iff_eq]
  omega

/-!
## The rehoming phase (lines 326-336)
-/

theorem find?_filter_of_imp {α : Type} (p q : α → Bool) (h : ∀ x, p x = true → q x = true) :
    ∀ (l : List α), (l.filter q).find? p = l.find? p
  | [] => rfl
  | x :: l => by
      rcases hq : q x with _ | _
      · have hp : p x = false := by
          rcases hpx : p x with _ | _
          · rfl
          · exact absurd (h x hpx) (by simp [hq])
        simp [List.filter_cons, hq, List.find?_cons, hp, find?_filter_of_imp p q h l]
      · rcases hp : p x with _ | _
        · simp [List.filter_cons, hq, List.find?_cons, hp, find?_filter_of_imp p q h l]
        · simp [List.filter_cons, hq, List.find?_cons, hp]

theorem Snarl.getNodeEntry_removeNode_ne (s : Snarl) {id rid : Nat} (h : id ≠ rid) :
    (s.removeNode rid).getNodeEntry id = s.getNodeEntry id := by
  unfold Snarl.removeNode Snarl.getNodeEntry
  simp only
  rw [find?_filter_of_imp]
  intro e he
  simp only [beq_iff_eq] at he
  simp only [he, bne_iff_ne]
  exact h

theorem Snarl.getNodeEntry_isSome {s : Snarl} {id : Nat} (h : ∃ e ∈ s.nodes, e.1 = id) :
    ∃ pn, s.getNodeEntry id = some pn := by
  obtain ⟨e, he, rfl⟩ := h
  unfold Snarl.getNodeEntry
  cases hf : s.nodes.find? (fun x => x.1 == e.1) with
  | some pn => exact ⟨pn.2, by simp⟩
  | none =>
      rw [List.find?_eq_none] at hf
      exact absurd (by simp : (e.1 == e.1) = true) (hf e he)

/-- Unfolding lemma: rehoming skips an id that is absent from the graph. -/
theorem rehome_cons_none {s sub : Snarl} {nid : Nat} {rest : List Nat}
    (h : s.getNodeEntry nid = none) :
    rehome s sub (nid :: rest) = rehome s sub rest := by
  simp only [rehome]
  rw [h]

/-- Unfolding lemma: rehoming moves a present node into the subsystem. -/
theorem rehome_cons_some {s sub : Snarl} {nid : Nat} {rest : List Nat}
    {pos : Pos} {node : Node} (h : s.getNodeEntry nid = some (pos, node)) :
    rehome s sub (nid :: rest) =
      ((rehome (s.removeNode nid) (sub.insertNode pos node).1 rest).1,
       (rehome (s.removeNode nid) (sub.insertNode pos node).1 rest).2.1,
       (nid, (sub.insertNode pos node).2) ::
         (rehome (s.removeNode nid) (sub.insertNode pos node).1 rest).2.2) := by
  simp only [rehome]
  rw [h]

theorem rehome_outer_nextId : ∀ (sel : List Nat) (s sub : Snarl),
    (rehome s sub sel).1.nextId = s.nextId
  | [], _, _ => rfl
  | nid :: rest, s, sub => by
      cases hge : s.getNodeEntry nid with
      | none =>
          rw [rehome_cons_none hge]
          exact rehome_outer_nextId rest s sub
      | some pn =>
          obtain ⟨pos, node⟩ := pn
          rw [rehome_cons_some hge]
          exact rehome_outer_nextId rest (s.removeNode nid) _

theorem rehome_sub_wires : ∀ (sel : List Nat) (s sub : Snarl),
    (rehome s sub sel).2.1.wires = sub.wires
  | [], _, _ => rfl
  | nid :: rest, s, sub => by
      cases hge : s.getNodeEntry nid with
      | none =>
          rw [rehome_cons_none hge]
          exact rehome_sub_wires rest s sub
      | some pn =>
          obtain ⟨pos, node⟩ := pn
          rw [rehome_cons_some hge]
          exact rehome_sub_wires rest (s.removeNode nid) _

theorem rehome_sub_extend : ∀ (sel : List Nat) (s sub : Snarl),
    sub.NodesExtend (rehome s sub sel).2.1
  | [], _, sub => Snarl.NodesExtend.rfl sub
  | nid :: rest, s, sub => by
      cases hge : s.getNodeEntry nid with
      | none =>
          rw [rehome_cons_none hge]
          exact rehome_sub_extend rest s sub
      | some pn =>
          obtain ⟨pos, node⟩ := pn
          rw [rehome_cons_some hge]
          exact (sub.insertNode_extend pos node).trans
            (rehome_sub_extend rest (s.removeNode nid) _)

theorem rehomedEntries_cons_some {s : Snarl} {nid : Nat} {rest : List Nat}
    {base : Nat} {pos : Pos} {node : Node} (h : s.getNodeEntry nid = some (pos, node)) :
    rehomedEntries s base (nid :: rest) =
      (base, pos, node) :: rehomedEntries s (base + 1) rest := by
  simp only [rehomedEntries]
  rw [h]

theorem rehomedEntries_removeNode : ∀ (rest : List Nat) (s : Snarl) (rid base : Nat),
    rid ∉ rest →
    rehomedEntries (s.removeNode rid) base rest = rehomedEntries s base rest
  | [], _, _, _, _ => rfl
  | nid :: rest, s, rid, base, h => by
      have hne : nid ≠ rid := fun he => h (by simp [he])
      have hrest : rid ∉ rest := fun hr => h (by simp [hr])
      simp only [rehomedEntries, Snarl.getNodeEntry_removeNode_ne s hne]
      cases s.getNodeEntry nid with
      | none => exact rehomedEntries_removeNode rest s rid base hrest
      | some pn =>
          obtain ⟨pos, node⟩ := pn
          simp only [List.cons.injEq, true_and]
          exact rehomedEntries_removeNode rest s rid (base + 1) hrest

theorem SelWF_removeNode {s : Snarl} {nid : Nat} {rest : List Nat}
    (h : SelWF s (nid :: rest)) : SelWF (s.removeNode nid) rest := by
  obtain ⟨hnd, hmem⟩ := h
  refine ⟨(List.nodup_cons.mp hnd).2, ?_⟩
  intro x hx
  obtain ⟨e, he, rfl⟩ := hmem x (by simp [hx])
  have hxne : e.1 ≠ nid := by
    intro hcontra
    exact (List.nodup_cons.mp hnd).1 (hcontra ▸ hx)
  exact ⟨e, List.mem_filter.mpr ⟨he, by simpa [bne_iff_ne] using hxne⟩, rfl⟩

/-- The full characterization of rehoming a well-formed selection: the outer
graph keeps exactly the unselected nodes and the wires not touching the
selection; the subsystem gains the selected nodes in order under fresh
sequential ids; and the recorded mapping pairs the selection with those
fresh ids positionally. -/
theorem rehome_spec : ∀ (sel : List Nat) (s sub : Snarl), SelWF s sel →
    (rehome s sub sel).1.nodes = s.nodes.filter (fun e => !sel.contains e.1) ∧
    (rehome s sub sel).1.wires =
      s.wires.filter (fun w => !sel.contains w.1.node && !sel.contains w.2.node) ∧
    (rehome s sub sel).2.1.nodes = sub.nodes ++ rehomedEntries s sub.nextId sel ∧
    (rehome s sub sel).2.2 = sel.zip (List.range' sub.nextId sel.length)
  | [], s, sub, _ => by
      refine ⟨?_, ?_, ?_, ?_⟩
      · simp [rehome]
      · simp [rehome]
      · simp [rehome, rehomedEntries]
      · simp [rehome]
  | nid :: rest, s, sub, hsel => by
      obtain ⟨pn, hge⟩ := Snarl.getNodeEntry_isSome (hsel.2 nid (by simp))
      obtain ⟨pos, node⟩ := pn
      have hnd := hsel.1
      have hnotin : nid ∉ rest := (List.nodup_cons.mp hnd).1
      have ih := rehome_spec rest (s.removeNode nid) (sub.insertNode pos node).1
        (SelWF_removeNode hsel)
      rw [rehome_cons_some hge]
      refine ⟨?_, ?_, ?_, ?_⟩
      · rw [ih.1]
        show ((s.removeNode nid).nodes.filter _) = _
        unfold Snarl.removeNode
        simp only [List.filter_filter]
        apply List.filter_congr
        intro e _
        simp only [List.contains_cons, Bool.not_or, bne, Bool.and_comm]
      · rw [ih.2.1]
        show ((s.removeNode nid).wires.filter _) = _
        unfold Snarl.removeNode
        simp only [List.filter_filter]
        apply List.filter_congr
        intro w _
        simp only [List.contains_cons, Bool.not_or, bne]
        rcases w.1.node == nid with _ | _ <;>
          rcases w.2.node == nid with _ | _ <;>
            rcases rest.contains w.1.node with _ | _ <;>
              rcases rest.contains w.2.node with _ | _ <;> rfl
      · rw [ih.2.2.1]
        rw [rehomedEntries_removeNode rest s nid _ hnotin]
        rw [rehomedEntries_cons_some hge]
        show (sub.nodes ++ [(sub.nextId, pos, node)]) ++ _ = _
        simp only [Snarl.insertNode, List.append_assoc, List.singleton_append]
      · rw [ih.2.2.2]
        show (nid, sub.nextId) :: _ = _
        simp only [Snarl.insertNode, List.length_cons, List.range'_succ,
          List.zip_cons_cons]

/-!
## The node mapping
-/

theorem mapLookup_zip_range' : ∀ (sel : List Nat) (base k nid : Nat),
    sel.Nodup → sel.get? k = some nid →
    mapLookup (sel.zip (List.range' base sel.length)) nid = some (base + k)
  | [], _, k, _, _, h => by simp at h
  | nid0 :: rest, base, 0, nid, _, h => by
      simp only [List.get?] at h
      injection h with h
      subst h
      simp [mapLookup, List.length_cons, List.range'_succ, List.zip_cons_cons,
        List.find?_cons]
  | nid0 :: rest, base, k + 1, nid, hnd, h => by
      simp only [List.get?] at h
      have hmem : nid ∈ rest := List.get?_mem h
      have hne : (nid0 == nid) = false := by
        rw [beq_eq_false_iff_ne]
        intro he
        exact (List.nodup_cons.mp hnd).1 (he ▸ hmem)
      have harith : base + (k + 1) = (base + 1) + k := by omega
      simp only [mapLookup, List.length_cons, List.range'_succ, List.zip_cons_cons,
        List.find?_cons, hne]
      rw [harith]
      exact mapLookup_zip_range' rest (base + 1) k nid (List.nodup_cons.mp hnd).2 h

theorem mapLookup_zip_range'_inv : ∀ (sel : List Nat) (base nid v : Nat),
    mapLookup (sel.zip (List.range' base sel.length)) nid = some v →
    ∃ k, sel.get? k = some nid ∧ v = base + k
  | [], _, _, _, h => by simp [mapLookup] at h
  | nid0 :: rest, base, nid, v, h => by
      simp only [mapLookup, List.length_cons, List.range'_succ, List.zip_cons_cons,
        List.find?_cons] at h
      rcases hb : nid0 == nid with _ | _
      · rw [hb] at h
        obtain ⟨k, hk, hv⟩ := mapLookup_zip_range'_inv rest (base + 1) nid v h
        exact ⟨k + 1, by simpa using hk, by omega⟩
      · rw [hb] at h
        simp only [Option.map_some'] at h
        injection h with h
        have : nid0 = nid := by simpa using hb
        exact ⟨0, by simp [this], by omega⟩

theorem mapLookup_zip_range'_inj {sel : List Nat} {base x y v : Nat}
    (hx : mapLookup (sel.zip (List.range' base sel.length)) x = some v)
    (hy : mapLookup (sel.zip (List.range' base sel.length)) y = some v) : x = y := by
  obtain ⟨k1, hk1, hv1⟩ := mapLookup_zip_range'_inv sel base x v hx
  obtain ⟨k2, hk2, hv2⟩ := mapLookup_zip_range'_inv sel base y v hy
  have : k1 = k2 := by omega
  subst this
  rw [hk1] at hk2
  exact Option.some.inj hk2

theorem mapLookup_zip_range'_bound {sel : List Nat} {base nid v : Nat}
    (h : mapLookup (sel.zip (List.range' base sel.length)) nid = some v) :
    nid ∈ sel ∧ base ≤ v ∧ v < base + sel.length := by
  obtain ⟨k, hk, hv⟩ := mapLookup_zip_range'_inv sel base nid v h
  have hlt : k < sel.length := by
    by_contra hge
    rw [List.get?_eq_none.mpr (by omega)] at hk
    exact Option.noConfusion hk
  exact ⟨List.get?_mem hk, by omega, by omega⟩

/-- Looking up a rehomed node in the subsystem: the `k`-th selected node
lands under id `base + k` with its original data. -/
theorem find?_rehomedEntries (s : Snarl) : ∀ (sel : List Nat) (base k nid : Nat),
    sel.get? k = some nid →
    (∀ x ∈ sel, ∃ e ∈ s.nodes, e.1 = x) →
    ∃ pos node, s.getNodeEntry nid = some (pos, node) ∧
      (rehomedEntries s base sel).find? (fun e => e.1 == base + k) =
        some (base + k, pos, node)
  | [], _, k, _, h, _ => by simp at h
  | nid0 :: rest, base, 0, nid, h, hall => by
      simp only [List.get?] at h
      obtain ⟨pn, hge⟩ := Snarl.getNodeEntry_isSome (hall nid0 (by simp))
      obtain ⟨pos, node⟩ := pn
      have hn : nid0 = nid := by injection h
      subst hn
      refine ⟨pos, node, hge, ?_⟩
      rw [rehomedEntries_cons_some hge]
      simp [List.find?_cons]
  | nid0 :: rest, base, k + 1, nid, h, hall => by
      simp only [List.get?] at h
      obtain ⟨pn, hge⟩ := Snarl.getNodeEntry_isSome (hall nid0 (by simp))
      obtain ⟨pos0, node0⟩ := pn
      have hne : (base == base + (k + 1)) = false := by simp
      have harith : base + (k + 1) = (base + 1) + k := by omega
      obtain ⟨pos, node, hg, hf⟩ := find?_rehomedEntries s rest (base + 1) k nid h
        (fun x hx => hall x (by simp [hx]))
      refine ⟨pos, node, hg, ?_⟩
      rw [rehomedEntries_cons_some hge]
      simp only [List.find?_cons, hne]
      rw [harith]
      exact hf

theorem rehomedEntries_keys_sub (s : Snarl) : ∀ (sel : List Nat) (base : Nat),
    ∀ e ∈ rehomedEntries s base sel, base ≤ e.1 ∧ e.1 < base + sel.length
  | [], _, _ => by simp [rehomedEntries]
  | nid :: rest, base, e => by
      intro he
      simp only [rehomedEntries] at he
      cases hge : s.getNodeEntry nid with
      | none =>
          rw [hge] at he
          have := rehomedEntries_keys_sub s rest base e he
          simp only [List.length_cons]
          omega
      | some pn =>
          obtain ⟨pos, node⟩ := pn
          rw [hge] at he
          simp only [List.mem_cons] at he
          rcases he with he | he
          · subst he
            simp only [List.length_cons]
            omega
          · have := rehomedEntries_keys_sub s rest (base + 1) e he
            simp only [List.length_cons]
            omega

/-!
## The rewiring phases (lines 338-399)
-/

theorem connectInternal_cons_some {m : List (Nat × Nat)} {sub : Snarl} {w : Wire}
    {rest : List Wire} {a b : Nat}
    (h1 : mapLookup m w.1.node = some a) (h2 : mapLookup m w.2.node = some b) :
    connectInternal m sub (w :: rest) =
      connectInternal m (sub.connect ⟨a, w.1.output⟩ ⟨b, w.2.input⟩) rest := by
  simp only [connectInternal]
  rw [h1, h2]

theorem connectInternal_cons_skip {m : List (Nat × Nat)} {sub : Snarl} {w : Wire}
    {rest : List Wire}
    (h : mapLookup m w.1.node = none ∨ mapLookup m w.2.node = none) :
    connectInternal m sub (w :: rest) = connectInternal m sub rest := by
  simp only [connectInternal]
  rcases h with h | h
  · rw [h]
  · rw [h]
    cases mapLookup m w.1.node <;> rfl

theorem connectInternal_nodes (m : List (Nat × Nat)) : ∀ (iw : List Wire) (sub : Snarl),
    (connectInternal m sub iw).nodes = sub.nodes
  | [], _ => rfl
  | w :: rest, sub => by
      cases h1 : mapLookup m w.1.node with
      | none =>
          rw [connectInternal_cons_skip (Or.inl h1)]
          exact connectInternal_nodes m rest sub
      | some a =>
          cases h2 : mapLookup m w.2.node with
          | none =>
              rw [connectInternal_cons_skip (Or.inr h2)]
              exact connectInternal_nodes m rest sub
          | some b =>
              rw [connectInternal_cons_some h1 h2,
                connectInternal_nodes m rest _, Snarl.connect_nodes]

theorem connectInternal_nextId (m : List (Nat × Nat)) : ∀ (iw : List Wire) (sub : Snarl),
    (connectInternal m sub iw).nextId = sub.nextId
  | [], _ => rfl
  | w :: rest, sub => by
      cases h1 : mapLookup m w.1.node with
      | none =>
          rw [connectInternal_cons_skip (Or.inl h1)]
          exact connectInternal_nextId m rest sub
      | some a =>
          cases h2 : mapLookup m w.2.node with
          | none =>
              rw [connectInternal_cons_skip (Or.inr h2)]
              exact connectInternal_nextId m rest sub
          | some b =>
              rw [connectInternal_cons_some h1 h2,
                connectInternal_nextId m rest _, Snarl.connect_nextId]

theorem connectInternal_wires_sub (m : List (Nat × Nat)) :
    ∀ (iw : List Wire) (sub : Snarl) {w' : Wire},
    w' ∈ (connectInternal m sub iw).wires →
    w' ∈ sub.wires ∨ ∃ w ∈ iw, ∃ a b, mapLookup m w.1.node = some a ∧
      mapLookup m w.2.node = some b ∧ w' = (⟨a, w.1.output⟩, ⟨b, w.2.input⟩)
  | [], sub, w' => fun h => Or.inl h
  | w :: rest, sub, w' => by
      intro h
      cases h1 : mapLookup m w.1.node with
      | none =>
          rw [connectInternal_cons_skip (Or.inl h1)] at h
          rcases connectInternal_wires_sub m rest sub h with h' | ⟨w0, hw0, hrest⟩
          · exact Or.inl h'
          · exact Or.inr ⟨w0, List.mem_cons_of_mem _ hw0, hrest⟩
      | some a =>
          cases h2 : mapLookup m w.2.node with
          | none =>
              rw [connectInternal_cons_skip (Or.inr h2)] at h
              rcases connectInternal_wires_sub m rest sub h with h' | ⟨w0, hw0, hrest⟩
              · exact Or.inl h'
              · exact Or.inr ⟨w0, List.mem_cons_of_mem _ hw0, hrest⟩
          | some b =>
              rw [connectInternal_cons_some h1 h2] at h
              rcases connectInternal_wires_sub m rest _ h with h' | ⟨w0, hw0, hrest⟩
              · rcases Snarl.mem_of_mem_connect h' with h'' | h''
                · exact Or.inl h''
                · exact Or.inr ⟨w, List.mem_cons_self _ _, a, b, h1, h2, h''⟩
              · exact Or.inr ⟨w0, List.mem_cons_of_mem _ hw0, hrest⟩

theorem connectInternal_preserve (m : List (Nat × Nat)) :
    ∀ (iw : List Wire) (sub : Snarl) {w' : Wire},
    w' ∈ sub.wires →
    (∀ w ∈ iw, ∀ b, mapLookup m w.2.node = some b → w'.2 ≠ ⟨b, w.2.input⟩) →
    w' ∈ (connectInternal m sub iw).wires
  | [], sub, w' => fun h _ => h
  | w :: rest, sub, w' => by
      intro h hcond
      cases h1 : mapLookup m w.1.node with
      | none =>
          rw [connectInternal_cons_skip (Or.inl h1)]
          exact connectInternal_preserve m rest sub h
            (fun w0 hw0 => hcond w0 (List.mem_cons_of_mem _ hw0))
      | some a =>
          cases h2 : mapLookup m w.2.node with
          | none =>
              rw [connectInternal_cons_skip (Or.inr h2)]
              exact connectInternal_preserve m rest sub h
                (fun w0 hw0 => hcond w0 (List.mem_cons_of_mem _ hw0))
          | some b =>
              rw [connectInternal_cons_some h1 h2]
              exact connectInternal_preserve m rest _
                (Snarl.mem_connect_of_ne _ _ _ h
                  (hcond w (List.mem_cons_self _ _) b h2))
                (fun w0 hw0 => hcond w0 (List.mem_cons_of_mem _ hw0))

theorem inPinId_ext {p q : InPinId} (h1 : p.node = q.node)
    (h2 : p.input = q.input) : p = q := by
  cases p
  cases q
  simp_all

theorem connectInternal_mem (m : List (Nat × Nat))
    (hinj : ∀ x y v, mapLookup m x = some v → mapLookup m y = some v → x = y) :
    ∀ (iw : List Wire) (sub : Snarl) {w : Wire} {a b : Nat},
    List.Pairwise (fun w1 w2 => w1.2 ≠ w2.2) iw →
    w ∈ iw → mapLookup m w.1.node = some a → mapLookup m w.2.node = some b →
    ((⟨a, w.1.output⟩, ⟨b, w.2.input⟩) : Wire) ∈ (connectInternal m sub iw).wires
  | [], sub, w, a, b => by intro _ hmem; exact absurd hmem (List.not_mem_nil w)
  | w0 :: rest, sub, w, a, b => by
      intro hpw hmem h1 h2
      rcases List.mem_cons.mp hmem with heq | hmem'
      · subst heq
        rw [connectInternal_cons_some h1 h2]
        apply connectInternal_preserve m rest _
          (Snarl.mem_connect_self _ _ _)
        intro w2 hw2 b2 hb2 heq2
        simp only at heq2
        rw [InPinId.mk.injEq] at heq2
        obtain ⟨hb, hin⟩ := heq2
        have hnode : w.2.node = w2.2.node := hinj _ _ b h2 (hb ▸ hb2)
        exact (List.pairwise_cons.mp hpw).1 w2 hw2 (inPinId_ext hnode hin)
      · cases h1' : mapLookup m w0.1.node with
        | none =>
            rw [connectInternal_cons_skip (Or.inl h1')]
            exact connectInternal_mem m hinj rest sub
              (List.pairwise_cons.mp hpw).2 hmem' h1 h2
        | some a0 =>
            cases h2' : mapLookup m w0.2.node with
            | none =>
                rw [connectInternal_cons_skip (Or.inr h2')]
                exact connectInternal_mem m hinj rest sub
                  (List.pairwise_cons.mp hpw).2 hmem' h1 h2
            | some b0 =>
                rw [connectInternal_cons_some h1' h2']
                exact connectInternal_mem m hinj rest _
                  (List.pairwise_cons.mp hpw).2 hmem' h1 h2

theorem connectExtInputs_cons_some {m : List (Nat × Nat)} {sub : Snarl} {w : Wire}
    {sid : Nat} {rest : List (Wire × Nat)} {b : Nat}
    (h : mapLookup m w.2.node = some b) :
    connectExtInputs m sub ((w, sid) :: rest) =
      connectExtInputs m (sub.connect ⟨sid, 0⟩ ⟨b, w.2.input⟩) rest := by
  simp only [connectExtInputs]
  rw [h]
  rfl

theorem connectExtInputs_cons_none {m : List (Nat × Nat)} {sub : Snarl} {w : Wire}
    {sid : Nat} {rest : List (Wire × Nat)}
    (h : mapLookup m w.2.node = none) :
    connectExtInputs m sub ((w, sid) :: rest) = none := by
  simp only [connectExtInputs]
  rw [h]
  rfl

theorem connectExtOutputs_cons_some {m : List (Nat × Nat)} {sub : Snarl} {w : Wire}
    {sid : Nat} {rest : List (Wire × Nat)} {a : Nat}
    (h : mapLookup m w.1.node = some a) :
    connectExtOutputs m sub ((w, sid) :: rest) =
      connectExtOutputs m (sub.connect ⟨a, w.1.output⟩ ⟨sid, 0⟩) rest := by
  simp only [connectExtOutputs]
  rw [h]
  rfl

theorem connectExtOutputs_cons_none {m : List (Nat × Nat)} {sub : Snarl} {w : Wire}
    {sid : Nat} {rest : List (Wire × Nat)}
    (h : mapLookup m w.1.node = none) :
    connectExtOutputs m sub ((w, sid) :: rest) = none := by
  simp only [connectExtOutputs]
  rw [h]
  rfl

theorem connectExtInputs_isSome (m : List (Nat × Nat)) :
    ∀ (l : List (Wire × Nat)) (sub : Snarl),
    (∀ p ∈ l, ∃ b, mapLookup m p.1.2.node = some b) →
    ∃ sub', connectExtInputs m sub l = some sub'
  | [], sub, _ => ⟨sub, rfl⟩
  | (w, sid) :: rest, sub, hall => by
      obtain ⟨b, hb⟩ := hall (w, sid) (List.mem_cons_self _ _)
      rw [connectExtInputs_cons_some hb]
      exact connectExtInputs_isSome m rest _
        (fun p hp => hall p (List.mem_cons_of_mem _ hp))

theorem connectExtOutputs_isSome (m : List (Nat × Nat)) :
    ∀ (l : List (Wire × Nat)) (sub : Snarl),
    (∀ p ∈ l, ∃ a, mapLookup m p.1.1.node = some a) →
    ∃ sub', connectExtOutputs m sub l = some sub'
  | [], sub, _ => ⟨sub, rfl⟩
  | (w, sid) :: rest, sub, hall => by
      obtain ⟨a, ha⟩ := hall (w, sid) (List.mem_cons_self _ _)
      rw [connectExtOutputs_cons_some ha]
      exact connectExtOutputs_isSome m rest _
        (fun p hp => hall p (List.mem_cons_of_mem _ hp))

theorem connectExtInputs_nodes (m : List (Nat × Nat)) :
    ∀ (l : List (Wire × Nat)) (sub sub' : Snarl),
    connectExtInputs m sub l = some sub' →
    sub'.nodes = sub.nodes ∧ sub'.nextId = sub.nextId
  | [], sub, sub' => by
      intro h
      injection h with h
      subst h
      exact ⟨rfl, rfl⟩
  | (w, sid) :: rest, sub, sub' => by
      intro h
      cases hb : mapLookup m w.2.node with
      | none => rw [connectExtInputs_cons_none hb] at h; exact Option.noConfusion h
      | some b =>
          rw [connectExtInputs_cons_some hb] at h
          have := connectExtInputs_nodes m rest _ sub' h
          rw [Snarl.connect_nodes, Snarl.connect_nextId] at this
          exact this

theorem connectExtOutputs_nodes (m : List (Nat × Nat)) :
    ∀ (l : List (Wire × Nat)) (sub sub' : Snarl),
    connectExtOutputs m sub l = some sub' →
    sub'.nodes = sub.nodes ∧ sub'.nextId = sub.nextId
  | [], sub, sub' => by
      intro h
      injection h with h
      subst h
      exact ⟨rfl, rfl⟩
  | (w, sid) :: rest, sub, sub' => by
      intro h
      cases ha : mapLookup m w.1.node with
      | none => rw [connectExtOutputs_cons_none ha] at h; exact Option.noConfusion h
      | some a =>
          rw [connectExtOutputs_cons_some ha] at h
          have := connectExtOutputs_nodes m rest _ sub' h
          rw [Snarl.connect_nodes, Snarl.connect_nextId] at this
          exact this

theorem connectExtInputs_wires_sub (m : List (Nat × Nat)) :
    ∀ (l : List (Wire × Nat)) (sub sub' : Snarl) {w' : Wire},
    connectExtInputs m sub l = some sub' → w' ∈ sub'.wires →
    w' ∈ sub.wires ∨ ∃ p ∈ l, ∃ b, mapLookup m p.1.2.node = some b ∧
      w' = (⟨p.2, 0⟩, ⟨b, p.1.2.input⟩)
  | [], sub, sub', w' => by
      intro h hw
      injection h with h
      subst h
      exact Or.inl hw
  | (w, sid) :: rest, sub, sub', w' => by
      intro h hw
      cases hb : mapLookup m w.2.node with
      | none => rw [connectExtInputs_cons_none hb] at h; exact Option.noConfusion h
      | some b =>
          rw [connectExtInputs_cons_some hb] at h
          rcases connectExtInputs_wires_sub m rest _ sub' h hw with h' | ⟨p, hp, hrest⟩
          · rcases Snarl.mem_of_mem_connect h' with h'' | h''
            · exact Or.inl h''
            · exact Or.inr ⟨(w, sid), List.mem_cons_self _ _, b, hb, h''⟩
          · exact Or.inr ⟨p, List.mem_cons_of_mem _ hp, hrest⟩

theorem connectExtOutputs_wires_sub (m : List (Nat × Nat)) :
    ∀ (l : List (Wire × Nat)) (sub sub' : Snarl) {w' : Wire},
    connectExtOutputs m sub l = some sub' → w' ∈ sub'.wires →
    w' ∈ sub.wires ∨ ∃ p ∈ l, ∃ a, mapLookup m p.1.1.node = some a ∧
      w' = (⟨a, p.1.1.output⟩, ⟨p.2, 0⟩)
  | [], sub, sub', w' => by
      intro h hw
      injection h with h
      subst h
      exact Or.inl hw
  | (w, sid) :: rest, sub, sub', w' => by
      intro h hw
      cases ha : mapLookup m w.1.node with
      | none => rw [connectExtOutputs_cons_none ha] at h; exact Option.noConfusion h
      | some a =>
          rw [connectExtOutputs_cons_some ha] at h
          rcases connectExtOutputs_wires_sub m rest _ sub' h hw with h' | ⟨p, hp, hrest⟩
          · rcases Snarl.mem_of_mem_connect h' with h'' | h''
            · exact Or.inl h''
            · exact Or.inr ⟨(w, sid), List.mem_cons_self _ _, a, ha, h''⟩
          · exact Or.inr ⟨p, List.mem_cons_of_mem _ hp, hrest⟩

theorem connectExtInputs_preserve (m : List (Nat × Nat)) :
    ∀ (l : List (Wire × Nat)) (sub sub' : Snarl) {w' : Wire},
    connectExtInputs m sub l = some sub' → w' ∈ sub.wires →
    (∀ p ∈ l, ∀ b, mapLookup m p.1.2.node = some b → w'.2 ≠ ⟨b, p.1.2.input⟩) →
    w' ∈ sub'.wires
  | [], sub, sub', w' => by
      intro h hw _
      injection h with h
      subst h
      exact hw
  | (w, sid) :: rest, sub, sub', w' => by
      intro h hw hcond
      cases hb : mapLookup m w.2.node with
      | none => rw [connectExtInputs_cons_none hb] at h; exact Option.noConfusion h
      | some b =>
          rw [connectExtInputs_cons_some hb] at h
          exact connectExtInputs_preserve m rest _ sub' h
            (Snarl.mem_connect_of_ne _ _ _ hw
              (hcond (w, sid) (List.mem_cons_self _ _) b hb))
            (fun p hp => hcond p (List.mem_cons_of_mem _ hp))

theorem connectExtOutputs_preserve (m : List (Nat × Nat)) :
    ∀ (l : List (Wire × Nat)) (sub sub' : Snarl) {w' : Wire},
    connectExtOutputs m sub l = some sub' → w' ∈ sub.wires →
    (∀ p ∈ l, w'.2 ≠ ⟨p.2, 0⟩) →
    w' ∈ sub'.wires
  | [], sub, sub', w' => by
      intro h hw _
      injection h with h
      subst h
      exact hw
  | (w, sid) :: rest, sub, sub', w' => by
      intro h hw hcond
      cases ha : mapLookup m w.1.node with
      | none => rw [connectExtOutputs_cons_none ha] at h; exact Option.noConfusion h
      | some a =>
          rw [connectExtOutputs_cons_some ha] at h
          exact connectExtOutputs_preserve m rest _ sub' h
            (Snarl.mem_connect_of_ne _ _ _ hw
              (hcond (w, sid) (List.mem_cons_self _ _)))
            (fun p hp => hcond p (List.mem_cons_of_mem _ hp))

theorem connectExtInputs_mem (m : List (Nat × Nat))
    (hinj : ∀ x y v, mapLookup m x = some v → mapLookup m y = some v → x = y) :
    ∀ (l : List (Wire × Nat)) (sub sub' : Snarl) {w : Wire} {sid b : Nat},
    connectExtInputs m sub l = some sub' →
    List.Pairwise (fun p1 p2 => p1.1.2 ≠ p2.1.2) l →
    (w, sid) ∈ l → mapLookup m w.2.node = some b →
    ((⟨sid, 0⟩, ⟨b, w.2.input⟩) : Wire) ∈ sub'.wires
  | [], sub, sub', w, sid, b => by
      intro _ _ hmem
      exact absurd hmem (List.not_mem_nil _)
  | (w0, sid0) :: rest, sub, sub', w, sid, b => by
      intro h hpw hmem hb
      rcases List.mem_cons.mp hmem with heq | hmem'
      · injection heq with heq1 heq2
        subst heq1
        subst heq2
        rw [connectExtInputs_cons_some hb] at h
        apply connectExtInputs_preserve m rest _ sub' h
          (Snarl.mem_connect_self _ _ _)
        intro p hp b2 hb2 heq2
        simp only at heq2
        rw [InPinId.mk.injEq] at heq2
        obtain ⟨hbb, hin⟩ := heq2
        have hnode : w.2.node = p.1.2.node := hinj _ _ b hb (hbb ▸ hb2)
        exact (List.pairwise_cons.mp hpw).1 p hp (inPinId_ext hnode hin)
      · cases hb0 : mapLookup m w0.2.node with
        | none => rw [connectExtInputs_cons_none hb0] at h; exact Option.noConfusion h
        | some b0 =>
            rw [connectExtInputs_cons_some hb0] at h
            exact connectExtInputs_mem m hinj rest _ sub' h
              (List.pairwise_cons.mp hpw).2 hmem' hb

theorem connectExtOutputs_mem (m : List (Nat × Nat)) :
    ∀ (l : List (Wire × Nat)) (sub sub' : Snarl) {w : Wire} {sid a : Nat},
    connectExtOutputs m sub l = some sub' →
    List.Pairwise (fun p1 p2 => p1.2 ≠ p2.2) l →
    (w, sid) ∈ l → mapLookup m w.1.node = some a →
    ((⟨a, w.1.output⟩, ⟨sid, 0⟩) : Wire) ∈ sub'.wires
  | [], sub, sub', w, sid, a => by
      intro _ _ hmem
      exact absurd hmem (List.not_mem_nil _)
  | (w0, sid0) :: rest, sub, sub', w, sid, a => by
      intro h hpw hmem ha
      rcases List.mem_cons.mp hmem with heq | hmem'
      · injection heq with heq1 heq2
        subst heq1
        subst heq2
        rw [connectExtOutputs_cons_some ha] at h
        apply connectExtOutputs_preserve m rest _ sub' h
          (Snarl.mem_connect_self _ _ _)
        intro p hp heq2
        simp only at heq2
        rw [InPinId.mk.injEq] at heq2
        exact (List.pairwise_cons.mp hpw).1 p hp heq2.1
      · cases ha0 : mapLookup m w0.1.node with
        | none => rw [connectExtOutputs_cons_none ha0] at h; exact Option.noConfusion h
        | some a0 =>
            rw [connectExtOutputs_cons_some ha0] at h
            exact connectExtOutputs_mem m rest _ sub' h
              (List.pairwise_cons.mp hpw).2 hmem' ha

theorem connectReplacementInputs_nodes (newId : Nat) :
    ∀ (ws : List Wire) (s : Snarl) (n : Nat),
    (connectReplacementInputs newId s n ws).nodes = s.nodes ∧
    (connectReplacementInputs newId s n ws).nextId = s.nextId
  | [], _, _ => ⟨rfl, rfl⟩
  | w :: rest, s, n => by
      have := connectReplacementInputs_nodes newId rest (s.connect w.1 ⟨newId, n⟩) (n + 1)
      simpa [connectReplacementInputs, Snarl.connect_nodes, Snarl.connect_nextId]
        using this

theorem connectReplacementOutputs_nodes (newId : Nat) :
    ∀ (ws : List Wire) (s : Snarl) (n : Nat),
    (connectReplacementOutputs newId s n ws).nodes = s.nodes ∧
    (connectReplacementOutputs newId s n ws).nextId = s.nextId
  | [], _, _ => ⟨rfl, rfl⟩
  | w :: rest, s, n => by
      have := connectReplacementOutputs_nodes newId rest (s.connect ⟨newId, n⟩ w.2) (n + 1)
      simpa [connectReplacementOutputs, Snarl.connect_nodes, Snarl.connect_nextId]
        using this

theorem connectReplacementInputs_wires_eq (newId : Nat) :
    ∀ (ws : List Wire) (s : Snarl) (n : Nat),
    (∀ w' ∈ s.wires, w'.2.node = newId → w'.2.input < n) →
    (connectReplacementInputs newId s n ws).wires = s.wires ++ replInWires newId n ws
  | [], s, n, _ => by simp [connectReplacementInputs, replInWires]
  | w :: rest, s, n, hcond => by
      have hfilter : s.wires.filter (fun w' => w'.2 != (⟨newId, n⟩ : InPinId)) = s.wires := by
        apply List.filter_eq_self.mpr
        intro w' hw'
        rw [bne_iff_ne]
        intro heq
        have h1 : w'.2.node = newId := by rw [heq]
        have h2 : w'.2.input = n := by rw [heq]
        have := hcond w' hw' h1
        omega
      have hnext : ∀ w' ∈ (s.connect w.1 ⟨newId, n⟩).wires,
          w'.2.node = newId → w'.2.input < n + 1 := by
        intro w' hw' hn
        rcases Snarl.mem_of_mem_connect hw' with h | h
        · have := hcond w' h hn
          omega
        · subst h
          simp
      have ih := connectReplacementInputs_wires_eq newId rest
        (s.connect w.1 ⟨newId, n⟩) (n + 1) hnext
      show (connectReplacementInputs newId (s.connect w.1 ⟨newId, n⟩) (n + 1) rest).wires = _
      rw [ih, Snarl.connect_wires, hfilter]
      simp [replInWires]

theorem connectReplacementOutputs_wires_eq (newId : Nat) :
    ∀ (ws : List Wire) (s : Snarl) (n : Nat),
    (∀ w' ∈ s.wires, ∀ w ∈ ws, w'.2 ≠ w.2) →
    List.Pairwise (fun w1 w2 => w1.2 ≠ w2.2) ws →
    (connectReplacementOutputs newId s n ws).wires = s.wires ++ replOutWires newId n ws
  | [], s, n, _, _ => by simp [connectReplacementOutputs, replOutWires]
  | w :: rest, s, n, hcond, hpw => by
      have hfilter : s.wires.filter (fun w' => w'.2 != w.2) = s.wires := by
        apply List.filter_eq_self.mpr
        intro w' hw'
        rw [bne_iff_ne]
        exact hcond w' hw' w (List.mem_cons_self _ _)
      have hnext : ∀ w' ∈ (s.connect ⟨newId, n⟩ w.2).wires, ∀ w2 ∈ rest, w'.2 ≠ w2.2 := by
        intro w' hw' w2 hw2
        rcases Snarl.mem_of_mem_connect hw' with h | h
        · exact hcond w' h w2 (List.mem_cons_of_mem _ hw2)
        · subst h
          exact (List.pairwise_cons.mp hpw).1 w2 hw2
      have ih := connectReplacementOutputs_wires_eq newId rest
        (s.connect ⟨newId, n⟩ w.2) (n + 1) hnext (List.pairwise_cons.mp hpw).2
      show (connectReplacementOutputs newId (s.connect ⟨newId, n⟩ w.2) (n + 1) rest).wires = _
      rw [ih, Snarl.connect_wires, hfilter]
      simp [replOutWires]

theorem replInWires_length (newId : Nat) : ∀ (ws : List Wire) (n : Nat),
    (replInWires newId n ws).length = ws.length
  | [], _ => rfl
  | w :: rest, n => by simp [replInWires, replInWires_length newId rest (n + 1)]

theorem replOutWires_length (newId : Nat) : ∀ (ws : List Wire) (n : Nat),
    (replOutWires newId n ws).length = ws.length
  | [], _ => rfl
  | w :: rest, n => by simp [replOutWires, replOutWires_length newId rest (n + 1)]

theorem replInWires_get? (newId : Nat) : ∀ (ws : List Wire) (n k : Nat) (w : Wire),
    ws.get? k = some w →
    (replInWires newId n ws).get? k = some (w.1, ⟨newId, n + k⟩)
  | [], _, k, _, h => by simp at h
  | w0 :: rest, n, 0, w, h => by
      simp only [List.get?] at h
      injection h with h
      subst h
      simp [replInWires]
  | w0 :: rest, n, k + 1, w, h => by
      simp only [List.get?] at h
      have := replInWires_get? newId rest (n + 1) k w h
      simp only [replInWires, List.get?]
      rw [this]
      congr 3
      omega

theorem replOutWires_get? (newId : Nat) : ∀ (ws : List Wire) (n k : Nat) (w : Wire),
    ws.get? k = some w →
    (replOutWires newId n ws).get? k = some (⟨newId, n + k⟩, w.2)
  | [], _, k, _, h => by simp at h
  | w0 :: rest, n, 0, w, h => by
      simp only [List.get?] at h
      injection h with h
      subst h
      simp [replOutWires]
  | w0 :: rest, n, k + 1, w, h => by
      simp only [List.get?] at h
      have := replOutWires_get? newId rest (n + 1) k w h
      simp only [replOutWires, List.get?]
      rw [this]
      congr 3
      omega

theorem Heap.lookup_alloc_fresh {h : Heap} (hh : HeapWF h) (sub : Subsystem) :
    (h.alloc sub).1.lookup h.nextRef = some sub := by
  unfold Heap.alloc Heap.lookup
  simp only [List.find?_append]
  have h1 : h.subs.find? (fun e => e.1 == h.nextRef) = none := by
    rw [List.find?_eq_none]
    intro e he
    simp only [beq_iff_eq]
    exact Nat.ne_of_lt (hh e he)
  rw [h1]
  simp [List.find?_cons]

theorem Heap.lookup_alloc_ne (h : Heap) (sub : Subsystem) {r : Nat}
    (hr : r ≠ h.nextRef) : (h.alloc sub).1.lookup r = h.lookup r := by
  unfold Heap.alloc Heap.lookup
  simp only [List.find?_append]
  have h1 : [(h.nextRef, sub)].find? (fun e => e.1 == r) = none := by
    rw [List.find?_eq_none]
    intro e he
    simp only [List.mem_singleton] at he
    subst he
    simp only [beq_iff_eq]
    exact fun hc => hr hc.symm
  rw [h1]
  cases h.subs.find? (fun e => e.1 == r) <;> rfl

theorem Heap.lookup_none_of_wf {h : Heap} (hh : HeapWF h) : h.lookup h.nextRef = none := by
  unfold Heap.lookup
  rw [List.find?_eq_none.mpr]
  · rfl
  · intro e he
    simp only [beq_iff_eq]
    exact Nat.ne_of_lt (hh e he)

theorem rehome_outer_nodes_subset : ∀ (sel : List Nat) (s sub : Snarl),
    ∀ e ∈ (rehome s sub sel).1.nodes, e ∈ s.nodes
  | [], s, sub => by intro e he; exact he
  | nid :: rest, s, sub => by
      intro e he
      cases hge : s.getNodeEntry nid with
      | none =>
          rw [rehome_cons_none hge] at he
          exact rehome_outer_nodes_subset rest s sub e he
      | some pn =>
          obtain ⟨pos, node⟩ := pn
          rw [rehome_cons_some hge] at he
          have := rehome_outer_nodes_subset rest (s.removeNode nid) _ e he
          exact (List.mem_filter.mp this).1

theorem rehome_outer_wires_subset : ∀ (sel : List Nat) (s sub : Snarl),
    ∀ w ∈ (rehome s sub sel).1.wires, w ∈ s.wires
  | [], s, sub => by intro w hw; exact hw
  | nid :: rest, s, sub => by
      intro w hw
      cases hge : s.getNodeEntry nid with
      | none =>
          rw [rehome_cons_none hge] at hw
          exact rehome_outer_wires_subset rest s sub w hw
      | some pn =>
          obtain ⟨pos, node⟩ := pn
          rw [rehome_cons_some hge] at hw
          have := rehome_outer_wires_subset rest (s.removeNode nid) _ w hw
          exact (List.mem_filter.mp this).1

theorem Snarl.getNode_insert_fresh {s : Snarl}
    (hkeys : ∀ e ∈ s.nodes, e.1 ≠ s.nextId) (pos : Pos) (node : Node) :
    (s.insertNode pos node).1.getNode s.nextId = some node := by
  unfold Snarl.getNode Snarl.getNodeEntry Snarl.insertNode
  simp only [List.find?_append]
  have h1 : s.nodes.find? (fun e => e.1 == s.nextId) = none := by
    rw [List.find?_eq_none]
    intro e he
    simp only [beq_iff_eq]
    exact hkeys e he
  rw [h1]
  simp [List.find?_cons]

theorem applyDanglingInputs_cons (sub : Snarl) (node : Node) (k nid port : Nat)
    (inp : Input) (rest : List (Nat × Nat × Input)) :
    applyDanglingInputs sub node k ((nid, port, inp) :: rest) =
      applyDanglingInputs
        ((sub.insertNode ⟨0, -((k : Int) * 150)⟩ (extUCNode k inp.name)).1.connect
          ⟨sub.nextId, 0⟩ ⟨nid, port⟩)
        { node with inputs := node.inputs ++ [inp] } (k + 1) rest := rfl

theorem applyDanglingOutputs_cons (sub : Snarl) (node : Node) (k nid port : Nat)
    (outp : Output) (rest : List (Nat × Nat × Output)) :
    applyDanglingOutputs sub node k ((nid, port, outp) :: rest) =
      applyDanglingOutputs
        ((sub.insertNode ⟨300, -((k : Int) * 150)⟩ (extOutUCNode k outp.name)).1.connect
          ⟨nid, port⟩ ⟨sub.nextId, 0⟩)
        { node with outputs := node.outputs ++ [outp] } (k + 1) rest := rfl

theorem applyDanglingInputs_extend : ∀ (l : List (Nat × Nat × Input)) (sub : Snarl)
    (node : Node) (k : Nat), sub.NodesExtend (applyDanglingInputs sub node k l).1
  | [], sub, _, _ => Snarl.NodesExtend.rfl sub
  | (nid, port, inp) :: rest, sub, node, k => by
      rw [applyDanglingInputs_cons]
      refine Snarl.NodesExtend.trans ?_ (applyDanglingInputs_extend rest _ _ (k + 1))
      exact Snarl.NodesExtend.trans (sub.insertNode_extend _ _) (Snarl.connect_extend _ _ _)

theorem applyDanglingOutputs_extend : ∀ (l : List (Nat × Nat × Output)) (sub : Snarl)
    (node : Node) (k : Nat), sub.NodesExtend (applyDanglingOutputs sub node k l).1
  | [], sub, _, _ => Snarl.NodesExtend.rfl sub
  | (nid, port, outp) :: rest, sub, node, k => by
      rw [applyDanglingOutputs_cons]
      refine Snarl.NodesExtend.trans ?_ (applyDanglingOutputs_extend rest _ _ (k + 1))
      exact Snarl.NodesExtend.trans (sub.insertNode_extend _ _) (Snarl.connect_extend _ _ _)

theorem applyDanglingInputs_node : ∀ (l : List (Nat × Nat × Input)) (sub : Snarl)
    (node : Node) (k : Nat),
    (applyDanglingInputs sub node k l).2.name = node.name ∧
    (applyDanglingInputs sub node k l).2.outputs = node.outputs ∧
    (applyDanglingInputs sub node k l).2.subsystem = node.subsystem ∧
    (applyDanglingInputs sub node k l).2.inputs = node.inputs ++ l.map (fun e => e.2.2)
  | [], sub, node, k => ⟨rfl, rfl, rfl, by simp [applyDanglingInputs]⟩
  | (nid, port, inp) :: rest, sub, node, k => by
      rw [applyDanglingInputs_cons]
      have ih := applyDanglingInputs_node rest
        ((sub.insertNode ⟨0, -((k : Int) * 150)⟩ (extUCNode k inp.name)).1.connect
          ⟨sub.nextId, 0⟩ ⟨nid, port⟩)
        { node with inputs := node.inputs ++ [inp] } (k + 1)
      refine ⟨ih.1, ih.2.1, ih.2.2.1, ?_⟩
      rw [ih.2.2.2]
      simp

theorem applyDanglingOutputs_node : ∀ (l : List (Nat × Nat × Output)) (sub : Snarl)
    (node : Node) (k : Nat),
    (applyDanglingOutputs sub node k l).2.name = node.name ∧
    (applyDanglingOutputs sub node k l).2.inputs = node.inputs ∧
    (applyDanglingOutputs sub node k l).2.subsystem = node.subsystem ∧
    (applyDanglingOutputs sub node k l).2.outputs = node.outputs ++ l.map (fun e => e.2.2)
  | [], sub, node, k => ⟨rfl, rfl, rfl, by simp [applyDanglingOutputs]⟩
  | (nid, port, outp) :: rest, sub, node, k => by
      rw [applyDanglingOutputs_cons]
      have ih := applyDanglingOutputs_node rest
        ((sub.insertNode ⟨300, -((k : Int) * 150)⟩ (extOutUCNode k outp.name)).1.connect
          ⟨nid, port⟩ ⟨sub.nextId, 0⟩)
        { node with outputs := node.outputs ++ [outp] } (k + 1)
      refine ⟨ih.1, ih.2.1, ih.2.2.1, ?_⟩
      rw [ih.2.2.2]
      simp

theorem inputNamesOf_spec (s : Snarl) : ∀ (ws : List Wire) (names : List String),
    inputNamesOf s ws = some names →
    names.length = ws.length ∧
    ∀ k w, ws.get? k = some w → names.get? k = s.inputNameAt w.2
  | [], names => by
      intro h
      injection h with h
      subst h
      exact ⟨rfl, by intro k w hw; simp at hw⟩
  | w0 :: rest, names => by
      intro h
      simp only [inputNamesOf] at h
      cases h1 : s.inputNameAt w0.2 with
      | none => rw [h1] at h; exact Option.noConfusion h
      | some nm0 =>
          rw [h1] at h
          simp only [Option.bind_eq_bind, Option.some_bind] at h
          cases h2 : inputNamesOf s rest with
          | none => rw [h2] at h; exact Option.noConfusion h
          | some rest' =>
              rw [h2] at h
              simp only [Option.some_bind] at h
              injection h with h
              subst h
              obtain ⟨hlen, hget⟩ := inputNamesOf_spec s rest rest' h2
              refine ⟨by simp [hlen], ?_⟩
              intro k w hw
              cases k with
              | zero =>
                  simp only [List.get?] at hw ⊢
                  injection hw with hw
                  subst hw
                  exact h1.symm
              | succ k =>
                  simp only [List.get?] at hw ⊢
                  exact hget k w hw

theorem outputNamesOf_spec (s : Snarl) : ∀ (ws : List Wire) (names : List String),
    outputNamesOf s ws = some names →
    names.length = ws.length ∧
    ∀ k w, ws.get? k = some w → names.get? k = s.outputNameAt w.1
  | [], names => by
      intro h
      injection h with h
      subst h
      exact ⟨rfl, by intro k w hw; simp at hw⟩
  | w0 :: rest, names => by
      intro h
      simp only [outputNamesOf] at h
      cases h1 : s.outputNameAt w0.1 with
      | none => rw [h1] at h; exact Option.noConfusion h
      | some nm0 =>
          rw [h1] at h
          simp only [Option.bind_eq_bind, Option.some_bind] at h
          cases h2 : outputNamesOf s rest with
          | none => rw [h2] at h; exact Option.noConfusion h
          | some rest' =>
              rw [h2] at h
              simp only [Option.some_bind] at h
              injection h with h
              subst h
              obtain ⟨hlen, hget⟩ := outputNamesOf_spec s rest rest' h2
              refine ⟨by simp [hlen], ?_⟩
              intro k w hw
              cases k with
              | zero =>
                  simp only [List.get?] at hw ⊢
                  injection hw with hw
                  subst hw
                  exact h1.symm
              | succ k =>
                  simp only [List.get?] at hw ⊢
                  exact hget k w hw

/-- Destructuring a successful build into its phases. -/
theorem convertBuild_destruct {s : Snarl} {sel : List Nat} {rr : BuildResult}
    (hres : convertBuild s sel = some rr) :
    ∃ (inNames outNames : List String) (sub1 sub2 s1 sub3 : Snarl)
      (m : List (Nat × Nat)) (srcIds sinkIds : List Nat) (sub5 sub6 sub7 : Snarl)
      (node1 : Node),
      externalInputNames s sel = some inNames ∧
      externalOutputNames s sel = some outNames ∧
      insertSources Subsystem.new.snarl 0 inNames = (sub1, srcIds) ∧
      insertSinks sub1 0 outNames = (sub2, sinkIds) ∧
      rehome s sub2 sel = (s1, sub3, m) ∧
      connectExtInputs m (connectInternal m sub3 (internalWires s sel))
        ((externalInputs s sel).zip srcIds) = some sub5 ∧
      connectExtOutputs m sub5 ((externalOutputs s sel).zip sinkIds) = some sub6 ∧
      applyDanglingInputs sub6 (replacementBase inNames outNames) 0
        (danglingInputs sub6) = (sub7, node1) ∧
      applyDanglingOutputs sub7 node1 0 (danglingOutputs sub7) = (rr.sub, rr.node) ∧
      rr.outer = s1 ∧ rr.nmap = m ∧ rr.srcIds = srcIds ∧ rr.sinkIds = sinkIds := by
  unfold convertBuild at hres
  cases h1 : externalInputNames s sel with
  | none => rw [h1] at hres; exact Option.noConfusion hres
  | some inNames =>
  rw [h1] at hres
  simp only [Option.bind_eq_bind, Option.some_bind] at hres
  cases h2 : externalOutputNames s sel with
  | none => rw [h2] at hres; exact Option.noConfusion hres
  | some outNames =>
  rw [h2] at hres
  simp only [Option.some_bind] at hres
  cases hsi : insertSources Subsystem.new.snarl 0 inNames with
  | mk sub1 srcIds =>
  rw [hsi] at hres
  simp only at hres
  cases hsk : insertSinks sub1 0 outNames with
  | mk sub2 sinkIds =>
  rw [hsk] at hres
  simp only at hres
  cases hrh : rehome s sub2 sel with
  | mk s1 rest2 =>
  cases rest2 with
  | mk sub3 m =>
  rw [hrh] at hres
  simp only at hres
  cases h5 : connectExtInputs m (connectInternal m sub3 (internalWires s sel))
      ((externalInputs s sel).zip srcIds) with
  | none => rw [h5] at hres; exact Option.noConfusion hres
  | some sub5 =>
  rw [h5] at hres
  simp only [Option.some_bind] at hres
  cases h6 : connectExtOutputs m sub5 ((externalOutputs s sel).zip sinkIds) with
  | none => rw [h6] at hres; exact Option.noConfusion hres
  | some sub6 =>
  rw [h6] at hres
  simp only [Option.some_bind] at hres
  have hrr := Option.some.inj hres
  subst hrr
  exact ⟨inNames, outNames, sub1, sub2, s1, sub3, m, srcIds, sinkIds, sub5, sub6,
    (applyDanglingInputs sub6 (replacementBase inNames outNames) 0
      (danglingInputs sub6)).1,
    (applyDanglingInputs sub6 (replacementBase inNames outNames) 0
      (danglingInputs sub6)).2,
    rfl, rfl, hsi, hsk, hrh, h5, h6, Prod.mk.eta.symm, Prod.mk.eta.symm,
    rfl, rfl, rfl, rfl⟩

/-!
## Claim theorems
-/

/-- C10: the "Convert To Subsystem" command is refused for an empty
selection — the button is disabled and a click performs no extraction —
while for any non-empty selection the button is enabled and a click runs
exactly the conversion. -/
theorem convert_refused_on_empty_selection (h : Heap) (s : Snarl) (pos : Pos) :
    convertClick h s [] pos = none ∧
    convertEnabled [] = false ∧
    ∀ sel : List Nat, sel ≠ [] →
      convertEnabled sel = true ∧
      convertClick h s sel pos = convertToSubsystem h s sel pos := by
  refine ⟨rfl, rfl, ?_⟩
  intro sel hne
  have he : sel.isEmpty = false := by
    cases sel with
    | nil => exact absurd rfl hne
    | cons a l => rfl
  constructor
  · simp [convertEnabled, he]
  · simp [convertClick, convertEnabled, he]

/-- Witness for C10 at a concrete non-empty selection. -/
theorem convert_refused_on_empty_selection_witness :
    ([1] : List Nat) ≠ [] ∧
    convertEnabled [1] = true ∧
    convertClick ⟨[], 0⟩ exampleSnarl [1] ⟨5, 5⟩ =
      convertToSubsystem ⟨[], 0⟩ exampleSnarl [1] ⟨5, 5⟩ :=
  ⟨by decide,
   ((convert_refused_on_empty_selection ⟨[], 0⟩ exampleSnarl ⟨5, 5⟩).2.2 [1]
     (by decide)).1,
   ((convert_refused_on_empty_selection ⟨[], 0⟩ exampleSnarl ⟨5, 5⟩).2.2 [1]
     (by decide)).2⟩

/-- C3 (code-bug evidence): the viewer's `drop_inputs`/`drop_outputs`
callbacks delete a port left with zero wires immediately, in place, inside
the same callback invocation — the structural deletion is not deferred to
a point outside the render pass (the source's own TODO comment at lines
157/166 records that this in-place removal crashes and should be
scheduled instead).  The evaluation below shows the port list already
shortened — later ports shifted down by one — in the very return value of
the callback. -/
theorem drop_removes_port_in_place :
    DiagramViewer.dropInputsImpl
        ⟨[(0, ⟨0, 0⟩,
           ⟨"A", [⟨"a", InputKind.Normal⟩, ⟨"b", InputKind.Normal⟩], [], none⟩)],
         [(⟨5, 0⟩, ⟨0, 0⟩)], 6⟩ ⟨0, 0⟩ =
      ⟨[(0, ⟨0, 0⟩, ⟨"A", [⟨"b", InputKind.Normal⟩], [], none⟩)], [], 6⟩ ∧
    DiagramViewer.dropOutputsImpl
        ⟨[(0, ⟨0, 0⟩,
           ⟨"A", [], [⟨"a", OutputKind.Normal⟩, ⟨"b", OutputKind.Normal⟩], none⟩)],
         [(⟨0, 0⟩, ⟨5, 0⟩)], 6⟩ ⟨0, 0⟩ =
      ⟨[(0, ⟨0, 0⟩, ⟨"A", [], [⟨"b", OutputKind.Normal⟩], none⟩)], [], 6⟩ := by
  decide

/-- C2 counterexample: entering the no-subsystem node 0 allocates a fresh
empty subsystem (reference 1) and navigates into it, but the node is left
unchanged — its subsystem field is still `none`, not attached as the claim
states. -/
theorem enter_subsystem_not_attached :
    (enterSubsystemById enterExampleHeap ⟨0, 0, []⟩ 0).2.current = 1 ∧
    (enterSubsystemById enterExampleHeap ⟨0, 0, []⟩ 0).2.previous = [0] ∧
    (enterSubsystemById enterExampleHeap ⟨0, 0, []⟩ 0).1.lookup 1 =
      some Subsystem.new ∧
    ((enterSubsystemById enterExampleHeap ⟨0, 0, []⟩ 0).1.lookup 0).bind
      (fun sub => sub.snarl.getNode 0) = some ⟨"N", [], [], none⟩ := by
  decide

/-- C2 (amended): "Enter Subsystem" always pushes the current subsystem
onto the navigation history; when the node has a subsystem, that shared
reference itself becomes current (no copy); when it has none, a fresh
empty subsystem is allocated and becomes current, but it is NOT attached
to the node — the rest of the heap, and hence the node's subsystem field,
is unchanged. -/
theorem enter_subsystem_spec (h : Heap) (v : DiagramViewer) (nid : Nat) (node : Node)
    (hh : HeapWF h)
    (hn : (h.lookup v.current).bind (fun sub => sub.snarl.getNode nid) = some node) :
    (enterSubsystemById h v nid).2.previous = v.previous ++ [v.current] ∧
    (∀ r, node.subsystem = some r →
      enterSubsystemById h v nid =
        (h, { v with previous := v.previous ++ [v.current], current := r })) ∧
    (node.subsystem = none →
      (enterSubsystemById h v nid).2.current = h.nextRef ∧
      h.lookup h.nextRef = none ∧
      (enterSubsystemById h v nid).1.lookup h.nextRef = some Subsystem.new ∧
      ∀ r', r' ≠ h.nextRef →
        (enterSubsystemById h v nid).1.lookup r' = h.lookup r') := by
  have hu : enterSubsystemById h v nid = enterSubsystem h v node := by
    unfold enterSubsystemById
    rw [hn]
  rw [hu]
  cases hsub : node.subsystem with
  | some r =>
      refine ⟨?_, ?_, ?_⟩
      · unfold enterSubsystem
        rw [hsub]
      · intro r' hr'
        injection hr' with hr'
        subst hr'
        unfold enterSubsystem
        rw [hsub]
      · intro hc
        exact Option.noConfusion hc
  | none =>
      refine ⟨?_, ?_, ?_⟩
      · unfold enterSubsystem
        rw [hsub]
      · intro r' hr'
        exact Option.noConfusion hr'
      · intro _
        unfold enterSubsystem
        rw [hsub]
        exact ⟨rfl, Heap.lookup_none_of_wf hh, Heap.lookup_alloc_fresh hh _,
          fun r' hr' => Heap.lookup_alloc_ne h _ hr'⟩

/-- Witness for C2's amended statement at a concrete input. -/
theorem enter_subsystem_spec_witness :
    HeapWF enterExampleHeap ∧
    (enterExampleHeap.lookup 0).bind (fun sub => sub.snarl.getNode 0) =
      some ⟨"N", [], [], none⟩ ∧
    (enterSubsystemById enterExampleHeap ⟨0, 0, []⟩ 0).2.previous = [] ++ [0] ∧
    (enterSubsystemById enterExampleHeap ⟨0, 0, []⟩ 0).2.current =
      enterExampleHeap.nextRef :=
  have hspec := enter_subsystem_spec enterExampleHeap ⟨0, 0, []⟩ 0 ⟨"N", [], [], none⟩
    (by decide) (by decide)
  ⟨by decide, by decide, hspec.1, (hspec.2.2 rfl).1⟩

/-- C8 counterexample: the selection [5] names a node that is absent from
the graph while a wire into node 5 exists; the conversion aborts (`none`,
modelling the Rust panic) instead of completing with that connection
silently skipped. -/
theorem unresolved_wire_aborts_conversion :
    convertToSubsystem ⟨[], 0⟩ danglingRefSnarl [5] ⟨0, 0⟩ = none ∧
    convertBuild danglingRefSnarl [5] = none := by
  exact ⟨rfl, rfl⟩

/-- C8 (amended): an internal wire whose endpoint the node mapping cannot
resolve is skipped silently (its connection is simply not re-created), but
an external-input or external-output wire whose selected endpoint cannot
be resolved aborts the whole conversion (the `.expect` panic in the
source; a selected node absent from the graph aborts even earlier, at the
port-name lookup). -/
theorem unmapped_endpoint_handling (m : List (Nat × Nat)) (sub : Snarl) (w : Wire)
    (iw : List Wire) (rest : List (Wire × Nat)) (sid : Nat) :
    ((mapLookup m w.1.node = none ∨ mapLookup m w.2.node = none) →
      connectInternal m sub (w :: iw) = connectInternal m sub iw) ∧
    (mapLookup m w.2.node = none →
      connectExtInputs m sub ((w, sid) :: rest) = none) ∧
    (mapLookup m w.1.node = none →
      connectExtOutputs m sub ((w, sid) :: rest) = none) :=
  ⟨fun hc => connectInternal_cons_skip hc,
   fun hc => connectExtInputs_cons_none hc,
   fun hc => connectExtOutputs_cons_none hc⟩

/-- Witness for C8's amended statement at a concrete input. -/
theorem unmapped_endpoint_handling_witness :
    (mapLookup [] (0 : Nat) = none ∨ mapLookup [] (1 : Nat) = none) ∧
    connectInternal [] Subsystem.new.snarl [(⟨0, 0⟩, ⟨1, 0⟩)] =
      connectInternal [] Subsystem.new.snarl [] ∧
    connectExtInputs [] Subsystem.new.snarl [((⟨0, 0⟩, ⟨1, 0⟩), 0)] = none ∧
    connectExtOutputs [] Subsystem.new.snarl [((⟨0, 0⟩, ⟨1, 0⟩), 0)] = none :=
  have hx := unmapped_endpoint_handling [] Subsystem.new.snarl (⟨0, 0⟩, ⟨1, 0⟩) [] [] 0
  ⟨Or.inl rfl, hx.1 (Or.inl rfl), hx.2.1 rfl, hx.2.2 rfl⟩

theorem Snarl.getNode_congr_nodes {s t : Snarl} (h : s.nodes = t.nodes) (id : Nat) :
    s.getNode id = t.getNode id := by
  unfold Snarl.getNode Snarl.getNodeEntry
  rw [h]

/-- Destructuring a successful conversion into the build and the final
insertion/reconnection. -/
theorem convertToSubsystem_destruct {h : Heap} {s : Snarl} {sel : List Nat} {pos : Pos}
    {h' : Heap} {s' : Snarl} {nid : Nat}
    (hres : convertToSubsystem h s sel pos = some (h', s', nid)) :
    ∃ rr : BuildResult, convertBuild s sel = some rr ∧
      h' = (h.alloc ⟨rr.sub⟩).1 ∧
      nid = rr.outer.nextId ∧
      s' = connectReplacementOutputs nid
            (connectReplacementInputs nid
              (rr.outer.insertNode pos { rr.node with subsystem := some h.nextRef }).1
              0 (externalInputs s sel))
            0 (externalOutputs s sel) := by
  unfold convertToSubsystem at hres
  cases hb : convertBuild s sel with
  | none => rw [hb] at hres; exact Option.noConfusion hres
  | some rr =>
      rw [hb] at hres
      simp only [Option.bind_eq_bind, Option.some_bind] at hres
      have hEq := Option.some.inj hres
      have h1 := congrArg Prod.fst hEq
      have h23 := congrArg Prod.snd hEq
      have h2 := congrArg Prod.fst h23
      have h3 := congrArg Prod.snd h23
      simp only at h1 h2 h3
      refine ⟨rr, rfl, h1.symm, h3.symm, ?_⟩
      rw [← h3]
      exact h2.symm

/-- C9: after "Convert To Subsystem", the node inserted into the enclosing
graph is named "Subsystem" and its subsystem field holds a freshly
allocated shared reference whose target is the newly built subsystem —
entering the replacement node therefore pushes the current view onto the
history and makes exactly that subsystem current. -/
theorem replacement_node_shares_new_subsystem (h : Heap) (s : Snarl) (sel : List Nat)
    (pos : Pos) {h' : Heap} {s' : Snarl} {nid : Nat}
    (hh : HeapWF h) (hwf : SnarlWF s)
    (hres : convertToSubsystem h s sel pos = some (h', s', nid)) :
    ∃ node : Node, s'.getNode nid = some node ∧
      node.name = "Subsystem" ∧
      node.subsystem = some h.nextRef ∧
      h.lookup h.nextRef = none ∧
      (∃ rr : BuildResult, convertBuild s sel = some rr ∧
        h'.lookup h.nextRef = some ⟨rr.sub⟩) ∧
      ∀ v : DiagramViewer, enterSubsystem h' v node =
        (h', { v with previous := v.previous ++ [v.current],
                      current := h.nextRef }) := by
  obtain ⟨rr, hb, hh', hnid, hs'⟩ := convertToSubsystem_destruct hres
  obtain ⟨inNames, outNames, sub1, sub2, s1, sub3, m, srcIds, sinkIds, sub5, sub6,
    sub7, node1, hin, hout, hsi, hsk, hrh, h5, h6, hdi, hdo, houter, hm, hsrc, hsink⟩ :=
    convertBuild_destruct hb
  refine ⟨{ rr.node with subsystem := some h.nextRef }, ?_, ?_, rfl,
    Heap.lookup_none_of_wf hh, ⟨rr, hb, by rw [hh']; exact Heap.lookup_alloc_fresh hh _⟩, ?_⟩
  · -- the inserted node is found under its fresh id, and the final
    -- reconnection does not change any node entry
    have hkeys : ∀ e ∈ rr.outer.nodes, e.1 ≠ rr.outer.nextId := by
      intro e he
      have hsub : e ∈ s.nodes := by
        rw [houter] at he
        have : e ∈ (rehome s sub2 sel).1.nodes := by rw [hrh]; exact he
        exact rehome_outer_nodes_subset sel s sub2 e this
      have hlt : e.1 < s.nextId := hwf.2.1 e hsub
      have hn : rr.outer.nextId = s.nextId := by
        rw [houter]
        have : (rehome s sub2 sel).1.nextId = s.nextId := rehome_outer_nextId sel s sub2
        rw [hrh] at this
        exact this
      omega
    have hget : (rr.outer.insertNode pos
        { rr.node with subsystem := some h.nextRef }).1.getNode rr.outer.nextId =
        some { rr.node with subsystem := some h.nextRef } :=
      Snarl.getNode_insert_fresh hkeys pos _
    have hnodes : s'.nodes = (rr.outer.insertNode pos
        { rr.node with subsystem := some h.nextRef }).1.nodes := by
      rw [hs']
      rw [(connectReplacementOutputs_nodes nid _ _ _).1,
        (connectReplacementInputs_nodes nid _ _ _).1]
    rw [Snarl.getNode_congr_nodes hnodes nid, hnid]
    exact hget
  · -- the name is "Subsystem"
    show rr.node.name = "Subsystem"
    have h1 : rr.node = (applyDanglingOutputs sub7 node1 0 (danglingOutputs sub7)).2 :=
      (congrArg Prod.snd hdo).symm
    have h2 : node1 = (applyDanglingInputs sub6 (replacementBase inNames outNames) 0
        (danglingInputs sub6)).2 := (congrArg Prod.snd hdi).symm
    rw [h1, (applyDanglingOutputs_node _ _ _ _).1, h2,
      (applyDanglingInputs_node _ _ _ _).1]
    rfl
  · -- entering the replacement node navigates into the new subsystem
    intro v
    unfold enterSubsystem
    rfl

/-- Witness for C9 at a concrete conversion (a single selected node). -/
theorem replacement_node_shares_new_subsystem_witness :
    HeapWF (⟨[], 0⟩ : Heap) ∧ SnarlWF singleNodeSnarl ∧
    ∃ node : Node,
      (⟨[(1, ⟨9, 9⟩, ⟨"Subsystem", [], [], some 0⟩)], [], 2⟩ : Snarl).getNode 1 =
        some node ∧
      node.name = "Subsystem" ∧
      node.subsystem = some (⟨[], 0⟩ : Heap).nextRef ∧
      (⟨[], 0⟩ : Heap).lookup (⟨[], 0⟩ : Heap).nextRef = none ∧
      (∃ rr : BuildResult, convertBuild singleNodeSnarl [0] = some rr ∧
        (⟨[(0, ⟨singleNodeSnarl⟩)], 1⟩ : Heap).lookup (⟨[], 0⟩ : Heap).nextRef =
          some ⟨rr.sub⟩) ∧
      ∀ v : DiagramViewer,
        enterSubsystem ⟨[(0, ⟨singleNodeSnarl⟩)], 1⟩ v node =
          (⟨[(0, ⟨singleNodeSnarl⟩)], 1⟩,
           { v with previous := v.previous ++ [v.current],
                    current := (⟨[], 0⟩ : Heap).nextRef }) :=
  ⟨by decide, by decide,
   @replacement_node_shares_new_subsystem ⟨[], 0⟩ singleNodeSnarl [0] ⟨9, 9⟩
     ⟨[(0, ⟨singleNodeSnarl⟩)], 1⟩
     ⟨[(1, ⟨9, 9⟩, ⟨"Subsystem", [], [], some 0⟩)], [], 2⟩ 1
     (by decide) (by decide) (by decide)⟩

theorem Snarl.NodesExtend.of_eq {s t : Snarl} (h : s.nodes = t.nodes) :
    s.NodesExtend t :=
  ⟨[], by rw [← h, List.append_nil]⟩

/-- The subsystem graph as it stands after boundary synthesis only grows
(by node insertion) through all the later phases of the build. -/
theorem sub2_extend_to_final {s : Snarl} {sel : List Nat} {sub2 s1 sub3 : Snarl}
    {m : List (Nat × Nat)} {srcIds sinkIds : List Nat} {sub5 sub6 sub7 : Snarl}
    {node1 : Node} {subF : Snarl} {nodeF : Node} (base : Node)
    (hrh : rehome s sub2 sel = (s1, sub3, m))
    (h5 : connectExtInputs m (connectInternal m sub3 (internalWires s sel))
      ((externalInputs s sel).zip srcIds) = some sub5)
    (h6 : connectExtOutputs m sub5 ((externalOutputs s sel).zip sinkIds) = some sub6)
    (hdi : applyDanglingInputs sub6 base 0 (danglingInputs sub6) = (sub7, node1))
    (hdo : applyDanglingOutputs sub7 node1 0 (danglingOutputs sub7) = (subF, nodeF)) :
    sub2.NodesExtend subF := by
  have e1 : sub2.NodesExtend sub3 := by
    have hx := rehome_sub_extend sel s sub2
    rw [hrh] at hx
    exact hx
  have e2 : sub3.NodesExtend (connectInternal m sub3 (internalWires s sel)) :=
    Snarl.NodesExtend.of_eq (connectInternal_nodes m _ sub3).symm
  have e3 : (connectInternal m sub3 (internalWires s sel)).NodesExtend sub5 :=
    Snarl.NodesExtend.of_eq (connectExtInputs_nodes m _ _ sub5 h5).1.symm
  have e4 : sub5.NodesExtend sub6 :=
    Snarl.NodesExtend.of_eq (connectExtOutputs_nodes m _ _ sub6 h6).1.symm
  have e5 : sub6.NodesExtend sub7 := by
    have hx := applyDanglingInputs_extend (danglingInputs sub6) sub6 base 0
    rw [hdi] at hx
    exact hx
  have e6 : sub7.NodesExtend subF := by
    have hx := applyDanglingOutputs_extend (danglingOutputs sub7) sub7 node1 0
    rw [hdo] at hx
    exact hx
  exact ((((e1.trans e2).trans e3).trans e4).trans e5).trans e6

/-- C7: extraction synthesizes, inside the new subsystem, exactly one
boundary source node per external-input wire — they receive the ids
`0 .. |extIn|-1` in enumeration order, and the `k`-th has no inputs and a
single output port of kind `External` named after the consuming
(selected-side) input port of the `k`-th external-input wire — and exactly
one boundary sink node per external-output wire — ids
`|extIn| .. |extIn|+|extOut|-1`, the `k`-th having a single input port of
kind `External` named after the producing (selected-side) output port and
no outputs. -/
theorem boundary_synthesis (s : Snarl) (sel : List Nat) {rr : BuildResult}
    (hres : convertBuild s sel = some rr) :
    rr.srcIds = List.range' 0 (externalInputs s sel).length ∧
    rr.sinkIds =
      List.range' (externalInputs s sel).length (externalOutputs s sel).length ∧
    (∀ k w, (externalInputs s sel).get? k = some w →
      ∃ nm, s.inputNameAt w.2 = some nm ∧ rr.sub.getNode k = some (srcNode k nm)) ∧
    (∀ k w, (externalOutputs s sel).get? k = some w →
      ∃ nm, s.outputNameAt w.1 = some nm ∧
        rr.sub.getNode ((externalInputs s sel).length + k) = some (sinkNode k nm)) := by
  obtain ⟨inNames, outNames, sub1, sub2, s1, sub3, m, srcIds, sinkIds, sub5, sub6,
    sub7, node1, hin, hout, hsi, hsk, hrh, h5, h6, hdi, hdo, houter, hm, hsrc, hsink⟩ :=
    convertBuild_destruct hres
  obtain ⟨hlenIn, hgetIn⟩ := inputNamesOf_spec s _ _ hin
  obtain ⟨hlenOut, hgetOut⟩ := outputNamesOf_spec s _ _ hout
  have hsrcSpec := insertSources_spec inNames Subsystem.new.snarl 0
  rw [hsi] at hsrcSpec
  simp only at hsrcSpec
  have hsub1nodes : sub1.nodes = srcEntries 0 0 inNames := by
    have := hsrcSpec.1
    simpa [Subsystem.new] using this
  have hsub1next : sub1.nextId = inNames.length := by
    have := hsrcSpec.2.2.1
    simpa [Subsystem.new] using this
  have hsrcIds : srcIds = List.range' 0 inNames.length := by
    have := hsrcSpec.2.2.2
    simpa [Subsystem.new] using this
  have hsinkSpec := insertSinks_spec outNames sub1 0
  rw [hsk] at hsinkSpec
  simp only at hsinkSpec
  have hsub2nodes : sub2.nodes =
      srcEntries 0 0 inNames ++ sinkEntries inNames.length 0 outNames := by
    rw [hsinkSpec.1, hsub1nodes, hsub1next]
  have hsinkIds : sinkIds = List.range' inNames.length outNames.length := by
    rw [hsinkSpec.2.2.2, hsub1next]
  have hext : sub2.NodesExtend rr.sub :=
    sub2_extend_to_final (replacementBase inNames outNames) hrh h5 h6 hdi
      (by rw [hdo])
  refine ⟨by rw [hsrc, hsrcIds, hlenIn], by rw [hsink, hsinkIds, hlenIn, hlenOut],
    ?_, ?_⟩
  · intro k w hw
    have hk : k < inNames.length := by
      rw [hlenIn]
      exact List.get?_eq_some.mp hw |>.1
    cases hnm : inNames.get? k with
    | none =>
        rw [List.get?_eq_none] at hnm
        omega
    | some nm =>
        have hname : s.inputNameAt w.2 = some nm := by
          rw [← hgetIn k w hw, hnm]
        refine ⟨nm, hname, ?_⟩
        apply Snarl.getNode_of_extend hext
        unfold Snarl.getNode Snarl.getNodeEntry
        rw [hsub2nodes, List.find?_append]
        have hfind := find?_srcEntries inNames 0 0 k nm hnm
        simp only [Nat.zero_add] at hfind
        rw [hfind]
        rfl
  · intro k w hw
    have hk : k < outNames.length := by
      rw [hlenOut]
      exact List.get?_eq_some.mp hw |>.1
    cases hnm : outNames.get? k with
    | none =>
        rw [List.get?_eq_none] at hnm
        omega
    | some nm =>
        have hname : s.outputNameAt w.1 = some nm := by
          rw [← hgetOut k w hw, hnm]
        refine ⟨nm, hname, ?_⟩
        rw [← hlenIn]
        apply Snarl.getNode_of_extend hext
        unfold Snarl.getNode Snarl.getNodeEntry
        rw [hsub2nodes, List.find?_append]
        rw [find?_srcEntries_none inNames 0 0 (inNames.length + k) (by omega)]
        have hfind := find?_sinkEntries outNames inNames.length 0 k nm hnm
        simp only [Nat.zero_add] at hfind
        rw [hfind]
        rfl

/-- Witness for C7 at the concrete extraction of B from A→B→C. -/
theorem boundary_synthesis_witness :
    convertBuild exampleSnarl [1] = some exampleBuildResult ∧
    (exampleBuildResult.srcIds =
      List.range' 0 (externalInputs exampleSnarl [1]).length ∧
     exampleBuildResult.sinkIds =
      List.range' (externalInputs exampleSnarl [1]).length
        (externalOutputs exampleSnarl [1]).length ∧
     (∀ k w, (externalInputs exampleSnarl [1]).get? k = some w →
       ∃ nm, exampleSnarl.inputNameAt w.2 = some nm ∧
         exampleBuildResult.sub.getNode k = some (srcNode k nm)) ∧
     (∀ k w, (externalOutputs exampleSnarl [1]).get? k = some w →
       ∃ nm, exampleSnarl.outputNameAt w.1 = some nm ∧
         exampleBuildResult.sub.getNode
           ((externalInputs exampleSnarl [1]).length + k) = some (sinkNode k nm))) :=
  ⟨by decide, boundary_synthesis exampleSnarl [1] (by decide)⟩

/-!
## Characterizing the final outer graph
-/

theorem contains_iff_mem {l : List Nat} {x : Nat} : l.contains x = true ↔ x ∈ l :=
  List.elem_iff

theorem externalInputs_sublist (s : Snarl) (sel : List Nat) :
    (externalInputs s sel).Sublist s.wires :=
  (List.filter_sublist _).trans (List.filter_sublist _)

theorem externalOutputs_sublist (s : Snarl) (sel : List Nat) :
    (externalOutputs s sel).Sublist s.wires :=
  (List.filter_sublist _).trans (List.filter_sublist _)

theorem internalWires_sublist (s : Snarl) (sel : List Nat) :
    (internalWires s sel).Sublist s.wires :=
  (List.filter_sublist _).trans (List.filter_sublist _)

theorem externalInputs_spec {s : Snarl} {sel : List Nat} {w : Wire}
    (hw : w ∈ externalInputs s sel) :
    w ∈ s.wires ∧ w.2.node ∈ sel ∧ w.1.node ∉ sel := by
  unfold externalInputs relevantWires at hw
  have h1 := List.mem_filter.mp hw
  have h2 := List.mem_filter.mp h1.1
  refine ⟨h2.1, ?_, ?_⟩
  · have := (Bool.and_eq_true _ _).mp h1.2
    exact contains_iff_mem.mp this.1
  · intro hc
    have hcc : sel.contains w.1.node = true := contains_iff_mem.mpr hc
    have hx := ((Bool.and_eq_true _ _).mp h1.2).2
    rw [hcc] at hx
    simp at hx

theorem externalOutputs_spec {s : Snarl} {sel : List Nat} {w : Wire}
    (hw : w ∈ externalOutputs s sel) :
    w ∈ s.wires ∧ w.2.node ∉ sel ∧ w.1.node ∈ sel := by
  unfold externalOutputs relevantWires at hw
  have h1 := List.mem_filter.mp hw
  have h2 := List.mem_filter.mp h1.1
  refine ⟨h2.1, ?_, ?_⟩
  · intro hc
    have hcc : sel.contains w.2.node = true := contains_iff_mem.mpr hc
    have hx := ((Bool.and_eq_true _ _).mp h1.2).1
    rw [hcc] at hx
    simp at hx
  · have := (Bool.and_eq_true _ _).mp h1.2
    exact contains_iff_mem.mp this.2

theorem internalWires_spec {s : Snarl} {sel : List Nat} {w : Wire}
    (hw : w ∈ internalWires s sel) :
    w ∈ s.wires ∧ w.2.node ∈ sel ∧ w.1.node ∈ sel := by
  unfold internalWires relevantWires at hw
  have h1 := List.mem_filter.mp hw
  have h2 := List.mem_filter.mp h1.1
  have := (Bool.and_eq_true _ _).mp h1.2
  exact ⟨h2.1, contains_iff_mem.mp this.1, contains_iff_mem.mp this.2⟩

theorem pairwise_ne_inPin_of_wf {s : Snarl} (hwf : SnarlWF s) {ws : List Wire}
    (hsub : ws.Sublist s.wires) :
    ws.Pairwise (fun w1 w2 => w1.2 ≠ w2.2) := by
  have hnd : (ws.map (fun w => w.2)).Nodup :=
    (hsub.map _).nodup hwf.2.2.2.2
  exact List.pairwise_map.mp hnd

theorem eq_of_inPin_eq {s : Snarl} (hwf : SnarlWF s) {w1 w2 : Wire}
    (h1 : w1 ∈ s.wires) (h2 : w2 ∈ s.wires) (h : w1.2 = w2.2) : w1 = w2 :=
  List.inj_on_of_nodup_map hwf.2.2.2.2 h1 h2 h

theorem replInWires_mem (newId : Nat) : ∀ (ws : List Wire) (n : Nat) (w' : Wire),
    w' ∈ replInWires newId n ws →
    w'.2.node = newId ∧ ∃ w ∈ ws, w'.1 = w.1
  | [], _, w' => by simp [replInWires]
  | w :: rest, n, w' => by
      intro h
      simp only [replInWires, List.mem_cons] at h
      rcases h with h | h
      · subst h
        exact ⟨rfl, w, List.mem_cons_self _ _, rfl⟩
      · obtain ⟨h1, w0, hw0, h2⟩ := replInWires_mem newId rest (n + 1) w' h
        exact ⟨h1, w0, List.mem_cons_of_mem _ hw0, h2⟩

theorem replOutWires_mem (newId : Nat) : ∀ (ws : List Wire) (n : Nat) (w' : Wire),
    w' ∈ replOutWires newId n ws →
    w'.1.node = newId ∧ ∃ w ∈ ws, w'.2 = w.2
  | [], _, w' => by simp [replOutWires]
  | w :: rest, n, w' => by
      intro h
      simp only [replOutWires, List.mem_cons] at h
      rcases h with h | h
      · subst h
        exact ⟨rfl, w, List.mem_cons_self _ _, rfl⟩
      · obtain ⟨h1, w0, hw0, h2⟩ := replOutWires_mem newId rest (n + 1) w' h
        exact ⟨h1, w0, List.mem_cons_of_mem _ hw0, h2⟩

theorem inputNamesOf_mem_isSome (s : Snarl) : ∀ (ws : List Wire) (names : List String),
    inputNamesOf s ws = some names → ∀ w ∈ ws, ∃ nm, s.inputNameAt w.2 = some nm
  | [], _ => by intro _ w hw; simp at hw
  | w0 :: rest, names => by
      intro h w hw
      simp only [inputNamesOf] at h
      cases h1 : s.inputNameAt w0.2 with
      | none => rw [h1] at h; exact Option.noConfusion h
      | some nm0 =>
          rw [h1] at h
          simp only [Option.bind_eq_bind, Option.some_bind] at h
          cases h2 : inputNamesOf s rest with
          | none => rw [h2] at h; exact Option.noConfusion h
          | some rest' =>
              rcases List.mem_cons.mp hw with heq | hmem
              · subst heq; exact ⟨nm0, h1⟩
              · exact inputNamesOf_mem_isSome s rest rest' h2 w hmem

theorem outputNamesOf_mem_isSome (s : Snarl) : ∀ (ws : List Wire) (names : List String),
    outputNamesOf s ws = some names → ∀ w ∈ ws, ∃ nm, s.outputNameAt w.1 = some nm
  | [], _ => by intro _ w hw; simp at hw
  | w0 :: rest, names => by
      intro h w hw
      simp only [outputNamesOf] at h
      cases h1 : s.outputNameAt w0.1 with
      | none => rw [h1] at h; exact Option.noConfusion h
      | some nm0 =>
          rw [h1] at h
          simp only [Option.bind_eq_bind, Option.some_bind] at h
          cases h2 : outputNamesOf s rest with
          | none => rw [h2] at h; exact Option.noConfusion h
          | some rest' =>
              rcases List.mem_cons.mp hw with heq | hmem
              · subst heq; exact ⟨nm0, h1⟩
              · exact outputNamesOf_mem_isSome s rest rest' h2 w hmem

theorem Snarl.getNodeEntry_of_inputNameAt {s : Snarl} {pin : InPinId} {nm : String}
    (h : s.inputNameAt pin = some nm) : ∃ pn, s.getNodeEntry pin.node = some pn := by
  unfold Snarl.inputNameAt at h
  cases hg : s.getNode pin.node with
  | none => rw [hg] at h; exact Option.noConfusion h
  | some node =>
      unfold Snarl.getNode at hg
      cases he : s.getNodeEntry pin.node with
      | none => rw [he] at hg; exact Option.noConfusion hg
      | some pn => exact ⟨pn, rfl⟩

theorem Snarl.getNodeEntry_of_outputNameAt {s : Snarl} {pin : OutPinId} {nm : String}
    (h : s.outputNameAt pin = some nm) : ∃ pn, s.getNodeEntry pin.node = some pn := by
  unfold Snarl.outputNameAt at h
  cases hg : s.getNode pin.node with
  | none => rw [hg] at h; exact Option.noConfusion h
  | some node =>
      unfold Snarl.getNode at hg
      cases he : s.getNodeEntry pin.node with
      | none => rw [he] at hg; exact Option.noConfusion hg
      | some pn => exact ⟨pn, rfl⟩

/-- A rehomed (present) selected node leaves no wire touching it behind. -/
theorem rehome_removes_touching : ∀ (sel : List Nat) (s sub : Snarl) (x : Nat),
    x ∈ sel → (∃ pn, s.getNodeEntry x = some pn) →
    ∀ w ∈ (rehome s sub sel).1.wires, w.1.node ≠ x ∧ w.2.node ≠ x
  | [], _, _, _, hx, _ => by simp at hx
  | nid :: rest, s, sub, x, hx, hpres => by
      intro w hw
      by_cases hxe : x = nid
      · subst hxe
        obtain ⟨pn, hpn⟩ := hpres
        obtain ⟨pos, node⟩ := pn
        rw [rehome_cons_some hpn] at hw
        have := rehome_outer_wires_subset rest (s.removeNode x) _ w hw
        have hmem := List.mem_filter.mp this
        have := hmem.2
        simp only [Bool.and_eq_true, bne_iff_ne] at this
        exact this
      · have hxr : x ∈ rest := by
          rcases List.mem_cons.mp hx with h | h
          · exact absurd h hxe
          · exact h
        cases hge : s.getNodeEntry nid with
        | none =>
            rw [rehome_cons_none hge] at hw
            exact rehome_removes_touching rest s sub x hxr hpres w hw
        | some pn =>
            obtain ⟨pos, node⟩ := pn
            rw [rehome_cons_some hge] at hw
            have hpres' : ∃ pn, (s.removeNode nid).getNodeEntry x = some pn := by
              rw [Snarl.getNodeEntry_removeNode_ne s hxe]
              exact hpres
            exact rehome_removes_touching rest (s.removeNode nid) _ x hxr hpres' w hw

/-- Full characterization of the enclosing graph after a successful
conversion of a well-formed graph: the replacement node sits under the
fresh id `s.nextId` with the built port lists, and the final wire list is
exactly the untouched wires followed by one wire per external-input wire
(original outside output endpoint into the `n`-th replacement input) and
one wire per external-output wire (`n`-th replacement output into the
original outside input endpoint). -/
theorem conversion_outer_spec {h : Heap} {s : Snarl} {sel : List Nat} {pos : Pos}
    {h' : Heap} {s' : Snarl} {nid : Nat} (hwf : SnarlWF s)
    (hres : convertToSubsystem h s sel pos = some (h', s', nid)) :
    ∃ rr : BuildResult, convertBuild s sel = some rr ∧
      nid = s.nextId ∧
      s'.getNode nid = some { rr.node with subsystem := some h.nextRef } ∧
      s'.wires = rr.outer.wires ++ replInWires nid 0 (externalInputs s sel)
                 ++ replOutWires nid 0 (externalOutputs s sel) ∧
      (∀ w ∈ rr.outer.wires, w ∈ s.wires) ∧
      (∀ w ∈ rr.outer.wires, w.1.node ≠ nid ∧ w.2.node ≠ nid) := by
  obtain ⟨rr, hb, hh', hnid, hs'⟩ := convertToSubsystem_destruct hres
  obtain ⟨inNames, outNames, sub1, sub2, s1, sub3, m, srcIds, sinkIds, sub5, sub6,
    sub7, node1, hin, hout, hsi, hsk, hrh, h5, h6, hdi, hdo, houter, hm, hsrc, hsink⟩ :=
    convertBuild_destruct hb
  have houterNext : rr.outer.nextId = s.nextId := by
    rw [houter]
    have hx := rehome_outer_nextId sel s sub2
    rw [hrh] at hx
    exact hx
  have hnidS : nid = s.nextId := by rw [hnid, houterNext]
  have houterWires : ∀ w ∈ rr.outer.wires, w ∈ s.wires := by
    intro w hw
    rw [houter] at hw
    have hx : w ∈ (rehome s sub2 sel).1.wires := by rw [hrh]; exact hw
    exact rehome_outer_wires_subset sel s sub2 w hx
  have hwiresLt : ∀ w ∈ s.wires, w.1.node < s.nextId ∧ w.2.node < s.nextId := by
    intro w hw
    constructor
    · obtain ⟨e1, he1, heq1, _⟩ := hwf.2.2.1 w hw
      have := hwf.2.1 e1 he1
      omega
    · obtain ⟨e2, he2, heq2, _⟩ := hwf.2.2.2.1 w hw
      have := hwf.2.1 e2 he2
      omega
  have houterFresh : ∀ w ∈ rr.outer.wires, w.1.node ≠ nid ∧ w.2.node ≠ nid := by
    intro w hw
    have hx := hwiresLt w (houterWires w hw)
    rw [hnidS]
    constructor <;> omega
  have hnoClash : ∀ w ∈ rr.outer.wires, ∀ wx ∈ externalOutputs s sel, w.2 ≠ wx.2 := by
    intro w hw wx hwx heq
    have hws : w ∈ s.wires := houterWires w hw
    have hwxs := (externalOutputs_spec hwx).1
    have hwe : w = wx := eq_of_inPin_eq hwf hws hwxs heq
    subst hwe
    have hsel1 : w.1.node ∈ sel := (externalOutputs_spec hwx).2.2
    obtain ⟨nm, hnm⟩ := outputNamesOf_mem_isSome s _ _ hout w hwx
    have hpres := Snarl.getNodeEntry_of_outputNameAt hnm
    have hw' : w ∈ (rehome s sub2 sel).1.wires := by
      rw [hrh]
      rw [houter] at hw
      exact hw
    exact (rehome_removes_touching sel s sub2 w.1.node hsel1 hpres w hw').1 rfl
  -- the inserted node
  have hkeys : ∀ e ∈ rr.outer.nodes, e.1 ≠ rr.outer.nextId := by
    intro e he
    rw [houter] at he
    have hx : e ∈ (rehome s sub2 sel).1.nodes := by rw [hrh]; exact he
    have hmem := rehome_outer_nodes_subset sel s sub2 e hx
    have hlt : e.1 < s.nextId := hwf.2.1 e hmem
    omega
  have hget : s'.getNode nid = some { rr.node with subsystem := some h.nextRef } := by
    have hg := Snarl.getNode_insert_fresh hkeys pos
      { rr.node with subsystem := some h.nextRef }
    have hnodes : s'.nodes = (rr.outer.insertNode pos
        { rr.node with subsystem := some h.nextRef }).1.nodes := by
      rw [hs']
      rw [(connectReplacementOutputs_nodes nid _ _ _).1,
        (connectReplacementInputs_nodes nid _ _ _).1]
    rw [Snarl.getNode_congr_nodes hnodes nid, hnid]
    exact hg
  -- the final wires
  have hcrI : (connectReplacementInputs nid
      (rr.outer.insertNode pos { rr.node with subsystem := some h.nextRef }).1
      0 (externalInputs s sel)).wires =
      rr.outer.wires ++ replInWires nid 0 (externalInputs s sel) := by
    apply connectReplacementInputs_wires_eq
    intro w' hw' hn
    exfalso
    exact (houterFresh w' hw').2 hn
  have hcrO : s'.wires = rr.outer.wires ++ replInWires nid 0 (externalInputs s sel)
      ++ replOutWires nid 0 (externalOutputs s sel) := by
    rw [hs']
    rw [connectReplacementOutputs_wires_eq nid (externalOutputs s sel) _ 0 ?hcond
      (pairwise_ne_inPin_of_wf hwf (externalOutputs_sublist s sel))]
    · rw [hcrI]
    case hcond =>
      intro w' hw' wx hwx heq
      rw [hcrI] at hw'
      rcases List.mem_append.mp hw' with hmem | hmem
      · exact hnoClash w' hmem wx hwx heq
      · have h1 := (replInWires_mem nid _ 0 w' hmem).1
        have h2 := (hwiresLt wx (externalOutputs_spec hwx).1).2
        have : w'.2.node = wx.2.node := by rw [heq]
        omega
  exact ⟨rr, hb, hnidS, hget, hcrO, houterWires, houterFresh⟩

/-- C5: the replacement node's port lists follow the classification
enumeration exactly — its `k`-th input is an `Internal`-kind port named
after the consuming input port of the `k`-th external-input wire, and its
`k`-th output an `Internal`-kind port named after the producing output
port of the `k`-th external-output wire — and the final reconnection wires
the `k`-th external-input wire's original outside output endpoint to the
replacement node's `k`-th input, and the replacement node's `k`-th output
to the `k`-th external-output wire's original outside input endpoint. -/
theorem replacement_ports_order_and_reconnection (h : Heap) (s : Snarl)
    (sel : List Nat) (pos : Pos) {h' : Heap} {s' : Snarl} {nid : Nat}
    (hwf : SnarlWF s)
    (hres : convertToSubsystem h s sel pos = some (h', s', nid)) :
    ∃ node : Node, s'.getNode nid = some node ∧
      (∀ k w, (externalInputs s sel).get? k = some w →
        ∃ nm, s.inputNameAt w.2 = some nm ∧
          node.inputs.get? k = some ⟨nm, InputKind.Internal⟩ ∧
          ((w.1, ⟨nid, k⟩) : Wire) ∈ s'.wires) ∧
      (∀ k w, (externalOutputs s sel).get? k = some w →
        ∃ nm, s.outputNameAt w.1 = some nm ∧
          node.outputs.get? k = some ⟨nm, OutputKind.Internal⟩ ∧
          ((⟨nid, k⟩, w.2) : Wire) ∈ s'.wires) := by
  obtain ⟨rr, hb, hnidS, hget, hwires, houterW, houterF⟩ :=
    conversion_outer_spec hwf hres
  obtain ⟨inNames, outNames, sub1, sub2, s1, sub3, m, srcIds, sinkIds, sub5, sub6,
    sub7, node1, hin, hout, hsi, hsk, hrh, h5, h6, hdi, hdo, houter, hm, hsrc, hsink⟩ :=
    convertBuild_destruct hb
  obtain ⟨hlenIn, hgetIn⟩ := inputNamesOf_spec s _ _ hin
  obtain ⟨hlenOut, hgetOut⟩ := outputNamesOf_spec s _ _ hout
  have h1 : rr.node = (applyDanglingOutputs sub7 node1 0 (danglingOutputs sub7)).2 :=
    (congrArg Prod.snd hdo).symm
  have h2 : node1 = (applyDanglingInputs sub6 (replacementBase inNames outNames) 0
      (danglingInputs sub6)).2 := (congrArg Prod.snd hdi).symm
  have hInputs : rr.node.inputs =
      inNames.map (fun nm => (⟨nm, InputKind.Internal⟩ : Input)) ++
        (danglingInputs sub6).map (fun e => e.2.2) := by
    rw [h1, (applyDanglingOutputs_node _ _ _ _).2.1, h2,
      (applyDanglingInputs_node _ _ _ _).2.2.2]
    rfl
  have hOutputs : rr.node.outputs =
      outNames.map (fun nm => (⟨nm, OutputKind.Internal⟩ : Output)) ++
        (danglingOutputs sub7).map (fun e => e.2.2) := by
    rw [h1, (applyDanglingOutputs_node _ _ _ _).2.2.2, h2,
      (applyDanglingInputs_node _ _ _ _).2.1]
    rfl
  refine ⟨_, hget, ?_, ?_⟩
  · intro k w hw
    have hk : k < inNames.length := by
      rw [hlenIn]
      exact (List.get?_eq_some.mp hw).1
    cases hnm : inNames.get? k with
    | none => rw [List.get?_eq_none] at hnm; omega
    | some nm =>
        refine ⟨nm, by rw [← hgetIn k w hw, hnm], ?_, ?_⟩
        · show rr.node.inputs.get? k = _
          rw [hInputs, List.get?_append (by simpa using hk), List.get?_map, hnm]
          rfl
        · rw [hwires]
          have hg := replInWires_get? nid (externalInputs s sel) 0 k w hw
          simp only [Nat.zero_add] at hg
          exact List.mem_append.mpr (Or.inl (List.mem_append.mpr
            (Or.inr (List.get?_mem hg))))
  · intro k w hw
    have hk : k < outNames.length := by
      rw [hlenOut]
      exact (List.get?_eq_some.mp hw).1
    cases hnm : outNames.get? k with
    | none => rw [List.get?_eq_none] at hnm; omega
    | some nm =>
        refine ⟨nm, by rw [← hgetOut k w hw, hnm], ?_, ?_⟩
        · show rr.node.outputs.get? k = _
          rw [hOutputs, List.get?_append (by simpa using hk), List.get?_map, hnm]
          rfl
        · rw [hwires]
          have hg := replOutWires_get? nid (externalOutputs s sel) 0 k w hw
          simp only [Nat.zero_add] at hg
          exact List.mem_append.mpr (Or.inr (List.get?_mem hg))

/-- Witness for C5 at the concrete extraction of B from A→B→C. -/
theorem replacement_ports_order_and_reconnection_witness :
    SnarlWF exampleSnarl ∧
    convertToSubsystem ⟨[], 0⟩ exampleSnarl [1] ⟨5, 5⟩ =
      some (exampleHeapAfter, exampleConverted, 3) ∧
    ∃ node : Node, exampleConverted.getNode 3 = some node ∧
      (∀ k w, (externalInputs exampleSnarl [1]).get? k = some w →
        ∃ nm, exampleSnarl.inputNameAt w.2 = some nm ∧
          node.inputs.get? k = some ⟨nm, InputKind.Internal⟩ ∧
          ((w.1, ⟨3, k⟩) : Wire) ∈ exampleConverted.wires) ∧
      (∀ k w, (externalOutputs exampleSnarl [1]).get? k = some w →
        ∃ nm, exampleSnarl.outputNameAt w.1 = some nm ∧
          node.outputs.get? k = some ⟨nm, OutputKind.Internal⟩ ∧
          ((⟨3, k⟩, w.2) : Wire) ∈ exampleConverted.wires) :=
  ⟨by decide, by decide,
   @replacement_ports_order_and_reconnection ⟨[], 0⟩ exampleSnarl [1] ⟨5, 5⟩
     exampleHeapAfter exampleConverted 3 (by decide) (by decide)⟩

theorem externalInputs_eq_filter (s : Snarl) (sel : List Nat) :
    externalInputs s sel =
      s.wires.filter (fun w => sel.contains w.2.node && !sel.contains w.1.node) := by
  unfold externalInputs relevantWires
  rw [List.filter_filter]
  apply List.filter_congr
  intro w _
  rcases sel.contains w.2.node with _ | _ <;>
    rcases sel.contains w.1.node with _ | _ <;> rfl

theorem externalOutputs_eq_filter (s : Snarl) (sel : List Nat) :
    externalOutputs s sel =
      s.wires.filter (fun w => !sel.contains w.2.node && sel.contains w.1.node) := by
  unfold externalOutputs relevantWires
  rw [List.filter_filter]
  apply List.filter_congr
  intro w _
  rcases sel.contains w.2.node with _ | _ <;>
    rcases sel.contains w.1.node with _ | _ <;> rfl

theorem length_filter_or_disjoint {α : Type} (p q : α → Bool) :
    ∀ l : List α, (∀ x ∈ l, ¬(p x = true ∧ q x = true)) →
    (l.filter (fun x => p x || q x)).length =
      (l.filter p).length + (l.filter q).length
  | [], _ => rfl
  | x :: l, hd => by
      have ih := length_filter_or_disjoint p q l
        (fun y hy => hd y (List.mem_cons_of_mem _ hy))
      have hx := hd x (List.mem_cons_self _ _)
      simp only [List.filter_cons]
      rcases hp : p x with _ | _ <;> rcases hq : q x with _ | _
      · simpa using ih
      · simp only [Bool.false_or, hq]
        simp [ih]
        omega
      · simp only [Bool.true_or]
        simp [ih]
        omega
      · exact absurd ⟨hp, hq⟩ hx

theorem boundaryWires_length (s : Snarl) (sel : List Nat) :
    (boundaryWires s sel).length =
      (externalInputs s sel).length + (externalOutputs s sel).length := by
  unfold boundaryWires
  rw [externalInputs_eq_filter, externalOutputs_eq_filter]
  apply length_filter_or_disjoint
  intro w _ hc
  obtain ⟨h1, h2⟩ := hc
  have ha := (Bool.and_eq_true _ _).mp h1
  have hb := (Bool.and_eq_true _ _).mp h2
  rw [ha.1] at hb
  simp at hb

/-- C1 (wire preservation): let `E` be the wires with exactly one endpoint
in the (non-empty) selection before extraction.  After "Convert To
Subsystem" the wires entering the replacement node are, in enumeration
order, exactly one per external-input wire of `E` carrying the same
outside output endpoint, and the wires leaving it exactly one per
external-output wire of `E` carrying the same outside input endpoint — the
positional maps stated below realize the claimed bijection — so
`|E| = in-degree + out-degree` of the replacement node, and every outside
endpoint is unchanged. -/
theorem wire_preservation (h : Heap) (s : Snarl) (sel : List Nat) (pos : Pos)
    {h' : Heap} {s' : Snarl} {nid : Nat}
    (hwf : SnarlWF s) (hne : sel ≠ [])
    (hres : convertToSubsystem h s sel pos = some (h', s', nid)) :
    s'.wires.filter (fun w => w.2.node == nid) =
      replInWires nid 0 (externalInputs s sel) ∧
    s'.wires.filter (fun w => w.1.node == nid) =
      replOutWires nid 0 (externalOutputs s sel) ∧
    (boundaryWires s sel).length =
      (s'.wires.filter (fun w => w.2.node == nid)).length +
        (s'.wires.filter (fun w => w.1.node == nid)).length ∧
    (∀ k w, (externalInputs s sel).get? k = some w →
      (s'.wires.filter (fun w' => w'.2.node == nid)).get? k =
        some (w.1, ⟨nid, k⟩)) ∧
    (∀ k w, (externalOutputs s sel).get? k = some w →
      (s'.wires.filter (fun w' => w'.1.node == nid)).get? k =
        some (⟨nid, k⟩, w.2)) := by
  obtain ⟨rr, hb, hnidS, hget, hwires, houterW, houterF⟩ :=
    conversion_outer_spec hwf hres
  have hwiresLt : ∀ w ∈ s.wires, w.1.node < s.nextId ∧ w.2.node < s.nextId := by
    intro w hw
    constructor
    · obtain ⟨e1, he1, heq1, _⟩ := hwf.2.2.1 w hw
      have := hwf.2.1 e1 he1
      omega
    · obtain ⟨e2, he2, heq2, _⟩ := hwf.2.2.2.1 w hw
      have := hwf.2.1 e2 he2
      omega
  have hIn : s'.wires.filter (fun w => w.2.node == nid) =
      replInWires nid 0 (externalInputs s sel) := by
    rw [hwires, List.filter_append, List.filter_append]
    have e1 : rr.outer.wires.filter (fun w => w.2.node == nid) = [] := by
      rw [List.filter_eq_nil_iff]
      intro w hw
      have := (houterF w hw).2
      simpa using this
    have e2 : (replInWires nid 0 (externalInputs s sel)).filter
        (fun w => w.2.node == nid) = replInWires nid 0 (externalInputs s sel) := by
      rw [List.filter_eq_self]
      intro w hw
      have := (replInWires_mem nid _ 0 w hw).1
      simpa using this
    have e3 : (replOutWires nid 0 (externalOutputs s sel)).filter
        (fun w => w.2.node == nid) = [] := by
      rw [List.filter_eq_nil_iff]
      intro w hw
      obtain ⟨_, wx, hwx, heq⟩ := replOutWires_mem nid _ 0 w hw
      have hlt := (hwiresLt wx (externalOutputs_spec hwx).1).2
      have : w.2.node = wx.2.node := by rw [heq]
      simp only [beq_iff_eq]
      omega
    rw [e1, e2, e3]
    simp
  have hOut : s'.wires.filter (fun w => w.1.node == nid) =
      replOutWires nid 0 (externalOutputs s sel) := by
    rw [hwires, List.filter_append, List.filter_append]
    have e1 : rr.outer.wires.filter (fun w => w.1.node == nid) = [] := by
      rw [List.filter_eq_nil_iff]
      intro w hw
      have := (houterF w hw).1
      simpa using this
    have e2 : (replInWires nid 0 (externalInputs s sel)).filter
        (fun w => w.1.node == nid) = [] := by
      rw [List.filter_eq_nil_iff]
      intro w hw
      obtain ⟨_, wx, hwx, heq⟩ := replInWires_mem nid _ 0 w hw
      have hlt := (hwiresLt wx (externalInputs_spec hwx).1).1
      have : w.1.node = wx.1.node := by rw [heq]
      simp only [beq_iff_eq]
      omega
    have e3 : (replOutWires nid 0 (externalOutputs s sel)).filter
        (fun w => w.1.node == nid) = replOutWires nid 0 (externalOutputs s sel) := by
      rw [List.filter_eq_self]
      intro w hw
      have := (replOutWires_mem nid _ 0 w hw).1
      simpa using this
    rw [e1, e2, e3]
    simp
  refine ⟨hIn, hOut, ?_, ?_, ?_⟩
  · rw [hIn, hOut, replInWires_length, replOutWires_length, boundaryWires_length]
  · intro k w hw
    rw [hIn]
    have hg := replInWires_get? nid (externalInputs s sel) 0 k w hw
    simpa using hg
  · intro k w hw
    rw [hOut]
    have hg := replOutWires_get? nid (externalOutputs s sel) 0 k w hw
    simpa using hg

/-- Witness for C1 at the concrete extraction of B from A→B→C. -/
theorem wire_preservation_witness :
    SnarlWF exampleSnarl ∧ ([1] : List Nat) ≠ [] ∧
    convertToSubsystem ⟨[], 0⟩ exampleSnarl [1] ⟨5, 5⟩ =
      some (exampleHeapAfter, exampleConverted, 3) ∧
    (exampleConverted.wires.filter (fun w => w.2.node == 3) =
      replInWires 3 0 (externalInputs exampleSnarl [1]) ∧
    exampleConverted.wires.filter (fun w => w.1.node == 3) =
      replOutWires 3 0 (externalOutputs exampleSnarl [1]) ∧
    (boundaryWires exampleSnarl [1]).length =
      (exampleConverted.wires.filter (fun w => w.2.node == 3)).length +
        (exampleConverted.wires.filter (fun w => w.1.node == 3)).length ∧
    (∀ k w, (externalInputs exampleSnarl [1]).get? k = some w →
      (exampleConverted.wires.filter (fun w' => w'.2.node == 3)).get? k =
        some (w.1, ⟨3, k⟩)) ∧
    (∀ k w, (externalOutputs exampleSnarl [1]).get? k = some w →
      (exampleConverted.wires.filter (fun w' => w'.1.node == 3)).get? k =
        some (⟨3, k⟩, w.2))) :=
  ⟨by decide, by decide, by decide,
   @wire_preservation ⟨[], 0⟩ exampleSnarl [1] ⟨5, 5⟩ exampleHeapAfter
     exampleConverted 3 (by decide) (by decide) (by decide)⟩

/-!
## Facts about the dangling-port sweeps
-/

theorem rehome_sub_nextId : ∀ (sel : List Nat) (s sub : Snarl),
    (rehome s sub sel).2.1.nextId = sub.nextId + ((rehome s sub sel).2.2).length
  | [], _, _ => rfl
  | nid :: rest, s, sub => by
      cases hge : s.getNodeEntry nid with
      | none =>
          rw [rehome_cons_none hge]
          exact rehome_sub_nextId rest s sub
      | some pn =>
          obtain ⟨pos, node⟩ := pn
          rw [rehome_cons_some hge]
          have hx := rehome_sub_nextId rest (s.removeNode nid) (sub.insertNode pos node).1
          simp only [Snarl.insertNode] at hx ⊢
          rw [hx]
          simp only [List.length_cons]
          omega

theorem inPinRemotes_empty_iff {sub : Snarl} {pin : InPinId} :
    (sub.inPinRemotes pin).isEmpty = true ↔ ∀ w ∈ sub.wires, w.2 ≠ pin := by
  unfold Snarl.inPinRemotes
  rw [List.isEmpty_iff, List.map_eq_nil, List.filter_eq_nil_iff]
  constructor
  · intro hx w hw heq
    exact hx w hw (by simpa using heq)
  · intro hx w hw hc
    exact hx w hw (by simpa using hc)

theorem outPinRemotes_empty_iff {sub : Snarl} {pin : OutPinId} :
    (sub.outPinRemotes pin).isEmpty = true ↔ ∀ w ∈ sub.wires, w.1 ≠ pin := by
  unfold Snarl.outPinRemotes
  rw [List.isEmpty_iff, List.map_eq_nil, List.filter_eq_nil_iff]
  constructor
  · intro hx w hw heq
    exact hx w hw (by simpa using heq)
  · intro hx w hw hc
    exact hx w hw (by simpa using hc)

theorem unconnectedInputsOf_mem (sub : Snarl) (nid : Nat) :
    ∀ (n : Nat) (inputs : List Input) (e : Nat × Nat × Input),
    e ∈ unconnectedInputsOf sub nid n inputs →
    e.1 = nid ∧ (sub.inPinRemotes ⟨nid, e.2.1⟩).isEmpty = true
  | _, [], e => by simp [unconnectedInputsOf]
  | n, inp :: rest, e => by
      intro he
      simp only [unconnectedInputsOf] at he
      by_cases hp : (sub.inPinRemotes ⟨nid, n⟩).isEmpty = true
      · rw [if_pos hp] at he
        rcases List.mem_cons.mp he with heq | hmem
        · subst heq
          exact ⟨rfl, hp⟩
        · exact unconnectedInputsOf_mem sub nid (n + 1) rest e hmem
      · rw [if_neg hp] at he
        exact unconnectedInputsOf_mem sub nid (n + 1) rest e he

theorem unconnectedOutputsOf_mem (sub : Snarl) (nid : Nat) :
    ∀ (n : Nat) (outputs : List Output) (e : Nat × Nat × Output),
    e ∈ unconnectedOutputsOf sub nid n outputs →
    e.1 = nid ∧ (sub.outPinRemotes ⟨nid, e.2.1⟩).isEmpty = true
  | _, [], e => by simp [unconnectedOutputsOf]
  | n, outp :: rest, e => by
      intro he
      simp only [unconnectedOutputsOf] at he
      by_cases hp : (sub.outPinRemotes ⟨nid, n⟩).isEmpty = true
      · rw [if_pos hp] at he
        rcases List.mem_cons.mp he with heq | hmem
        · subst heq
          exact ⟨rfl, hp⟩
        · exact unconnectedOutputsOf_mem sub nid (n + 1) rest e hmem
      · rw [if_neg hp] at he
        exact unconnectedOutputsOf_mem sub nid (n + 1) rest e he

theorem mem_foldr_append {α β : Type} (f : α → List β) :
    ∀ (l : List α) (x : β),
    x ∈ l.foldr (fun e acc => f e ++ acc) [] → ∃ a ∈ l, x ∈ f a
  | [], x => by simp
  | a :: l, x => by
      intro h
      simp only [List.foldr_cons, List.mem_append] at h
      rcases h with h | h
      · exact ⟨a, List.mem_cons_self _ _, h⟩
      · obtain ⟨a', ha', hx⟩ := mem_foldr_append f l x h
        exact ⟨a', List.mem_cons_of_mem _ ha', hx⟩

theorem danglingInputs_mem {sub : Snarl} {e : Nat × Nat × Input}
    (h : e ∈ danglingInputs sub) :
    (sub.inPinRemotes ⟨e.1, e.2.1⟩).isEmpty = true := by
  unfold danglingInputs at h
  obtain ⟨a, ha, hx⟩ :=
    mem_foldr_append (fun (a : Nat × Pos × Node) => unconnectedInputsOf sub a.1 0 a.2.2.inputs) _ _ h
  obtain ⟨h1, h2⟩ := unconnectedInputsOf_mem sub a.1 0 a.2.2.inputs e hx
  rw [h1]
  exact h2

theorem danglingOutputs_mem {sub : Snarl} {e : Nat × Nat × Output}
    (h : e ∈ danglingOutputs sub) :
    (sub.outPinRemotes ⟨e.1, e.2.1⟩).isEmpty = true := by
  unfold danglingOutputs at h
  obtain ⟨a, ha, hx⟩ :=
    mem_foldr_append (fun (a : Nat × Pos × Node) => unconnectedOutputsOf sub a.1 0 a.2.2.outputs) _ _ h
  obtain ⟨h1, h2⟩ := unconnectedOutputsOf_mem sub a.1 0 a.2.2.outputs e hx
  rw [h1]
  exact h2

theorem applyDanglingInputs_wires_preserve :
    ∀ (l : List (Nat × Nat × Input)) (sub : Snarl) (node : Node) (k : Nat) {w' : Wire},
    w' ∈ sub.wires → (∀ e ∈ l, w'.2 ≠ ⟨e.1, e.2.1⟩) →
    w' ∈ (applyDanglingInputs sub node k l).1.wires
  | [], _, _, _, w' => fun h _ => h
  | (nid, port, inp) :: rest, sub, node, k, w' => by
      intro h hc
      rw [applyDanglingInputs_cons]
      apply applyDanglingInputs_wires_preserve rest _ _ (k + 1)
      · exact Snarl.mem_connect_of_ne _ _ _ h
          (hc (nid, port, inp) (List.mem_cons_self _ _))
      · exact fun e he => hc e (List.mem_cons_of_mem _ he)

theorem applyDanglingOutputs_wires_preserve :
    ∀ (l : List (Nat × Nat × Output)) (sub : Snarl) (node : Node) (k : Nat) {w' : Wire},
    w' ∈ sub.wires → w'.2.node < sub.nextId →
    w' ∈ (applyDanglingOutputs sub node k l).1.wires
  | [], _, _, _, w' => fun h _ => h
  | (nid, port, outp) :: rest, sub, node, k, w' => by
      intro h hlt
      rw [applyDanglingOutputs_cons]
      apply applyDanglingOutputs_wires_preserve rest _ _ (k + 1)
      · apply Snarl.mem_connect_of_ne _ _ _ h
        intro heq
        have hx : w'.2.node = sub.nextId := by rw [heq]
        omega
      · show w'.2.node <
          ((sub.insertNode ⟨300, -((k : Int) * 150)⟩ (extOutUCNode k outp.name)).1.connect
            ⟨nid, port⟩ ⟨sub.nextId, 0⟩).nextId
        have hx : ((sub.insertNode ⟨300, -((k : Int) * 150)⟩
            (extOutUCNode k outp.name)).1.connect
            ⟨nid, port⟩ ⟨sub.nextId, 0⟩).nextId = sub.nextId + 1 := rfl
        omega

theorem applyDanglingInputs_wires_sub :
    ∀ (l : List (Nat × Nat × Input)) (sub : Snarl) (node : Node) (k : Nat) {w' : Wire},
    w' ∈ (applyDanglingInputs sub node k l).1.wires →
    w' ∈ sub.wires ∨ sub.nextId ≤ w'.1.node
  | [], _, _, _, w' => Or.inl
  | (nid, port, inp) :: rest, sub, node, k, w' => by
      intro h
      rw [applyDanglingInputs_cons] at h
      rcases applyDanglingInputs_wires_sub rest _ _ (k + 1) h with h' | h'
      · rcases Snarl.mem_of_mem_connect h' with h'' | h''
        · exact Or.inl h''
        · right
          rw [h'']
      · right
        have hx : ((sub.insertNode ⟨0, -((k : Int) * 150)⟩
            (extUCNode k inp.name)).1.connect
            ⟨sub.nextId, 0⟩ ⟨nid, port⟩).nextId = sub.nextId + 1 := rfl
        omega

theorem applyDanglingOutputs_wires_sub :
    ∀ (l : List (Nat × Nat × Output)) (sub : Snarl) (node : Node) (k : Nat) {w' : Wire},
    w' ∈ (applyDanglingOutputs sub node k l).1.wires →
    w' ∈ sub.wires ∨ sub.nextId ≤ w'.2.node
  | [], _, _, _, w' => Or.inl
  | (nid, port, outp) :: rest, sub, node, k, w' => by
      intro h
      rw [applyDanglingOutputs_cons] at h
      rcases applyDanglingOutputs_wires_sub rest _ _ (k + 1) h with h' | h'
      · rcases Snarl.mem_of_mem_connect h' with h'' | h''
        · exact Or.inl h''
        · right
          rw [h'']
      · right
        have hx : ((sub.insertNode ⟨300, -((k : Int) * 150)⟩
            (extOutUCNode k outp.name)).1.connect
            ⟨nid, port⟩ ⟨sub.nextId, 0⟩).nextId = sub.nextId + 1 := rfl
        omega

theorem applyDanglingInputs_nextId_mono :
    ∀ (l : List (Nat × Nat × Input)) (sub : Snarl) (node : Node) (k : Nat),
    sub.nextId ≤ (applyDanglingInputs sub node k l).1.nextId
  | [], _, _, _ => Nat.le_refl _
  | (nid, port, inp) :: rest, sub, node, k => by
      rw [applyDanglingInputs_cons]
      have hm := applyDanglingInputs_nextId_mono rest
        ((sub.insertNode ⟨0, -((k : Int) * 150)⟩ (extUCNode k inp.name)).1.connect
          ⟨sub.nextId, 0⟩ ⟨nid, port⟩)
        { node with inputs := node.inputs ++ [inp] } (k + 1)
      have hx : ((sub.insertNode ⟨0, -((k : Int) * 150)⟩
          (extUCNode k inp.name)).1.connect
          ⟨sub.nextId, 0⟩ ⟨nid, port⟩).nextId = sub.nextId + 1 := rfl
      omega

theorem applyDanglingOutputs_nextId_mono :
    ∀ (l : List (Nat × Nat × Output)) (sub : Snarl) (node : Node) (k : Nat),
    sub.nextId ≤ (applyDanglingOutputs sub node k l).1.nextId
  | [], _, _, _ => Nat.le_refl _
  | (nid, port, outp) :: rest, sub, node, k => by
      rw [applyDanglingOutputs_cons]
      have hm := applyDanglingOutputs_nextId_mono rest
        ((sub.insertNode ⟨300, -((k : Int) * 150)⟩ (extOutUCNode k outp.name)).1.connect
          ⟨nid, port⟩ ⟨sub.nextId, 0⟩)
        { node with outputs := node.outputs ++ [outp] } (k + 1)
      have hx : ((sub.insertNode ⟨300, -((k : Int) * 150)⟩
          (extOutUCNode k outp.name)).1.connect
          ⟨nid, port⟩ ⟨sub.nextId, 0⟩).nextId = sub.nextId + 1 := rfl
      omega

/-- C6 (internal closure): every wire with both endpoints inside a
well-formed selection is re-created inside the new subsystem with both
endpoints translated through the old-id-to-new-id mapping (keeping the
port indices), and every wire of the new subsystem that runs between two
rehomed nodes (both endpoints in the mapping's range) is the translation
of such a pre-existing internal wire. -/
theorem internal_closure (s : Snarl) (sel : List Nat) {rr : BuildResult}
    (hwf : SnarlWF s) (hsel : SelWF s sel)
    (hres : convertBuild s sel = some rr) :
    (∀ w ∈ internalWires s sel, ∃ a b,
      mapLookup rr.nmap w.1.node = some a ∧
      mapLookup rr.nmap w.2.node = some b ∧
      ((⟨a, w.1.output⟩, ⟨b, w.2.input⟩) : Wire) ∈ rr.sub.wires) ∧
    (∀ w' ∈ rr.sub.wires, ∀ x y,
      mapLookup rr.nmap x = some w'.1.node →
      mapLookup rr.nmap y = some w'.2.node →
      ∃ w ∈ internalWires s sel, ∃ a b,
        mapLookup rr.nmap w.1.node = some a ∧
        mapLookup rr.nmap w.2.node = some b ∧
        w' = (⟨a, w.1.output⟩, ⟨b, w.2.input⟩)) := by
  obtain ⟨inNames, outNames, sub1, sub2, s1, sub3, m, srcIds, sinkIds, sub5, sub6,
    sub7, node1, hin, hout, hsi, hsk, hrh, h5, h6, hdi, hdo, houter, hm, hsrc, hsink⟩ :=
    convertBuild_destruct hres
  subst hm
  -- basic shape facts
  have hsrcSpec := insertSources_spec inNames Subsystem.new.snarl 0
  rw [hsi] at hsrcSpec
  simp only at hsrcSpec
  have hsinkSpec := insertSinks_spec outNames sub1 0
  rw [hsk] at hsinkSpec
  simp only at hsinkSpec
  have hsub1next : sub1.nextId = inNames.length := by
    have := hsrcSpec.2.2.1
    simpa [Subsystem.new] using this
  have hsub1wires : sub1.wires = [] := by
    have := hsrcSpec.2.1
    simpa [Subsystem.new] using this
  have hbase : sub2.nextId = inNames.length + outNames.length := by
    rw [hsinkSpec.2.2.1, hsub1next]
  have hsub2wires : sub2.wires = [] := by
    rw [hsinkSpec.2.1, hsub1wires]
  have hsrcIds : srcIds = List.range' 0 inNames.length := by
    have := hsrcSpec.2.2.2
    simpa [Subsystem.new] using this
  have hsinkIds : sinkIds = List.range' inNames.length outNames.length := by
    rw [hsinkSpec.2.2.2, hsub1next]
  have hrspec := rehome_spec sel s sub2 hsel
  rw [hrh] at hrspec
  simp only at hrspec
  have hmzip : rr.nmap = sel.zip (List.range' sub2.nextId sel.length) := hrspec.2.2.2
  have hmlen : rr.nmap.length = sel.length := by
    rw [hmzip, List.length_zip]
    simp
  have hsub3wires : sub3.wires = [] := by
    have hx := rehome_sub_wires sel s sub2
    rw [hrh] at hx
    simp only at hx
    rw [hx, hsub2wires]
  have hsub3next : sub3.nextId = sub2.nextId + sel.length := by
    have hx := rehome_sub_nextId sel s sub2
    rw [hrh] at hx
    simp only at hx
    rw [hx, hmlen]
  have hinj : ∀ x y v, mapLookup rr.nmap x = some v → mapLookup rr.nmap y = some v →
      x = y := by
    intro x y v hx hy
    rw [hmzip] at hx hy
    exact mapLookup_zip_range'_inj hx hy
  have hbound : ∀ x v, mapLookup rr.nmap x = some v →
      x ∈ sel ∧ sub2.nextId ≤ v ∧ v < sub2.nextId + sel.length := by
    intro x v hx
    rw [hmzip] at hx
    exact mapLookup_zip_range'_bound hx
  -- nextId is constant through the connection phases
  have hsub4next : (connectInternal rr.nmap sub3 (internalWires s sel)).nextId =
      sub3.nextId := connectInternal_nextId rr.nmap _ sub3
  have hsub5next : sub5.nextId = sub3.nextId := by
    rw [(connectExtInputs_nodes rr.nmap _ _ sub5 h5).2, hsub4next]
  have hsub6next : sub6.nextId = sub3.nextId := by
    rw [(connectExtOutputs_nodes rr.nmap _ _ sub6 h6).2, hsub5next]
  have hsub7mono : sub6.nextId ≤ sub7.nextId := by
    have hx := applyDanglingInputs_nextId_mono (danglingInputs sub6) sub6
      (replacementBase inNames outNames) 0
    rw [hdi] at hx
    exact hx
  constructor
  · -- forward: each internal wire is translated into the subsystem
    intro w hw
    obtain ⟨hws, hsel2, hsel1⟩ := internalWires_spec hw
    obtain ⟨i1, hi1⟩ := List.mem_iff_get?.mp hsel1
    obtain ⟨i2, hi2⟩ := List.mem_iff_get?.mp hsel2
    have hlook1 : mapLookup rr.nmap w.1.node = some (sub2.nextId + i1) := by
      rw [hmzip]
      exact mapLookup_zip_range' sel sub2.nextId i1 w.1.node hsel.1 hi1
    have hlook2 : mapLookup rr.nmap w.2.node = some (sub2.nextId + i2) := by
      rw [hmzip]
      exact mapLookup_zip_range' sel sub2.nextId i2 w.2.node hsel.1 hi2
    refine ⟨sub2.nextId + i1, sub2.nextId + i2, hlook1, hlook2, ?_⟩
    have hmem4 : ((⟨sub2.nextId + i1, w.1.output⟩, ⟨sub2.nextId + i2, w.2.input⟩) :
        Wire) ∈ (connectInternal rr.nmap sub3 (internalWires s sel)).wires :=
      connectInternal_mem rr.nmap hinj _ sub3
        (pairwise_ne_inPin_of_wf hwf (internalWires_sublist s sel)) hw hlook1 hlook2
    have hcond1 : ∀ p ∈ (externalInputs s sel).zip srcIds, ∀ b2,
        mapLookup rr.nmap p.1.2.node = some b2 →
        ((⟨sub2.nextId + i1, w.1.output⟩, ⟨sub2.nextId + i2, w.2.input⟩) :
          Wire).2 ≠ ⟨b2, p.1.2.input⟩ := by
      intro p hp b2 hb2 heq
      simp only at heq
      rw [InPinId.mk.injEq] at heq
      obtain ⟨hbb, hii⟩ := heq
      have hnode : w.2.node = p.1.2.node := hinj _ _ _ hlook2 (hbb ▸ hb2)
      have hpin : w.2 = p.1.2 := inPinId_ext hnode hii
      have hp1 := (List.of_mem_zip (by exact hp)).1
      have hspec := externalInputs_spec hp1
      have hww : w = p.1 := eq_of_inPin_eq hwf hws hspec.1 hpin
      exact hspec.2.2 (hww ▸ hsel1)
    have hmem5 := connectExtInputs_preserve rr.nmap _ _ sub5 h5 hmem4 hcond1
    have hcond2 : ∀ p ∈ (externalOutputs s sel).zip sinkIds,
        ((⟨sub2.nextId + i1, w.1.output⟩, ⟨sub2.nextId + i2, w.2.input⟩) :
          Wire).2 ≠ ⟨p.2, 0⟩ := by
      intro p hp heq
      simp only at heq
      rw [InPinId.mk.injEq] at heq
      have hp2 := (List.of_mem_zip (by exact hp)).2
      rw [hsinkIds] at hp2
      rw [List.mem_range'] at hp2
      obtain ⟨j, hj, hpj⟩ := hp2
      omega
    have hmem6 := connectExtOutputs_preserve rr.nmap _ _ sub6 h6 hmem5 hcond2
    have hcond3 : ∀ e ∈ danglingInputs sub6,
        ((⟨sub2.nextId + i1, w.1.output⟩, ⟨sub2.nextId + i2, w.2.input⟩) :
          Wire).2 ≠ ⟨e.1, e.2.1⟩ := by
      intro e he heq
      have hempty := danglingInputs_mem he
      rw [inPinRemotes_empty_iff] at hempty
      exact hempty _ hmem6 heq
    have hmem7 : ((⟨sub2.nextId + i1, w.1.output⟩, ⟨sub2.nextId + i2, w.2.input⟩) :
        Wire) ∈ sub7.wires := by
      have hx := applyDanglingInputs_wires_preserve (danglingInputs sub6) sub6
        (replacementBase inNames outNames) 0 hmem6 hcond3
      rw [hdi] at hx
      exact hx
    have hi2lt : i2 < sel.length := by
      by_contra hge
      rw [List.get?_eq_none.mpr (by omega)] at hi2
      exact Option.noConfusion hi2
    have hx := applyDanglingOutputs_wires_preserve (danglingOutputs sub7) sub7 node1 0
      hmem7 (by show sub2.nextId + i2 < sub7.nextId; omega)
    rw [hdo] at hx
    exact hx
  · -- reverse: a subsystem wire between two rehomed nodes comes from an
    -- internal wire
    intro w' hw' x y hx hy
    have hbx := hbound x _ hx
    have hby := hbound y _ hy
    have hw7 : w' ∈ sub7.wires := by
      have hsub := applyDanglingOutputs_wires_sub (danglingOutputs sub7) sub7 node1 0
        (by rw [hdo]; exact hw')
      rcases hsub with hsub | hsub
      · exact hsub
      · exfalso
        omega
    have hw6 : w' ∈ sub6.wires := by
      have hsub := applyDanglingInputs_wires_sub (danglingInputs sub6) sub6
        (replacementBase inNames outNames) 0 (by rw [hdi]; exact hw7)
      rcases hsub with hsub | hsub
      · exact hsub
      · exfalso
        omega
    have hw5 : w' ∈ sub5.wires := by
      rcases connectExtOutputs_wires_sub rr.nmap _ _ sub6 h6 hw6 with hsub | hsub
      · exact hsub
      · exfalso
        obtain ⟨p, hp, a, ha, heq⟩ := hsub
        have hp2 := (List.of_mem_zip (by exact hp)).2
        rw [hsinkIds] at hp2
        rw [List.mem_range'] at hp2
        obtain ⟨j, hj, hpj⟩ := hp2
        have : w'.2.node = p.2 := by rw [heq]
        omega
    have hw4 : w' ∈ (connectInternal rr.nmap sub3 (internalWires s sel)).wires := by
      rcases connectExtInputs_wires_sub rr.nmap _ _ sub5 h5 hw5 with hsub | hsub
      · exact hsub
      · exfalso
        obtain ⟨p, hp, b, hb, heq⟩ := hsub
        have hp2 := (List.of_mem_zip (by exact hp)).2
        rw [hsrcIds] at hp2
        rw [List.mem_range'] at hp2
        obtain ⟨j, hj, hpj⟩ := hp2
        have : w'.1.node = p.2 := by rw [heq]
        have hle : inNames.length ≤ sub2.nextId := by omega
        omega
    rcases connectInternal_wires_sub rr.nmap _ sub3 hw4 with hsub | hsub
    · rw [hsub3wires] at hsub
      exact absurd hsub (List.not_mem_nil _)
    · obtain ⟨w, hwmem, a, b, ha, hb, heq⟩ := hsub
      exact ⟨w, hwmem, a, b, ha, hb, heq⟩

/-- Witness for C6 at the concrete extraction of A and B (the internal
wire A→B becomes 1→2 inside the subsystem). -/
theorem internal_closure_witness :
    SnarlWF exampleSnarl ∧ SelWF exampleSnarl [0, 1] ∧
    convertBuild exampleSnarl [0, 1] = some exampleBuildResultAB ∧
    ((∀ w ∈ internalWires exampleSnarl [0, 1], ∃ a b,
      mapLookup exampleBuildResultAB.nmap w.1.node = some a ∧
      mapLookup exampleBuildResultAB.nmap w.2.node = some b ∧
      ((⟨a, w.1.output⟩, ⟨b, w.2.input⟩) : Wire) ∈ exampleBuildResultAB.sub.wires) ∧
    (∀ w' ∈ exampleBuildResultAB.sub.wires, ∀ x y,
      mapLookup exampleBuildResultAB.nmap x = some w'.1.node →
      mapLookup exampleBuildResultAB.nmap y = some w'.2.node →
      ∃ w ∈ internalWires exampleSnarl [0, 1], ∃ a b,
        mapLookup exampleBuildResultAB.nmap w.1.node = some a ∧
        mapLookup exampleBuildResultAB.nmap w.2.node = some b ∧
        w' = (⟨a, w.1.output⟩, ⟨b, w.2.input⟩))) :=
  ⟨by decide, by decide, by decide,
   internal_closure exampleSnarl [0, 1] (by decide) (by decide) (by decide)⟩

/-!
## Completeness of the dangling-port sweeps
-/

theorem rehomedEntries_keys (s : Snarl) : ∀ (sel : List Nat) (base : Nat),
    (∀ x ∈ sel, ∃ e ∈ s.nodes, e.1 = x) →
    (rehomedEntries s base sel).map (fun e => e.1) = List.range' base sel.length
  | [], _, _ => by simp [rehomedEntries]
  | nid :: rest, base, hall => by
      obtain ⟨pn, hge⟩ := Snarl.getNodeEntry_isSome (hall nid (by simp))
      obtain ⟨pos, node⟩ := pn
      rw [rehomedEntries_cons_some hge]
      simp only [List.map_cons, List.length_cons, List.range'_succ]
      rw [rehomedEntries_keys s rest (base + 1) (fun x hx => hall x (by simp [hx]))]

theorem mem_foldr_append_of_mem {α β : Type} (f : α → List β) :
    ∀ (l : List α) {a : α} {x : β}, a ∈ l → x ∈ f a →
    x ∈ l.foldr (fun e acc => f e ++ acc) []
  | [], a, x => by simp
  | a0 :: l, a, x => by
      intro ha hx
      simp only [List.foldr_cons, List.mem_append]
      rcases List.mem_cons.mp ha with heq | hmem
      · subst heq
        exact Or.inl hx
      · exact Or.inr (mem_foldr_append_of_mem f l hmem hx)

theorem unconnectedInputsOf_complete (sub : Snarl) (nid : Nat) :
    ∀ (n : Nat) (inputs : List Input) (i : Nat) (inp : Input),
    inputs.get? i = some inp →
    (sub.inPinRemotes ⟨nid, n + i⟩).isEmpty = true →
    (nid, n + i, (⟨inp.name, InputKind.Internal⟩ : Input)) ∈
      unconnectedInputsOf sub nid n inputs
  | _, [], i, _ => by intro h; simp at h
  | n, inp0 :: rest, 0, inp => by
      intro h hemp
      simp only [List.get?] at h
      injection h with h
      subst h
      simp only [Nat.add_zero] at hemp ⊢
      simp only [unconnectedInputsOf, if_pos hemp]
      exact List.mem_cons_self _ _
  | n, inp0 :: rest, i + 1, inp => by
      intro h hemp
      simp only [List.get?] at h
      have harith : n + (i + 1) = (n + 1) + i := by omega
      rw [harith] at hemp ⊢
      have hx := unconnectedInputsOf_complete sub nid (n + 1) rest i inp h hemp
      simp only [unconnectedInputsOf]
      by_cases hp : (sub.inPinRemotes ⟨nid, n⟩).isEmpty = true
      · rw [if_pos hp]
        exact List.mem_cons_of_mem _ hx
      · rw [if_neg hp]
        exact hx

theorem unconnectedOutputsOf_complete (sub : Snarl) (nid : Nat) :
    ∀ (n : Nat) (outputs : List Output) (i : Nat) (outp : Output),
    outputs.get? i = some outp →
    (sub.outPinRemotes ⟨nid, n + i⟩).isEmpty = true →
    (nid, n + i, (⟨outp.name, OutputKind.Internal⟩ : Output)) ∈
      unconnectedOutputsOf sub nid n outputs
  | _, [], i, _ => by intro h; simp at h
  | n, outp0 :: rest, 0, outp => by
      intro h hemp
      simp only [List.get?] at h
      injection h with h
      subst h
      simp only [Nat.add_zero] at hemp ⊢
      simp only [unconnectedOutputsOf, if_pos hemp]
      exact List.mem_cons_self _ _
  | n, outp0 :: rest, i + 1, outp => by
      intro h hemp
      simp only [List.get?] at h
      have harith : n + (i + 1) = (n + 1) + i := by omega
      rw [harith] at hemp ⊢
      have hx := unconnectedOutputsOf_complete sub nid (n + 1) rest i outp h hemp
      simp only [unconnectedOutputsOf]
      by_cases hp : (sub.outPinRemotes ⟨nid, n⟩).isEmpty = true
      · rw [if_pos hp]
        exact List.mem_cons_of_mem _ hx
      · rw [if_neg hp]
        exact hx

theorem danglingInputs_complete {sub : Snarl} {entry : Nat × Pos × Node}
    (he : entry ∈ sub.nodes) {i : Nat} {inp : Input}
    (hi : entry.2.2.inputs.get? i = some inp)
    (hemp : (sub.inPinRemotes ⟨entry.1, i⟩).isEmpty = true) :
    (entry.1, i, (⟨inp.name, InputKind.Internal⟩ : Input)) ∈ danglingInputs sub := by
  unfold danglingInputs
  apply mem_foldr_append_of_mem
    (fun (a : Nat × Pos × Node) => unconnectedInputsOf sub a.1 0 a.2.2.inputs) _ he
  have hx := unconnectedInputsOf_complete sub entry.1 0 entry.2.2.inputs i inp hi
    (by simpa using hemp)
  simpa using hx

theorem danglingOutputs_complete {sub : Snarl} {entry : Nat × Pos × Node}
    (he : entry ∈ sub.nodes) {i : Nat} {outp : Output}
    (hi : entry.2.2.outputs.get? i = some outp)
    (hemp : (sub.outPinRemotes ⟨entry.1, i⟩).isEmpty = true) :
    (entry.1, i, (⟨outp.name, OutputKind.Internal⟩ : Output)) ∈ danglingOutputs sub := by
  unfold danglingOutputs
  apply mem_foldr_append_of_mem
    (fun (a : Nat × Pos × Node) => unconnectedOutputsOf sub a.1 0 a.2.2.outputs) _ he
  have hx := unconnectedOutputsOf_complete sub entry.1 0 entry.2.2.outputs i outp hi
    (by simpa using hemp)
  simpa using hx

theorem pairwise_foldr_append {α β : Type} (R : β → β → Prop) (f : α → List β) :
    ∀ (l : List α), (∀ a ∈ l, (f a).Pairwise R) →
    l.Pairwise (fun a1 a2 => ∀ x ∈ f a1, ∀ y ∈ f a2, R x y) →
    (l.foldr (fun e acc => f e ++ acc) []).Pairwise R
  | [], _, _ => List.Pairwise.nil
  | a :: l, hall, hpw => by
      simp only [List.foldr_cons]
      rw [List.pairwise_append]
      refine ⟨hall a (List.mem_cons_self _ _), ?_, ?_⟩
      · exact pairwise_foldr_append R f l
          (fun a' ha' => hall a' (List.mem_cons_of_mem _ ha'))
          (List.pairwise_cons.mp hpw).2
      · intro x hx y hy
        obtain ⟨a', ha', hy'⟩ := mem_foldr_append f l y hy
        exact (List.pairwise_cons.mp hpw).1 a' ha' x hx y hy'

theorem unconnectedInputsOf_idx (sub : Snarl) (nid : Nat) :
    ∀ (n : Nat) (inputs : List Input) (e : Nat × Nat × Input),
    e ∈ unconnectedInputsOf sub nid n inputs → n ≤ e.2.1
  | _, [], e => by simp [unconnectedInputsOf]
  | n, inp :: rest, e => by
      intro he
      simp only [unconnectedInputsOf] at he
      by_cases hp : (sub.inPinRemotes ⟨nid, n⟩).isEmpty = true
      · rw [if_pos hp] at he
        rcases List.mem_cons.mp he with heq | hmem
        · subst heq
          exact Nat.le_refl _
        · have := unconnectedInputsOf_idx sub nid (n + 1) rest e hmem
          omega
      · rw [if_neg hp] at he
        have := unconnectedInputsOf_idx sub nid (n + 1) rest e he
        omega

theorem unconnectedOutputsOf_idx (sub : Snarl) (nid : Nat) :
    ∀ (n : Nat) (outputs : List Output) (e : Nat × Nat × Output),
    e ∈ unconnectedOutputsOf sub nid n outputs → n ≤ e.2.1
  | _, [], e => by simp [unconnectedOutputsOf]
  | n, outp :: rest, e => by
      intro he
      simp only [unconnectedOutputsOf] at he
      by_cases hp : (sub.outPinRemotes ⟨nid, n⟩).isEmpty = true
      · rw [if_pos hp] at he
        rcases List.mem_cons.mp he with heq | hmem
        · subst heq
          exact Nat.le_refl _
        · have := unconnectedOutputsOf_idx sub nid (n + 1) rest e hmem
          omega
      · rw [if_neg hp] at he
        have := unconnectedOutputsOf_idx sub nid (n + 1) rest e he
        omega

theorem unconnectedInputsOf_pairwise (sub : Snarl) (nid : Nat) :
    ∀ (n : Nat) (inputs : List Input),
    (unconnectedInputsOf sub nid n inputs).Pairwise
      (fun e1 e2 => ¬(e1.1 = e2.1 ∧ e1.2.1 = e2.2.1))
  | _, [] => List.Pairwise.nil
  | n, inp :: rest => by
      simp only [unconnectedInputsOf]
      by_cases hp : (sub.inPinRemotes ⟨nid, n⟩).isEmpty = true
      · rw [if_pos hp]
        rw [List.pairwise_cons]
        refine ⟨?_, unconnectedInputsOf_pairwise sub nid (n + 1) rest⟩
        intro e he hc
        have := unconnectedInputsOf_idx sub nid (n + 1) rest e he
        have := hc.2
        simp only at this
        omega
      · rw [if_neg hp]
        exact unconnectedInputsOf_pairwise sub nid (n + 1) rest

theorem unconnectedOutputsOf_pairwise (sub : Snarl) (nid : Nat) :
    ∀ (n : Nat) (outputs : List Output),
    (unconnectedOutputsOf sub nid n outputs).Pairwise
      (fun e1 e2 => ¬(e1.1 = e2.1 ∧ e1.2.1 = e2.2.1))
  | _, [] => List.Pairwise.nil
  | n, outp :: rest => by
      simp only [unconnectedOutputsOf]
      by_cases hp : (sub.outPinRemotes ⟨nid, n⟩).isEmpty = true
      · rw [if_pos hp]
        rw [List.pairwise_cons]
        refine ⟨?_, unconnectedOutputsOf_pairwise sub nid (n + 1) rest⟩
        intro e he hc
        have := unconnectedOutputsOf_idx sub nid (n + 1) rest e he
        have := hc.2
        simp only at this
        omega
      · rw [if_neg hp]
        exact unconnectedOutputsOf_pairwise sub nid (n + 1) rest

theorem danglingInputs_pairwise {sub : Snarl}
    (hnd : (sub.nodes.map (fun e => e.1)).Nodup) :
    (danglingInputs sub).Pairwise (fun e1 e2 => ¬(e1.1 = e2.1 ∧ e1.2.1 = e2.2.1)) := by
  unfold danglingInputs
  apply pairwise_foldr_append _
    (fun (a : Nat × Pos × Node) => unconnectedInputsOf sub a.1 0 a.2.2.inputs)
  · intro a _
    exact unconnectedInputsOf_pairwise sub a.1 0 a.2.2.inputs
  · have hpw := List.pairwise_map.mp hnd
    apply List.Pairwise.imp ?_ hpw
    intro a1 a2 hne x hx y hy hc
    have h1 := (unconnectedInputsOf_mem sub a1.1 0 a1.2.2.inputs x hx).1
    have h2 := (unconnectedInputsOf_mem sub a2.1 0 a2.2.2.inputs y hy).1
    exact hne (by rw [← h1, ← h2, hc.1])

theorem danglingOutputs_pairwise {sub : Snarl}
    (hnd : (sub.nodes.map (fun e => e.1)).Nodup) :
    (danglingOutputs sub).Pairwise (fun e1 e2 => ¬(e1.1 = e2.1 ∧ e1.2.1 = e2.2.1)) := by
  unfold danglingOutputs
  apply pairwise_foldr_append _
    (fun (a : Nat × Pos × Node) => unconnectedOutputsOf sub a.1 0 a.2.2.outputs)
  · intro a _
    exact unconnectedOutputsOf_pairwise sub a.1 0 a.2.2.outputs
  · have hpw := List.pairwise_map.mp hnd
    apply List.Pairwise.imp ?_ hpw
    intro a1 a2 hne x hx y hy hc
    have h1 := (unconnectedOutputsOf_mem sub a1.1 0 a1.2.2.outputs x hx).1
    have h2 := (unconnectedOutputsOf_mem sub a2.1 0 a2.2.2.outputs y hy).1
    exact hne (by rw [← h1, ← h2, hc.1])

theorem replInWires_idx (newId : Nat) : ∀ (ws : List Wire) (n : Nat) (w' : Wire),
    w' ∈ replInWires newId n ws →
    n ≤ w'.2.input ∧ w'.2.input < n + ws.length
  | [], _, w' => by simp [replInWires]
  | w :: rest, n, w' => by
      intro h
      simp only [replInWires, List.mem_cons] at h
      rcases h with h | h
      · subst h
        simp only [List.length_cons]
        omega
      · have := replInWires_idx newId rest (n + 1) w' h
        simp only [List.length_cons]
        omega

theorem replOutWires_idx (newId : Nat) : ∀ (ws : List Wire) (n : Nat) (w' : Wire),
    w' ∈ replOutWires newId n ws →
    n ≤ w'.1.output ∧ w'.1.output < n + ws.length
  | [], _, w' => by simp [replOutWires]
  | w :: rest, n, w' => by
      intro h
      simp only [replOutWires, List.mem_cons] at h
      rcases h with h | h
      · subst h
        simp only [List.length_cons]
        omega
      · have := replOutWires_idx newId rest (n + 1) w' h
        simp only [List.length_cons]
        omega

theorem srcEntries_keys_sub (names : List String) (base n : Nat) :
    ∀ e ∈ srcEntries base n names, base ≤ e.1 ∧ e.1 < base + names.length := by
  intro e he
  have hx : e.1 ∈ (srcEntries base n names).map (fun e => e.1) :=
    List.mem_map_of_mem _ he
  rw [srcEntries_keys] at hx
  rw [List.mem_range'] at hx
  obtain ⟨i, hi, hei⟩ := hx
  omega

theorem sinkEntries_keys_sub (names : List String) (base n : Nat) :
    ∀ e ∈ sinkEntries base n names, base ≤ e.1 ∧ e.1 < base + names.length := by
  intro e he
  have hx : e.1 ∈ (sinkEntries base n names).map (fun e => e.1) :=
    List.mem_map_of_mem _ he
  rw [sinkEntries_keys] at hx
  rw [List.mem_range'] at hx
  obtain ⟨i, hi, hei⟩ := hx
  omega

theorem applyDanglingInputs_keys :
    ∀ (l : List (Nat × Nat × Input)) (sub : Snarl) (node : Node) (k : Nat),
    (applyDanglingInputs sub node k l).1.nodes.map (fun e => e.1) =
      sub.nodes.map (fun e => e.1) ++ List.range' sub.nextId l.length ∧
    (applyDanglingInputs sub node k l).1.nextId = sub.nextId + l.length
  | [], sub, node, k => by simp [applyDanglingInputs]
  | (nid, port, inp) :: rest, sub, node, k => by
      rw [applyDanglingInputs_cons]
      have ih := applyDanglingInputs_keys rest
        ((sub.insertNode ⟨0, -((k : Int) * 150)⟩ (extUCNode k inp.name)).1.connect
          ⟨sub.nextId, 0⟩ ⟨nid, port⟩)
        { node with inputs := node.inputs ++ [inp] } (k + 1)
      have hnodes : ((sub.insertNode ⟨0, -((k : Int) * 150)⟩
          (extUCNode k inp.name)).1.connect ⟨sub.nextId, 0⟩ ⟨nid, port⟩).nodes =
          sub.nodes ++ [(sub.nextId, ⟨0, -((k : Int) * 150)⟩, extUCNode k inp.name)] :=
        rfl
      have hnext : ((sub.insertNode ⟨0, -((k : Int) * 150)⟩
          (extUCNode k inp.name)).1.connect ⟨sub.nextId, 0⟩ ⟨nid, port⟩).nextId =
          sub.nextId + 1 := rfl
      constructor
      · rw [ih.1, hnodes, hnext]
        simp [List.range'_succ]
      · rw [ih.2, hnext]
        simp only [List.length_cons]
        omega

theorem applyDanglingInputs_effects :
    ∀ (l : List (Nat × Nat × Input)) (sub : Snarl) (node : Node) (k : Nat),
    (∀ e ∈ sub.nodes, e.1 < sub.nextId) →
    l.Pairwise (fun e1 e2 => ¬(e1.1 = e2.1 ∧ e1.2.1 = e2.2.1)) →
    ∀ (t : Nat) (e : Nat × Nat × Input), l.get? t = some e →
    (applyDanglingInputs sub node k l).1.getNode (sub.nextId + t) =
      some (extUCNode (k + t) e.2.2.name) ∧
    ((⟨sub.nextId + t, 0⟩, ⟨e.1, e.2.1⟩) : Wire) ∈
      (applyDanglingInputs sub node k l).1.wires
  | [], sub, node, k => by
      intro _ _ t e h
      simp at h
  | (nid, port, inp) :: rest, sub, node, k => by
      intro hkeys hpw t e h
      rw [applyDanglingInputs_cons]
      have hnext : ((sub.insertNode ⟨0, -((k : Int) * 150)⟩
          (extUCNode k inp.name)).1.connect ⟨sub.nextId, 0⟩ ⟨nid, port⟩).nextId =
          sub.nextId + 1 := rfl
      have hnodes : ((sub.insertNode ⟨0, -((k : Int) * 150)⟩
          (extUCNode k inp.name)).1.connect ⟨sub.nextId, 0⟩ ⟨nid, port⟩).nodes =
          sub.nodes ++ [(sub.nextId, ⟨0, -((k : Int) * 150)⟩, extUCNode k inp.name)] :=
        rfl
      cases t with
      | zero =>
          simp only [List.get?] at h
          injection h with h
          subst h
          simp only [Nat.add_zero]
          constructor
          · apply Snarl.getNode_of_extend (applyDanglingInputs_extend rest _ _ (k + 1))
            rw [Snarl.getNode_connect]
            exact Snarl.getNode_insert_fresh (fun e he => Nat.ne_of_lt (hkeys e he)) _ _
          · apply applyDanglingInputs_wires_preserve rest _ _ (k + 1)
              (Snarl.mem_connect_self _ _ _)
            intro e' he' heq
            simp only at heq
            rw [InPinId.mk.injEq] at heq
            exact (List.pairwise_cons.mp hpw).1 e' he' ⟨heq.1, heq.2⟩
      | succ t =>
          simp only [List.get?] at h
          have hkeys2 : ∀ e' ∈ ((sub.insertNode ⟨0, -((k : Int) * 150)⟩
              (extUCNode k inp.name)).1.connect ⟨sub.nextId, 0⟩ ⟨nid, port⟩).nodes,
              e'.1 < ((sub.insertNode ⟨0, -((k : Int) * 150)⟩
              (extUCNode k inp.name)).1.connect ⟨sub.nextId, 0⟩ ⟨nid, port⟩).nextId := by
            rw [hnodes, hnext]
            intro e' he'
            rcases List.mem_append.mp he' with he' | he'
            · have := hkeys e' he'
              omega
            · rcases List.mem_singleton.mp he' with rfl
              simp
          have ih := applyDanglingInputs_effects rest _
            { node with inputs := node.inputs ++ [inp] } (k + 1) hkeys2
            (List.pairwise_cons.mp hpw).2 t e h
          rw [hnext] at ih
          have h1 : sub.nextId + (t + 1) = sub.nextId + 1 + t := by omega
          have h2 : k + (t + 1) = k + 1 + t := by omega
          rw [h1, h2]
          exact ih

theorem applyDanglingOutputs_effects :
    ∀ (l : List (Nat × Nat × Output)) (sub : Snarl) (node : Node) (k : Nat),
    (∀ e ∈ sub.nodes, e.1 < sub.nextId) →
    (∀ e ∈ l, e.1 < sub.nextId) →
    ∀ (t : Nat) (e : Nat × Nat × Output), l.get? t = some e →
    (applyDanglingOutputs sub node k l).1.getNode (sub.nextId + t) =
      some (extOutUCNode (k + t) e.2.2.name) ∧
    ((⟨e.1, e.2.1⟩, ⟨sub.nextId + t, 0⟩) : Wire) ∈
      (applyDanglingOutputs sub node k l).1.wires
  | [], sub, node, k => by
      intro _ _ t e h
      simp at h
  | (nid, port, outp) :: rest, sub, node, k => by
      intro hkeys hlt t e h
      rw [applyDanglingOutputs_cons]
      have hnext : ((sub.insertNode ⟨300, -((k : Int) * 150)⟩
          (extOutUCNode k outp.name)).1.connect ⟨nid, port⟩ ⟨sub.nextId, 0⟩).nextId =
          sub.nextId + 1 := rfl
      have hnodes : ((sub.insertNode ⟨300, -((k : Int) * 150)⟩
          (extOutUCNode k outp.name)).1.connect ⟨nid, port⟩ ⟨sub.nextId, 0⟩).nodes =
          sub.nodes ++ [(sub.nextId, ⟨300, -((k : Int) * 150)⟩, extOutUCNode k outp.name)] :=
        rfl
      cases t with
      | zero =>
          simp only [List.get?] at h
          injection h with h
          subst h
          simp only [Nat.add_zero]
          constructor
          · apply Snarl.getNode_of_extend (applyDanglingOutputs_extend rest _ _ (k + 1))
            rw [Snarl.getNode_connect]
            exact Snarl.getNode_insert_fresh (fun e he => Nat.ne_of_lt (hkeys e he)) _ _
          · apply applyDanglingOutputs_wires_preserve rest _ _ (k + 1)
              (Snarl.mem_connect_self _ _ _)
            rw [hnext]
            show sub.nextId < sub.nextId + 1
            omega
      | succ t =>
          simp only [List.get?] at h
          have hkeys2 : ∀ e' ∈ ((sub.insertNode ⟨300, -((k : Int) * 150)⟩
              (extOutUCNode k outp.name)).1.connect ⟨nid, port⟩ ⟨sub.nextId, 0⟩).nodes,
              e'.1 < ((sub.insertNode ⟨300, -((k : Int) * 150)⟩
              (extOutUCNode k outp.name)).1.connect ⟨nid, port⟩ ⟨sub.nextId, 0⟩).nextId := by
            rw [hnodes, hnext]
            intro e' he'
            rcases List.mem_append.mp he' with he' | he'
            · have := hkeys e' he'
              omega
            · rcases List.mem_singleton.mp he' with rfl
              simp
          have hlt2 : ∀ e' ∈ rest, e'.1 < ((sub.insertNode ⟨300, -((k : Int) * 150)⟩
              (extOutUCNode k outp.name)).1.connect ⟨nid, port⟩ ⟨sub.nextId, 0⟩).nextId := by
            rw [hnext]
            intro e' he'
            have := hlt e' (List.mem_cons_of_mem _ he')
            omega
          have ih := applyDanglingOutputs_effects rest _
            { node with outputs := node.outputs ++ [outp] } (k + 1) hkeys2 hlt2 t e h
          rw [hnext] at ih
          have h1 : sub.nextId + (t + 1) = sub.nextId + 1 + t := by omega
          have h2 : k + (t + 1) = k + 1 + t := by omega
          rw [h1, h2]
          exact ih

theorem outPinId_ext {p q : OutPinId} (h1 : p.node = q.node)
    (h2 : p.output = q.output) : p = q := by
  cases p
  cases q
  simp_all

/-- C4 (dangling-port exposure): after a successful conversion of a
well-formed graph and selection, every input (resp. output) port of a
selected node that carried no wire at all before extraction yields a
boundary stand-in node inside the new subsystem wired to the rehomed pin,
and an `Internal`-kind port of the same name appended to the replacement
node after the classification-derived ports; and no wire of the resulting
outer graph touches the replacement node beyond the first
`(externalInputs).length` inputs and `(externalOutputs).length` outputs,
so the appended ports carry zero wires at the outer level. -/
theorem dangling_port_exposure (h : Heap) (s : Snarl) (sel : List Nat) (pos : Pos)
    {h' : Heap} {s' : Snarl} {nid : Nat}
    (hwf : SnarlWF s) (hsel : SelWF s sel)
    (hres : convertToSubsystem h s sel pos = some (h', s', nid)) :
    ∃ (rr : BuildResult) (node' : Node),
      convertBuild s sel = some rr ∧ s'.getNode nid = some node' ∧
      (∀ o posn onode i inp, o ∈ sel → s.getNodeEntry o = some (posn, onode) →
        onode.inputs.get? i = some inp →
        (∀ w ∈ s.wires, w.2 ≠ (⟨o, i⟩ : InPinId)) →
        ∃ b extId t,
          mapLookup rr.nmap o = some b ∧
          rr.sub.getNode extId = some (extUCNode t inp.name) ∧
          ((⟨extId, 0⟩, ⟨b, i⟩) : Wire) ∈ rr.sub.wires ∧
          node'.inputs.get? ((externalInputs s sel).length + t) =
            some ⟨inp.name, InputKind.Internal⟩) ∧
      (∀ o posn onode j outp, o ∈ sel → s.getNodeEntry o = some (posn, onode) →
        onode.outputs.get? j = some outp →
        (∀ w ∈ s.wires, w.1 ≠ (⟨o, j⟩ : OutPinId)) →
        ∃ b extId t,
          mapLookup rr.nmap o = some b ∧
          rr.sub.getNode extId = some (extOutUCNode t outp.name) ∧
          ((⟨b, j⟩, ⟨extId, 0⟩) : Wire) ∈ rr.sub.wires ∧
          node'.outputs.get? ((externalOutputs s sel).length + t) =
            some ⟨outp.name, OutputKind.Internal⟩) ∧
      (∀ w' ∈ s'.wires,
        (w'.2.node = nid → w'.2.input < (externalInputs s sel).length) ∧
        (w'.1.node = nid → w'.1.output < (externalOutputs s sel).length)) := by
  obtain ⟨rr, hb, hnidS, hget, hwires, houterW, houterF⟩ := conversion_outer_spec hwf hres
  obtain ⟨inNames, outNames, sub1, sub2, s1, sub3, m, srcIds, sinkIds, sub5, sub6,
    sub7, node1, hin, hout, hsi, hsk, hrh, h5, h6, hdi, hdo, houter, hm, hsrc, hsink⟩ :=
    convertBuild_destruct hb
  subst hm
  have hsrcSpec := insertSources_spec inNames Subsystem.new.snarl 0
  rw [hsi] at hsrcSpec
  simp only at hsrcSpec
  have hsinkSpec := insertSinks_spec outNames sub1 0
  rw [hsk] at hsinkSpec
  simp only at hsinkSpec
  have hsub1next : sub1.nextId = inNames.length := by
    have := hsrcSpec.2.2.1
    simpa [Subsystem.new] using this
  have hbase : sub2.nextId = inNames.length + outNames.length := by
    rw [hsinkSpec.2.2.1, hsub1next]
  have hsub2wires : sub2.wires = [] := by
    rw [hsinkSpec.2.1]
    have := hsrcSpec.2.1
    simpa [Subsystem.new] using this
  have hsrcIds : srcIds = List.range' 0 inNames.length := by
    have := hsrcSpec.2.2.2
    simpa [Subsystem.new] using this
  have hsinkIds : sinkIds = List.range' inNames.length outNames.length := by
    rw [hsinkSpec.2.2.2, hsub1next]
  have hsub2nodes : sub2.nodes =
      srcEntries 0 0 inNames ++ sinkEntries inNames.length 0 outNames := by
    rw [hsinkSpec.1, hsrcSpec.1, hsub1next]
    simp [Subsystem.new]
  have hrspec := rehome_spec sel s sub2 hsel
  rw [hrh] at hrspec
  simp only at hrspec
  have hmzip : rr.nmap = sel.zip (List.range' sub2.nextId sel.length) := hrspec.2.2.2
  have hsub3wires : sub3.wires = [] := by
    have hx := rehome_sub_wires sel s sub2
    rw [hrh] at hx
    simp only at hx
    rw [hx, hsub2wires]
  have hsub3next : sub3.nextId = sub2.nextId + sel.length := by
    have hx := rehome_sub_nextId sel s sub2
    rw [hrh] at hx
    simp only at hx
    rw [hx]
    rw [hmzip, List.length_zip]
    simp
  have hinj : ∀ x y v, mapLookup rr.nmap x = some v → mapLookup rr.nmap y = some v →
      x = y := by
    intro x y v hx hy
    rw [hmzip] at hx hy
    exact mapLookup_zip_range'_inj hx hy
  have hsub4next : (connectInternal rr.nmap sub3 (internalWires s sel)).nextId =
      sub3.nextId := connectInternal_nextId rr.nmap _ sub3
  have hsub5next : sub5.nextId = sub3.nextId := by
    rw [(connectExtInputs_nodes rr.nmap _ _ sub5 h5).2, hsub4next]
  have hsub6next : sub6.nextId = sub3.nextId := by
    rw [(connectExtOutputs_nodes rr.nmap _ _ sub6 h6).2, hsub5next]
  have hsub6nodes : sub6.nodes = sub3.nodes := by
    rw [(connectExtOutputs_nodes rr.nmap _ _ sub6 h6).1,
      (connectExtInputs_nodes rr.nmap _ _ sub5 h5).1, connectInternal_nodes]
  have hkeys6eq : sub6.nodes.map (fun e => e.1) =
      (List.range' 0 inNames.length ++ List.range' inNames.length outNames.length) ++
        List.range' sub2.nextId sel.length := by
    rw [hsub6nodes, hrspec.2.2.1, List.map_append, hsub2nodes, List.map_append,
      srcEntries_keys, sinkEntries_keys, rehomedEntries_keys s sel sub2.nextId hsel.2]
  have hnd6 : (sub6.nodes.map (fun e => e.1)).Nodup := by
    rw [hkeys6eq]
    refine List.Nodup.append (List.Nodup.append ?_ ?_ ?_) ?_ ?_
    · exact List.nodup_range' _ _
    · exact List.nodup_range' _ _
    · intro a ha hb2
      rw [List.mem_range'] at ha hb2
      obtain ⟨ia, hia, ha⟩ := ha
      obtain ⟨ib, hib, hb2⟩ := hb2
      omega
    · exact List.nodup_range' _ _
    · intro a ha hb2
      rw [List.mem_range'] at hb2
      obtain ⟨ib, hib, hb2⟩ := hb2
      rcases List.mem_append.mp ha with ha | ha <;>
      · rw [List.mem_range'] at ha
        obtain ⟨ia, hia, ha⟩ := ha
        omega
  have hkeysLt6 : ∀ e ∈ sub6.nodes, e.1 < sub6.nextId := by
    intro e he
    have hx : e.1 ∈ sub6.nodes.map (fun e => e.1) := List.mem_map_of_mem _ he
    rw [hkeys6eq] at hx
    rw [hsub6next, hsub3next]
    rcases List.mem_append.mp hx with hx | hx
    · rcases List.mem_append.mp hx with hx | hx <;>
      · rw [List.mem_range'] at hx
        obtain ⟨ia, hia, hx⟩ := hx
        omega
    · rw [List.mem_range'] at hx
      obtain ⟨ia, hia, hx⟩ := hx
      omega
  have hk7 := applyDanglingInputs_keys (danglingInputs sub6) sub6
    (replacementBase inNames outNames) 0
  rw [hdi] at hk7
  simp only at hk7
  have hkeysLt7 : ∀ e ∈ sub7.nodes, e.1 < sub7.nextId := by
    intro e he
    have hx : e.1 ∈ sub7.nodes.map (fun e => e.1) := List.mem_map_of_mem _ he
    rw [hk7.1] at hx
    rw [hk7.2]
    rcases List.mem_append.mp hx with hx | hx
    · have hy : ∃ e' ∈ sub6.nodes, e'.1 = e.1 := by
        obtain ⟨e', he', heq⟩ := List.mem_map.mp hx
        exact ⟨e', he', heq⟩
      obtain ⟨e', he', heq⟩ := hy
      have := hkeysLt6 e' he'
      omega
    · rw [List.mem_range'] at hx
      obtain ⟨ia, hia, hx⟩ := hx
      omega
  have h1n : rr.node = (applyDanglingOutputs sub7 node1 0 (danglingOutputs sub7)).2 :=
    (congrArg Prod.snd hdo).symm
  have h2n : node1 = (applyDanglingInputs sub6 (replacementBase inNames outNames) 0
      (danglingInputs sub6)).2 := (congrArg Prod.snd hdi).symm
  have hInputs : rr.node.inputs =
      inNames.map (fun nm => (⟨nm, InputKind.Internal⟩ : Input)) ++
        (danglingInputs sub6).map (fun e => e.2.2) := by
    rw [h1n, (applyDanglingOutputs_node _ _ _ _).2.1, h2n,
      (applyDanglingInputs_node _ _ _ _).2.2.2]
    rfl
  have hOutputs : rr.node.outputs =
      outNames.map (fun nm => (⟨nm, OutputKind.Internal⟩ : Output)) ++
        (danglingOutputs sub7).map (fun e => e.2.2) := by
    rw [h1n, (applyDanglingOutputs_node _ _ _ _).2.2.2, h2n,
      (applyDanglingInputs_node _ _ _ _).2.1]
    rfl
  have hlenIn := (inputNamesOf_spec s _ _ hin).1
  have hlenOut := (outputNamesOf_spec s _ _ hout).1
  refine ⟨rr, { rr.node with subsystem := some h.nextRef }, hb, hget, ?_, ?_, ?_⟩
  · -- dangling inputs
    intro o posn onode i inp ho hgeo hio hnw
    obtain ⟨i1, hi1⟩ := List.mem_iff_get?.mp ho
    have hi1lt : i1 < sel.length := by
      by_contra hge
      rw [List.get?_eq_none.mpr (by omega)] at hi1
      exact Option.noConfusion hi1
    have hlook : mapLookup rr.nmap o = some (sub2.nextId + i1) := by
      rw [hmzip]
      exact mapLookup_zip_range' sel sub2.nextId i1 o hsel.1 hi1
    have hemp6 : ∀ w' ∈ sub6.wires, w'.2 ≠ (⟨sub2.nextId + i1, i⟩ : InPinId) := by
      intro w' hw' heq
      rcases connectExtOutputs_wires_sub rr.nmap _ _ sub6 h6 hw'
        with hw5 | ⟨p, hp, a, ha, heqw⟩
      · rcases connectExtInputs_wires_sub rr.nmap _ _ sub5 h5 hw5
          with hw4 | ⟨p, hp, b2, hb2, heqw⟩
        · rcases connectInternal_wires_sub rr.nmap _ sub3 hw4
            with hw3 | ⟨w0, hw0, a, b2, ha, hb2, heqw⟩
          · rw [hsub3wires] at hw3
            exact absurd hw3 (List.not_mem_nil _)
          · have h21 : w'.2 = (⟨b2, w0.2.input⟩ : InPinId) := by rw [heqw]
            rw [heq] at h21
            rw [InPinId.mk.injEq] at h21
            obtain ⟨hb2e, hie⟩ := h21
            rw [← hb2e] at hb2
            have hnode : w0.2.node = o := hinj _ _ _ hb2 hlook
            exact hnw w0 (internalWires_spec hw0).1 (inPinId_ext hnode hie.symm)
        · have h21 : w'.2 = (⟨b2, p.1.2.input⟩ : InPinId) := by rw [heqw]
          rw [heq] at h21
          rw [InPinId.mk.injEq] at h21
          obtain ⟨hb2e, hie⟩ := h21
          rw [← hb2e] at hb2
          have hnode : p.1.2.node = o := hinj _ _ _ hb2 hlook
          have hp1 := (List.of_mem_zip (by exact hp)).1
          exact hnw p.1 (externalInputs_spec hp1).1 (inPinId_ext hnode hie.symm)
      · have h21 : w'.2 = (⟨p.2, 0⟩ : InPinId) := by rw [heqw]
        rw [heq] at h21
        rw [InPinId.mk.injEq] at h21
        have hp2 := (List.of_mem_zip (by exact hp)).2
        rw [hsinkIds] at hp2
        rw [List.mem_range'] at hp2
        obtain ⟨j2, hj2, hpj⟩ := hp2
        have := h21.1
        omega
    have hemp6' : (sub6.inPinRemotes ⟨sub2.nextId + i1, i⟩).isEmpty = true :=
      inPinRemotes_empty_iff.mpr hemp6
    obtain ⟨pos2, node2x, hge2, hfind⟩ :=
      find?_rehomedEntries s sel sub2.nextId i1 o hi1 hsel.2
    rw [hgeo] at hge2
    have hpe := Option.some.inj hge2
    rw [Prod.mk.injEq] at hpe
    obtain ⟨hpe1, hpe2⟩ := hpe
    subst hpe1
    subst hpe2
    have hmem6 : (sub2.nextId + i1, posn, onode) ∈ sub6.nodes := by
      rw [hsub6nodes, hrspec.2.2.1]
      exact List.mem_append_right _ (List.mem_of_find?_eq_some hfind)
    have hdmem : (sub2.nextId + i1, i, (⟨inp.name, InputKind.Internal⟩ : Input)) ∈
        danglingInputs sub6 :=
      danglingInputs_complete hmem6 (by exact hio) hemp6'
    obtain ⟨t, ht⟩ := List.mem_iff_get?.mp hdmem
    have heff := applyDanglingInputs_effects (danglingInputs sub6) sub6
      (replacementBase inNames outNames) 0 hkeysLt6 (danglingInputs_pairwise hnd6) t _ ht
    rw [hdi] at heff
    simp only [Nat.zero_add] at heff
    have hext : sub7.NodesExtend rr.sub := by
      have hx := applyDanglingOutputs_extend (danglingOutputs sub7) sub7 node1 0
      rw [hdo] at hx
      exact hx
    have hgn : rr.sub.getNode (sub6.nextId + t) = some (extUCNode t inp.name) :=
      Snarl.getNode_of_extend hext heff.1
    have hwmem : ((⟨sub6.nextId + t, 0⟩, ⟨sub2.nextId + i1, i⟩) : Wire) ∈
        rr.sub.wires := by
      have hx := applyDanglingOutputs_wires_preserve (danglingOutputs sub7) sub7 node1 0
        heff.2 (show sub2.nextId + i1 < sub7.nextId by rw [hk7.2, hsub6next, hsub3next]; omega)
      rw [hdo] at hx
      exact hx
    refine ⟨sub2.nextId + i1, sub6.nextId + t, t, hlook, hgn, hwmem, ?_⟩
    show rr.node.inputs.get? _ = _
    rw [hInputs]
    have hlen1 : (inNames.map (fun nm => (⟨nm, InputKind.Internal⟩ : Input))).length =
        (externalInputs s sel).length := by rw [List.length_map, hlenIn]
    rw [List.get?_append_right (by rw [hlen1]; omega), hlen1]
    have harith : (externalInputs s sel).length + t - (externalInputs s sel).length = t := by
      omega
    rw [harith, List.get?_map, ht]
    rfl
  · -- dangling outputs
    intro o posn onode j outp ho hgeo hjo hnw
    obtain ⟨i1, hi1⟩ := List.mem_iff_get?.mp ho
    have hi1lt : i1 < sel.length := by
      by_contra hge
      rw [List.get?_eq_none.mpr (by omega)] at hi1
      exact Option.noConfusion hi1
    have hlook : mapLookup rr.nmap o = some (sub2.nextId + i1) := by
      rw [hmzip]
      exact mapLookup_zip_range' sel sub2.nextId i1 o hsel.1 hi1
    have hemp7 : ∀ w' ∈ sub7.wires, w'.1 ≠ (⟨sub2.nextId + i1, j⟩ : OutPinId) := by
      intro w' hw' heq
      rcases applyDanglingInputs_wires_sub (danglingInputs sub6) sub6
        (replacementBase inNames outNames) 0 (by rw [hdi]; exact hw') with hw6 | hge
      · rcases connectExtOutputs_wires_sub rr.nmap _ _ sub6 h6 hw6
          with hw5 | ⟨p, hp, a, ha, heqw⟩
        · rcases connectExtInputs_wires_sub rr.nmap _ _ sub5 h5 hw5
            with hw4 | ⟨p, hp, b2, hb2, heqw⟩
          · rcases connectInternal_wires_sub rr.nmap _ sub3 hw4
              with hw3 | ⟨w0, hw0, a, b2, ha, hb2, heqw⟩
            · rw [hsub3wires] at hw3
              exact absurd hw3 (List.not_mem_nil _)
            · have h11 : w'.1 = (⟨a, w0.1.output⟩ : OutPinId) := by rw [heqw]
              rw [heq] at h11
              rw [OutPinId.mk.injEq] at h11
              obtain ⟨hae, hje⟩ := h11
              rw [← hae] at ha
              have hnode : w0.1.node = o := hinj _ _ _ ha hlook
              exact hnw w0 (internalWires_spec hw0).1 (outPinId_ext hnode hje.symm)
          · have h11 : w'.1 = (⟨p.2, 0⟩ : OutPinId) := by rw [heqw]
            rw [heq] at h11
            rw [OutPinId.mk.injEq] at h11
            have hp2 := (List.of_mem_zip (by exact hp)).2
            rw [hsrcIds] at hp2
            rw [List.mem_range'] at hp2
            obtain ⟨j2, hj2, hpj⟩ := hp2
            have := h11.1
            omega
        · have h11 : w'.1 = (⟨a, p.1.1.output⟩ : OutPinId) := by rw [heqw]
          rw [heq] at h11
          rw [OutPinId.mk.injEq] at h11
          obtain ⟨hae, hje⟩ := h11
          rw [← hae] at ha
          have hnode : p.1.1.node = o := hinj _ _ _ ha hlook
          have hp1 := (List.of_mem_zip (by exact hp)).1
          exact hnw p.1 (externalOutputs_spec hp1).1 (outPinId_ext hnode hje.symm)
      · have hx : w'.1.node = sub2.nextId + i1 := by rw [heq]
        rw [hsub6next, hsub3next] at hge
        omega
    have hemp7' : (sub7.outPinRemotes ⟨sub2.nextId + i1, j⟩).isEmpty = true :=
      outPinRemotes_empty_iff.mpr hemp7
    obtain ⟨pos2, node2x, hge2, hfind⟩ :=
      find?_rehomedEntries s sel sub2.nextId i1 o hi1 hsel.2
    rw [hgeo] at hge2
    have hpe := Option.some.inj hge2
    rw [Prod.mk.injEq] at hpe
    obtain ⟨hpe1, hpe2⟩ := hpe
    subst hpe1
    subst hpe2
    have hmem6 : (sub2.nextId + i1, posn, onode) ∈ sub6.nodes := by
      rw [hsub6nodes, hrspec.2.2.1]
      exact List.mem_append_right _ (List.mem_of_find?_eq_some hfind)
    have hmem7 : (sub2.nextId + i1, posn, onode) ∈ sub7.nodes := by
      have hx := applyDanglingInputs_extend (danglingInputs sub6) sub6
        (replacementBase inNames outNames) 0
      rw [hdi] at hx
      obtain ⟨l, hl⟩ := hx
      simp only at hl
      rw [hl]
      exact List.mem_append_left _ hmem6
    have hdmem : (sub2.nextId + i1, j, (⟨outp.name, OutputKind.Internal⟩ : Output)) ∈
        danglingOutputs sub7 :=
      danglingOutputs_complete hmem7 (by exact hjo) hemp7'
    obtain ⟨t, ht⟩ := List.mem_iff_get?.mp hdmem
    have hltD : ∀ e ∈ danglingOutputs sub7, e.1 < sub7.nextId := by
      intro e he
      unfold danglingOutputs at he
      obtain ⟨a, ha, hx⟩ := mem_foldr_append
        (fun (a : Nat × Pos × Node) => unconnectedOutputsOf sub7 a.1 0 a.2.2.outputs) _ _ he
      have h1 := (unconnectedOutputsOf_mem sub7 a.1 0 a.2.2.outputs e hx).1
      rw [h1]
      exact hkeysLt7 a ha
    have heff := applyDanglingOutputs_effects (danglingOutputs sub7) sub7 node1 0
      hkeysLt7 hltD t _ ht
    rw [hdo] at heff
    simp only [Nat.zero_add] at heff
    refine ⟨sub2.nextId + i1, sub7.nextId + t, t, hlook, heff.1, heff.2, ?_⟩
    show rr.node.outputs.get? _ = _
    rw [hOutputs]
    have hlen1 : (outNames.map (fun nm => (⟨nm, OutputKind.Internal⟩ : Output))).length =
        (externalOutputs s sel).length := by rw [List.length_map, hlenOut]
    rw [List.get?_append_right (by rw [hlen1]; omega), hlen1]
    have harith : (externalOutputs s sel).length + t - (externalOutputs s sel).length =
        t := by omega
    rw [harith, List.get?_map, ht]
    rfl
  · -- no outer wire beyond the classification-derived ports
    intro w' hw'
    have hwiresLt : ∀ w ∈ s.wires, w.1.node < s.nextId ∧ w.2.node < s.nextId := by
      intro w hw
      constructor
      · obtain ⟨e1, he1, heq1, _⟩ := hwf.2.2.1 w hw
        have := hwf.2.1 e1 he1
        omega
      · obtain ⟨e2, he2, heq2, _⟩ := hwf.2.2.2.1 w hw
        have := hwf.2.1 e2 he2
        omega
    rw [hwires] at hw'
    rcases List.mem_append.mp hw' with hw' | hw'
    · rcases List.mem_append.mp hw' with hw' | hw'
      · have hx := houterF w' hw'
        exact ⟨fun hc => absurd hc hx.2, fun hc => absurd hc hx.1⟩
      · constructor
        · intro _
          have hx := replInWires_idx nid _ 0 w' hw'
          omega
        · intro hc
          obtain ⟨_, w0, hw0, heq1⟩ := replInWires_mem nid _ 0 w' hw'
          have h1 := (hwiresLt w0 (externalInputs_spec hw0).1).1
          rw [hnidS] at hc
          have hx : w'.1.node = w0.1.node := by rw [heq1]
          omega
    · constructor
      · intro hc
        obtain ⟨_, w0, hw0, heq2⟩ := replOutWires_mem nid _ 0 w' hw'
        have h2 := (hwiresLt w0 (externalOutputs_spec hw0).1).2
        rw [hnidS] at hc
        have hx : w'.2.node = w0.2.node := by rw [heq2]
        omega
      · intro _
        have hx := replOutWires_idx nid _ 0 w' hw'
        omega

/-- Witness for C4 at the concrete extraction of "D": the unconnected
input "w" and the unconnected output "v" are exposed through the ExtUC1
and ExtOutUC1 stand-ins inside the subsystem and as appended Internal
ports on the replacement node, which carries no outer wire. -/
theorem dangling_port_exposure_witness :
    SnarlWF danglingPortSnarl ∧ SelWF danglingPortSnarl [0] ∧
    convertToSubsystem ⟨[], 0⟩ danglingPortSnarl [0] ⟨2, 3⟩ =
      some (danglingHeapAfter, danglingConverted, 1) ∧
    (∃ (rr : BuildResult) (node' : Node),
      convertBuild danglingPortSnarl [0] = some rr ∧
      danglingConverted.getNode 1 = some node' ∧
      (∀ o posn onode i inp, o ∈ [0] →
        danglingPortSnarl.getNodeEntry o = some (posn, onode) →
        onode.inputs.get? i = some inp →
        (∀ w ∈ danglingPortSnarl.wires, w.2 ≠ (⟨o, i⟩ : InPinId)) →
        ∃ b extId t,
          mapLookup rr.nmap o = some b ∧
          rr.sub.getNode extId = some (extUCNode t inp.name) ∧
          ((⟨extId, 0⟩, ⟨b, i⟩) : Wire) ∈ rr.sub.wires ∧
          node'.inputs.get? ((externalInputs danglingPortSnarl [0]).length + t) =
            some ⟨inp.name, InputKind.Internal⟩) ∧
      (∀ o posn onode j outp, o ∈ [0] →
        danglingPortSnarl.getNodeEntry o = some (posn, onode) →
        onode.outputs.get? j = some outp →
        (∀ w ∈ danglingPortSnarl.wires, w.1 ≠ (⟨o, j⟩ : OutPinId)) →
        ∃ b extId t,
          mapLookup rr.nmap o = some b ∧
          rr.sub.getNode extId = some (extOutUCNode t outp.name) ∧
          ((⟨b, j⟩, ⟨extId, 0⟩) : Wire) ∈ rr.sub.wires ∧
          node'.outputs.get? ((externalOutputs danglingPortSnarl [0]).length + t) =
            some ⟨outp.name, OutputKind.Internal⟩) ∧
      (∀ w' ∈ danglingConverted.wires,
        (w'.2.node = 1 →
          w'.2.input < (externalInputs danglingPortSnarl [0]).length) ∧
        (w'.1.node = 1 →
          w'.1.output < (externalOutputs danglingPortSnarl [0]).length))) :=
  ⟨by decide, by decide, by decide,
   @dangling_port_exposure ⟨[], 0⟩ danglingPortSnarl [0] ⟨2, 3⟩ danglingHeapAfter
     danglingConverted 1 (by decide) (by decide) (by decide)⟩
